import Mathlib

/-!
# kapp change graph: construction and cycle resolution

A shallow embedding of `pkg/kapp/diffgraph/change_graph.go`.

A `*Change` pointer is modelled by the position of the change in the input
list: the `n` nodes allocated by `NewChangeGraph` are the elements of `Fin n`.
The heap of `Change` objects is a function `Fin n → Change n`; a Go map used as
a set (`map[*Change]struct{}`, `map[*Change]bool`) is a function `Fin n → Bool`.
A `nil` entry of a `[]*Change` slice is `none`.
-/

namespace Kapp

/-! ## Data model -/

/-- Modelled from the spec: the order direction of a `ChangeRule` (declared in
`change_rule.go`). -/
inductive ChangeRuleOrder where
  | After
  | Before
  deriving DecidableEq, Repr

/-- Modelled from the spec: a resolved ordering directive (declared in
`change_rule.go`). Only `Order` and `IgnoreIfCyclical` are read by
`NewChangeGraph`; the target group is consumed by `MatchesRule`. -/
structure ChangeRule where
  Order : ChangeRuleOrder
  TargetGroup : String
  IgnoreIfCyclical : Bool
  deriving DecidableEq, Repr

/-- The two mutable fields of a `Change` node. -/
structure Change (n : Nat) where
  WaitingFor : List (Option (Fin n))
  requiredWaitingFor : Fin n → Bool

/-- A `ChangeGraph`: the top-level slice `changes` together with the `Change`
objects its pointers refer to. -/
structure ChangeGraph (n : Nat) where
  changes : List (Fin n)
  node : Fin n → Change n

/-- The two collaborators `NewChangeGraph` calls on a node: `ApplicableRules`
and `Changes.MatchesRule` (both live in `change.go`). They are taken as given
functions; an error is a message. -/
structure Collaborators (n : Nat) where
  ApplicableRules : Fin n → Except String (List ChangeRule)
  MatchesRule : ChangeRule → Fin n → Except String (List (Fin n))

/-- The error built at line 174: `descPath` extended by the repeated node is
kept as the list of nodes whose descriptions are joined by `" -> "`, and the
node reported as "found repeated". -/
structure CycleError (n : Nat) where
  path : List (Fin n)
  repeated : Fin n
  deriving DecidableEq, Repr

/-- Errors returned by `NewChangeGraph`. -/
inductive GraphError (n : Nat) where
  | rule (msg : String)
  | cycle (e : CycleError n)
  deriving DecidableEq, Repr

/-! ## Small heap operations -/

/-- Insertion of key `k` into a map used as a set (`m[k] = true`). -/
def setAdd {n : Nat} (m : Fin n → Bool) (k : Fin n) : Fin n → Bool :=
  fun x => if x = k then true else m x

/-- Removal of key `k` from a map used as a set (`delete(m, k)`). -/
def setDelete {n : Nat} (m : Fin n → Bool) (k : Fin n) : Fin n → Bool :=
  fun x => if x = k then false else m x

/-- The assignment `c.WaitingFor = append(c.WaitingFor, added...)` on node `c`. -/
def appendWaitingFor {n : Nat} (node : Fin n → Change n) (c : Fin n)
    (added : List (Fin n)) : Fin n → Change n :=
  fun x => if x = c then
    { WaitingFor := (node x).WaitingFor ++ added.map some,
      requiredWaitingFor := (node x).requiredWaitingFor }
  else node x

/-- Insertion of `k` into `c.requiredWaitingFor`. -/
def addRequired {n : Nat} (node : Fin n → Change n) (c k : Fin n) : Fin n → Change n :=
  fun x => if x = c then
    { WaitingFor := (node x).WaitingFor,
      requiredWaitingFor := setAdd (node x).requiredWaitingFor k }
  else node x

/-- The assignment `changes[i] = nil`, where `changes` is the `WaitingFor` slice of
`owner`. -/
def setNil {n : Nat} (node : Fin n → Change n) (owner : Fin n) (i : Nat) :
    Fin n → Change n :=
  fun x => if x = owner then
    { WaitingFor := (node x).WaitingFor.set i none,
      requiredWaitingFor := (node x).requiredWaitingFor }
  else node x

/-! ## Rule application (lines 17-61) -/

/-- Lines 43-45: every matched change becomes required for `c`. -/
def addRequiredAll {n : Nat} (node : Fin n → Change n) (c : Fin n) :
    List (Fin n) → Fin n → Change n
  | [] => node
  | m :: rest => addRequiredAll (addRequired node c m) c rest

/-- Lines 53-58: every matched change waits for `c`. -/
def applyBefore {n : Nat} (ignoreIfCyclical : Bool) (c : Fin n) :
    (Fin n → Change n) → List (Fin n) → Fin n → Change n
  | node, [] => node
  | node, m :: rest =>
    let node1 := appendWaitingFor node m [c]
    let node2 := if !ignoreIfCyclical then addRequired node1 m c else node1
    applyBefore ignoreIfCyclical c node2 rest

/-- One iteration of the loop over `rules` (lines 34-60) for node `c`. -/
def applyRule {n : Nat} (col : Collaborators n) (c : Fin n) (rule : ChangeRule)
    (node : Fin n → Change n) : Except String (Fin n → Change n) :=
  match rule.Order with
  | ChangeRuleOrder.After =>
    match col.MatchesRule rule c with
    | Except.error e => Except.error e
    | Except.ok matched =>
      let node1 := appendWaitingFor node c matched
      Except.ok (if !rule.IgnoreIfCyclical then addRequiredAll node1 c matched else node1)
  | ChangeRuleOrder.Before =>
    match col.MatchesRule rule c with
    | Except.error e => Except.error e
    | Except.ok matched => Except.ok (applyBefore rule.IgnoreIfCyclical c node matched)

/-- The loop over the rules of one node. -/
def applyRules {n : Nat} (col : Collaborators n) (c : Fin n) :
    List ChangeRule → (Fin n → Change n) → Except String (Fin n → Change n)
  | [], node => Except.ok node
  | rule :: rest, node =>
    match applyRule col c rule node with
    | Except.error e => Except.error e
    | Except.ok node1 => applyRules col c rest node1

/-- The loop over `graphChanges` (lines 28-61). -/
def applyAll {n : Nat} (col : Collaborators n) :
    List (Fin n) → (Fin n → Change n) → Except String (Fin n → Change n)
  | [], node => Except.ok node
  | c :: rest, node =>
    match col.ApplicableRules c with
    | Except.error e => Except.error e
    | Except.ok rules =>
      match applyRules col c rules node with
      | Except.error e => Except.error e
      | Except.ok node1 => applyAll col rest node1

/-- Lines 19-26: fresh nodes, no edges. -/
def freshNodes (n : Nat) : Fin n → Change n :=
  fun _ => { WaitingFor := [], requiredWaitingFor := fun _ => false }

/-- Lines 17-63: the graph as built by rule application, before the first
`pruneNilsAndDedup`. -/
def buildGraph {n : Nat} (col : Collaborators n) : Except String (ChangeGraph n) :=
  match applyAll col (List.finRange n) (freshNodes n) with
  | Except.error e => Except.error e
  | Except.ok node => Except.ok { changes := List.finRange n, node := node }

/-! ## pruneNilsAndDedup (lines 130-146) -/

/-- The inner loop (lines 135-142): `seen` is `seenWaitingFor`, `acc` is
`newWaitingFor`. -/
def dedupLoop {n : Nat} : List (Option (Fin n)) → (Fin n → Bool) →
    List (Option (Fin n)) → List (Option (Fin n))
  | [], _, acc => acc
  | none :: rest, seen, acc => dedupLoop rest seen acc
  | some c :: rest, seen, acc =>
    if seen c then dedupLoop rest seen acc
    else dedupLoop rest (setAdd seen c) (acc ++ [some c])

/-- The body of the outer loop for one node, ending in
`change.WaitingFor = newWaitingFor`. -/
def dedupNode {n : Nat} (node : Fin n → Change n) (c : Fin n) : Fin n → Change n :=
  fun x => if x = c then
    { WaitingFor := dedupLoop (node x).WaitingFor (fun _ => false) [],
      requiredWaitingFor := (node x).requiredWaitingFor }
  else node x

/-- The outer loop over `g.changes`. -/
def dedupAll {n : Nat} : List (Fin n) → (Fin n → Change n) → Fin n → Change n
  | [], node => node
  | c :: rest, node => dedupAll rest (dedupNode node c)

/-- Method `pruneNilsAndDedup`. -/
def pruneNilsAndDedup {n : Nat} (g : ChangeGraph n) : ChangeGraph n :=
  { changes := g.changes, node := dedupAll g.changes g.node }

/-! ## Cycle resolution (lines 148-197) -/

/-- The mutable state shared by the frames of one walk: the heap and the
`visitedChanges` map. -/
structure WalkState (n : Nat) where
  node : Fin n → Change n
  visited : Fin n → Bool

/-- One iteration of the loop of `checkCyclesInChanges` (lines 165-194).
`owner` is the node whose `WaitingFor` slice is `changes`, `requiredChanges` and
`descPath` are the arguments of the call, `recurse` is the recursive call of
line 183. The second component is the error returned by the iteration, if any;
the outer `Option` is `none` only when the recursive call ran out of fuel. -/
def cycleStep {n : Nat}
    (recurse : Fin n → (Fin n → Bool) → List (Fin n) → WalkState n →
      Option (WalkState n × Option (CycleError n)))
    (owner : Fin n) (requiredChanges : Fin n → Bool) (descPath : List (Fin n))
    (i : Nat) (s : WalkState n) : Option (WalkState n × Option (CycleError n)) :=
  match (s.node owner).WaitingFor.getD i none with
  | none => some (s, none)
  | some change =>
    let changeDesc := descPath ++ [change]
    if s.visited change then
      if requiredChanges change then
        some (s, some { path := changeDesc, repeated := change })
      else
        some ({ node := setNil s.node owner i, visited := s.visited }, none)
    else
      let s1 : WalkState n := { node := s.node, visited := setAdd s.visited change }
      match recurse change (s1.node change).requiredWaitingFor changeDesc s1 with
      | none => none
      | some (s2, some err) =>
        if requiredChanges change then some (s2, some err)
        else
          some ({ node := setNil s2.node owner i,
                  visited := setDelete s2.visited change }, none)
      | some (s2, none) =>
        some ({ node := s2.node, visited := setDelete s2.visited change }, none)

/-- The `for i, change := range changes` loop: `todo` iterations are left,
the next index is `i`. -/
def cycleLoop {n : Nat}
    (recurse : Fin n → (Fin n → Bool) → List (Fin n) → WalkState n →
      Option (WalkState n × Option (CycleError n)))
    (owner : Fin n) (requiredChanges : Fin n → Bool) (descPath : List (Fin n)) :
    Nat → Nat → WalkState n → Option (WalkState n × Option (CycleError n))
  | 0, _, s => some (s, none)
  | todo + 1, i, s =>
    match cycleStep recurse owner requiredChanges descPath i s with
    | none => none
    | some (s1, some err) => some (s1, some err)
    | some (s1, none) => cycleLoop recurse owner requiredChanges descPath todo (i + 1) s1

/-- Method `checkCyclesInChanges`, called on the `WaitingFor` slice of `owner`.
`fuel` bounds the recursion depth; the result is `none` only when it is
exhausted. On an error the state reached so far is returned with it, since the
heap and the visited map are shared with the caller. -/
def checkCyclesInChanges {n : Nat} : Nat → Fin n → (Fin n → Bool) → List (Fin n) →
    WalkState n → Option (WalkState n × Option (CycleError n))
  | 0, _, _, _, _ => none
  | fuel + 1, owner, requiredChanges, descPath, s =>
    cycleLoop (checkCyclesInChanges fuel) owner requiredChanges descPath
      (s.node owner).WaitingFor.length 0 s

/-- The loop of `checkCycles` over the top-level changes still to visit. Each
root gets a fresh visited map holding only the root. -/
def checkCyclesFrom {n : Nat} : List (Fin n) → (Fin n → Change n) →
    Option (Except (CycleError n) (Fin n → Change n))
  | [], node => some (Except.ok node)
  | change :: rest, node =>
    match checkCyclesInChanges n change (node change).requiredWaitingFor [change]
        { node := node, visited := setAdd (fun _ => false) change } with
    | none => none
    | some (_, some err) => some (Except.error err)
    | some (s, none) => checkCyclesFrom rest s.node

/-- Method `checkCycles`. -/
def checkCycles {n : Nat} (g : ChangeGraph n) : Option (Except (CycleError n) (ChangeGraph n)) :=
  match checkCyclesFrom g.changes g.node with
  | none => none
  | some (Except.error err) => some (Except.error err)
  | some (Except.ok node) => some (Except.ok { changes := g.changes, node := node })

/-- Function `NewChangeGraph` on `n` input changes. -/
def NewChangeGraph {n : Nat} (col : Collaborators n) :
    Option (Except (GraphError n) (ChangeGraph n)) :=
  match buildGraph col with
  | Except.error e => some (Except.error (GraphError.rule e))
  | Except.ok graph =>
    match checkCycles (pruneNilsAndDedup graph) with
    | none => none
    | some (Except.error err) => some (Except.error (GraphError.cycle err))
    | some (Except.ok graph1) => some (Except.ok (pruneNilsAndDedup graph1))

/-! ## Accessors (lines 76-102) -/

/-- Method `AllMatching`. The predicate receives a `*Change`: the node and the object
it points to. -/
def AllMatching {n : Nat} (g : ChangeGraph n) (matchFunc : Fin n → Change n → Bool) :
    List (Fin n) :=
  g.changes.filter (fun change => matchFunc change (g.node change))

/-- Method `All`. -/
def All {n : Nat} (g : ChangeGraph n) : List (Fin n) :=
  AllMatching g (fun _ _ => true)

/-- Method `RemoveMatching`: only `g.changes` is reassigned. -/
def RemoveMatching {n : Nat} (g : ChangeGraph n) (matchFunc : Fin n → Change n → Bool) :
    ChangeGraph n :=
  { changes := g.changes.filter (fun change => !matchFunc change (g.node change)),
    node := g.node }

/-! ## Printer (lines 108-128) -/

/-- One line of the rendering: the line of a change, written
`indent(op) description`, or the line `indent` followed by `cycle found`. -/
inductive Line (n : Nat) where
  | change (indent : String) (c : Fin n)
  | cycleFound (indent : String)
  deriving DecidableEq

/-- What stops `printChanges` short of a rendering: the dereference of a nil entry at
line 116, or exhausted fuel. -/
inductive PrintFault where
  | nilEntry
  | fuel
  deriving DecidableEq

/-- The text of a line, as formatted at lines 116 and 123; `op` and `desc` stand for
`change.Change.Op()` and `change.Change.Resource().Description()`. -/
def renderLine {n : Nat} (op desc : Fin n → String) : Line n → String
  | Line.change indent c => indent ++ "(" ++ op c ++ ") " ++ desc c ++ "\n"
  | Line.cycleFound indent => indent ++ "cycle found\n"

/-- The loop of `printChanges` (lines 115-125) over the entries still to print;
`recurse` is the recursive call of line 120. The visited map is shared with the
caller, so it is returned with the lines. -/
def printLoop {n : Nat} (node : Fin n → Change n)
    (recurse : List (Option (Fin n)) → (Fin n → Bool) → String →
      Except PrintFault (List (Line n) × (Fin n → Bool)))
    (indent : String) :
    List (Option (Fin n)) → (Fin n → Bool) → Except PrintFault (List (Line n) × (Fin n → Bool))
  | [], visitedChanges => Except.ok ([], visitedChanges)
  | none :: _, _ => Except.error PrintFault.nilEntry
  | some change :: rest, visitedChanges =>
    if visitedChanges change then
      match printLoop node recurse indent rest visitedChanges with
      | Except.error e => Except.error e
      | Except.ok (more, visited1) =>
        Except.ok (Line.change indent change :: Line.cycleFound indent :: more, visited1)
    else
      match recurse (node change).WaitingFor (setAdd visitedChanges change) (indent ++ "  ") with
      | Except.error e => Except.error e
      | Except.ok (sub, visited1) =>
        match printLoop node recurse indent rest (setDelete visited1 change) with
        | Except.error e => Except.error e
        | Except.ok (more, visited2) =>
          Except.ok (Line.change indent change :: (sub ++ more), visited2)

/-- Method `printChanges`; `fuel` bounds the recursion depth. -/
def printChanges {n : Nat} (node : Fin n → Change n) : Nat → List (Option (Fin n)) →
    (Fin n → Bool) → String → Except PrintFault (List (Line n) × (Fin n → Bool))
  | 0, _, _, _ => Except.error PrintFault.fuel
  | fuel + 1, changes, visitedChanges, indent =>
    printLoop node (printChanges node fuel) indent changes visitedChanges

/-- The lines of `PrintStr`: `printChanges` on the top-level changes with an empty
visited map and an empty indent. -/
def PrintLines {n : Nat} (g : ChangeGraph n) : Except PrintFault (List (Line n)) :=
  match printChanges g.node (n + 1) (g.changes.map some) (fun _ => false) "" with
  | Except.error e => Except.error e
  | Except.ok (lines, _) => Except.ok lines

/-- Method `PrintStr`: the concatenation of the lines. -/
def PrintStr {n : Nat} (op desc : Fin n → String) (g : ChangeGraph n) :
    Except PrintFault String :=
  match PrintLines g with
  | Except.error e => Except.error e
  | Except.ok lines => Except.ok (String.join (lines.map (renderLine op desc)))

/-! ## Properties used in the statements -/

variable {n : Nat}

/-- There is a wait edge from `x` to `y`. -/
def Edge (node : Fin n → Change n) (x y : Fin n) : Prop :=
  some y ∈ (node x).WaitingFor

/-- A wait edge from `x` to `y` that is mandatory. -/
def MandatoryEdge (node : Fin n → Change n) (x y : Fin n) : Prop :=
  some y ∈ (node x).WaitingFor ∧ (node x).requiredWaitingFor y = true

/-- `node1` is `node` with some non-required entries replaced by nil. -/
def PrunedFrom (node node1 : Fin n → Change n) : Prop :=
  ∀ x, (node1 x).requiredWaitingFor = (node x).requiredWaitingFor ∧
    (node1 x).WaitingFor.length = (node x).WaitingFor.length ∧
    ∀ i, (node1 x).WaitingFor.getD i none = (node x).WaitingFor.getD i none ∨
      ((node1 x).WaitingFor.getD i none = none ∧
        ∃ c, (node x).WaitingFor.getD i none = some c ∧ (node x).requiredWaitingFor c = false)

/-- What every call of the walk guarantees about the state it hands back. -/
structure StepOK (s s1 : WalkState n) : Prop where
  pruned : PrunedFrom s.node s1.node
  mono : ∀ x, s.visited x = true → s1.visited x = true

/-- The guarantee assumed of the recursive call. -/
def RecOK (recurse : Fin n → (Fin n → Bool) → List (Fin n) → WalkState n →
    Option (WalkState n × Option (CycleError n))) : Prop :=
  ∀ c p s s1 r, recurse c (s.node c).requiredWaitingFor p s = some (s1, r) → StepOK s s1

/-- Number of nodes not in the visited map. -/
def unvisited (v : Fin n → Bool) : Nat :=
  ((Finset.univ : Finset (Fin n)).filter (fun x => v x = false)).card

/-- The recursive call returns whenever fewer than `fuel` nodes are unvisited. -/
def RecTotal (fuel : Nat) (recurse : Fin n → (Fin n → Bool) → List (Fin n) → WalkState n →
    Option (WalkState n × Option (CycleError n))) : Prop :=
  ∀ c p s, unvisited s.visited < fuel → recurse c (s.node c).requiredWaitingFor p s ≠ none

/-- No node of `V` can be reached from `x` along one or more wait edges. -/
def NoReach (node : Fin n → Change n) (x : Fin n) (V : Fin n → Bool) : Prop :=
  ∀ y, V y = true → ¬ Relation.TransGen (Edge node) x y

/-- A successful recursive call leaves no path back into its visited map. -/
def RecSound (recurse : Fin n → (Fin n → Bool) → List (Fin n) → WalkState n →
    Option (WalkState n × Option (CycleError n))) : Prop :=
  ∀ c p s s1, recurse c (s.node c).requiredWaitingFor p s = some (s1, none) →
    NoReach s1.node c s.visited

/-- A recursive call entered on a node with a mandatory path to a visited node
does not return success. -/
def RecComplete (recurse : Fin n → (Fin n → Bool) → List (Fin n) → WalkState n →
    Option (WalkState n × Option (CycleError n))) : Prop :=
  ∀ c p s s1 y, s.visited y = true → Relation.TransGen (MandatoryEdge s.node) c y →
    recurse c (s.node c).requiredWaitingFor p s ≠ some (s1, none)

/-- Nil-free and duplicate-free. -/
def Clean (l : List (Option (Fin n))) : Prop := l.Nodup ∧ none ∉ l

/-- Example collaborators: every node of `rules` resolves to the listed rules,
and a rule on node `c` matches the nodes `targets c`. -/
def exampleCol (n : Nat) (rules : Fin n → List ChangeRule) (targets : Fin n → List (Fin n)) :
    Collaborators n :=
  { ApplicableRules := fun c => Except.ok (rules c),
    MatchesRule := fun _ c => Except.ok (targets c) }

/-- An `After` rule. -/
def afterRule (ignoreIfCyclical : Bool) : ChangeRule :=
  { Order := ChangeRuleOrder.After, TargetGroup := "g", IgnoreIfCyclical := ignoreIfCyclical }

/-- The chain A waits for B, B waits for C, C waits for A, all mandatory. -/
def chainMandatory : Collaborators 3 :=
  exampleCol 3 (fun _ => [afterRule false]) (fun c => [c + 1])

/-- The same chain with the closing rule on C marked `IgnoreIfCyclical`. -/
def chainOptional : Collaborators 3 :=
  exampleCol 3 (fun c => [afterRule (decide (c = 2))]) (fun c => [c + 1])

/-- The graph a successful `buildGraph` returns (empty when it fails). -/
def builtOf (col : Collaborators n) : ChangeGraph n :=
  match buildGraph col with
  | Except.ok g => g
  | Except.error _ => { changes := [], node := freshNodes n }

/-- The graph a successful `NewChangeGraph` returns (empty otherwise). -/
def resultOf (col : Collaborators n) : ChangeGraph n :=
  match NewChangeGraph col with
  | some (Except.ok g) => g
  | _ => { changes := [], node := freshNodes n }

/-- Four changes D, P, Q, X (in input order): D waits for P and X, P waits for Q
by a rule marked `IgnoreIfCyclical`, Q waits for X, X waits for P. `dIgnore` is
the `IgnoreIfCyclical` flag of the rule on D. The only cycle is P, Q, X. -/
def staleCol (dIgnore : Bool) : Collaborators 4 :=
  exampleCol 4
    (fun c => if c = 0 then [afterRule dIgnore] else if c = 1 then [afterRule true]
      else [afterRule false])
    (fun c => if c = 0 then [1, 3] else if c = 1 then [2] else if c = 2 then [3] else [1])

/-- Rank of the nodes of `staleCol`: every mandatory edge goes down. -/
def staleRank (c : Fin 4) : Nat :=
  if c = 0 then 3 else if c = 1 then 0 else if c = 2 then 2 else 1

instance (node : Fin n → Change n) (x y : Fin n) : Decidable (Edge node x y) := by
  unfold Edge; infer_instance

instance (node : Fin n → Change n) (x y : Fin n) : Decidable (MandatoryEdge node x y) := by
  unfold MandatoryEdge; infer_instance

/-- The edge from `a` to `b` is produced by `rule` when it is applied on node `c`. -/
def Contrib (col : Collaborators n) (c : Fin n) (rule : ChangeRule) (a b : Fin n) : Prop :=
  ∃ matched, col.MatchesRule rule c = Except.ok matched ∧
    ((rule.Order = ChangeRuleOrder.After ∧ a = c ∧ b ∈ matched) ∨
     (rule.Order = ChangeRuleOrder.Before ∧ b = c ∧ a ∈ matched))

/-- `node1` is `node` with the edges `E` added, those of `M` as mandatory. -/
structure Grows (node node1 : Fin n → Change n) (E M : Fin n → Fin n → Prop) : Prop where
  edge : ∀ a b, some b ∈ (node1 a).WaitingFor ↔ some b ∈ (node a).WaitingFor ∨ E a b
  req : ∀ a b, (node1 a).requiredWaitingFor b = true ↔
    (node a).requiredWaitingFor b = true ∨ M a b
  nil : ∀ a, none ∈ (node1 a).WaitingFor ↔ none ∈ (node a).WaitingFor

/-- Every required node is waited for. -/
def ReqSubset (node : Fin n → Change n) : Prop :=
  ∀ a b, (node a).requiredWaitingFor b = true → some b ∈ (node a).WaitingFor

/-- Some rule resolved for some node of `cs` produces the edge from `a` to `b`. -/
def RuleEdge (col : Collaborators n) (cs : List (Fin n)) (a b : Fin n) : Prop :=
  ∃ c, c ∈ cs ∧ ∃ rules, col.ApplicableRules c = Except.ok rules ∧
    ∃ r, r ∈ rules ∧ Contrib col c r a b

/-- Some rule not marked `IgnoreIfCyclical` resolved for some node of `cs` produces
the edge from `a` to `b`. -/
def RuleEdgeRequired (col : Collaborators n) (cs : List (Fin n)) (a b : Fin n) : Prop :=
  ∃ c, c ∈ cs ∧ ∃ rules, col.ApplicableRules c = Except.ok rules ∧
    ∃ r, r ∈ rules ∧ Contrib col c r a b ∧ r.IgnoreIfCyclical = false

/-- Rule `r` makes `a` wait for `b`: it is an `After` rule applicable to `a` that
matches `b`, or a `Before` rule applicable to `b` that matches `a`. -/
def MakesWait (col : Collaborators n) (r : ChangeRule) (a b : Fin n) : Prop :=
  (r.Order = ChangeRuleOrder.After ∧ ∃ rules matched,
    col.ApplicableRules a = Except.ok rules ∧ r ∈ rules ∧
    col.MatchesRule r a = Except.ok matched ∧ b ∈ matched) ∨
  (r.Order = ChangeRuleOrder.Before ∧ ∃ rules matched,
    col.ApplicableRules b = Except.ok rules ∧ r ∈ rules ∧
    col.MatchesRule r b = Except.ok matched ∧ a ∈ matched)

/-- A `Before` rule. -/
def beforeRule (ignoreIfCyclical : Bool) : ChangeRule :=
  { Order := ChangeRuleOrder.Before, TargetGroup := "g", IgnoreIfCyclical := ignoreIfCyclical }

/-- Two changes A and B: A has a mandatory and an optional `After` rule that both match
B, and B has an optional `Before` rule matching A, so three rules produce the one edge
from A to B. -/
def tripleCol : Collaborators 2 :=
  exampleCol 2
    (fun c => if c = 0 then [afterRule false, afterRule true] else [beforeRule true])
    (fun c => [c + 1])

/-- No chain of one or more wait edges leads from a node back to itself. -/
def Acyclic (node : Fin n → Change n) : Prop :=
  ∀ x, ¬ Relation.TransGen (Edge node) x x

/-- On an acyclic heap, a recursive call entered with every node reachable from its
node still unvisited hands the state back untouched. -/
def RecId (recurse : Fin n → (Fin n → Bool) → List (Fin n) → WalkState n →
    Option (WalkState n × Option (CycleError n))) : Prop :=
  ∀ c p (s : WalkState n) res, Acyclic s.node →
    (∀ y, Relation.TransGen (Edge s.node) c y → s.visited y = false) →
    recurse c (s.node c).requiredWaitingFor p s = some res → res = (s, none)

/-- The graph with the single edge "`b` waits for `a`", mandatory unless
`ignoreIfCyclical`. -/
def singleEdgeGraph (n : Nat) (a b : Fin n) (ignoreIfCyclical : Bool) : ChangeGraph n :=
  { changes := List.finRange n,
    node := fun x =>
      if x = b then
        { WaitingFor := [some a],
          requiredWaitingFor := fun y => decide (y = a) && !ignoreIfCyclical }
      else { WaitingFor := [], requiredWaitingFor := fun _ => false } }

/-- Two changes A and B with the single rule "A before B", mandatory. -/
def beforeCol : Collaborators 2 :=
  exampleCol 2 (fun c => if c = 0 then [beforeRule false] else []) (fun c => [c + 1])

/-- Two changes A and B with the single rule "B after A", mandatory. -/
def afterCol : Collaborators 2 :=
  exampleCol 2 (fun c => if c = 1 then [afterRule false] else []) (fun c => [c + 1])

/-- The node after `x` on a cycle of length `m` enumerated by `σ`: position `k` of the
cycle holds `σ k`, and the last position is followed by the first. -/
def nextOnCycle (σ : Equiv.Perm (Fin n)) (m : Nat) (x : Fin n) : Fin n :=
  if h : ((σ.symm x).val + 1) % m < n then σ ⟨((σ.symm x).val + 1) % m, h⟩ else x

/-- The nodes at positions `r` to `k`, as a visited map. -/
def segment (σ : Equiv.Perm (Fin n)) (r k : Nat) : Fin n → Bool :=
  fun y => decide (r ≤ (σ.symm y).val ∧ (σ.symm y).val ≤ k)

/-- The edges of the heap form one simple cycle over the `m` nodes at positions below
`m`: each of them waits for exactly the next one, only the closing edge, out of the
last position, is optional, and the other nodes wait for nothing. -/
structure IsCycle (σ : Equiv.Perm (Fin n)) (m : Nat) (U : Fin n → Change n) : Prop where
  wf : ∀ x, (σ.symm x).val < m → (U x).WaitingFor = [some (nextOnCycle σ m x)]
  off : ∀ x, ¬ (σ.symm x).val < m → (U x).WaitingFor = []
  req : ∀ x, (σ.symm x).val < m →
    ((U x).requiredWaitingFor (nextOnCycle σ m x) = true ↔ (σ.symm x).val + 1 < m)

/-- The heap `P` is the cycle `U` with its closing edge pruned. -/
structure IsOpened (σ : Equiv.Perm (Fin n)) (m : Nat) (U P : Fin n → Change n) : Prop where
  req : ∀ x, (P x).requiredWaitingFor = (U x).requiredWaitingFor
  inner : ∀ x, (σ.symm x).val + 1 < m → (P x).WaitingFor = [some (nextOnCycle σ m x)]
  last : ∀ x, (σ.symm x).val + 1 = m → (P x).WaitingFor = [none]
  off : ∀ x, ¬ (σ.symm x).val < m → (P x).WaitingFor = []

/-- In `built`, `x` is added for the first time before `y` is: some prefix of `built`
holds `x` and not `y`. -/
def FirstBefore (built : List (Option (Fin n))) (x y : Option (Fin n)) : Prop :=
  ∃ l1 l2, built = l1 ++ l2 ∧ x ∈ l1 ∧ y ∉ l1

/-- Three changes without any rule. -/
def noRulesCol : Collaborators 3 :=
  exampleCol 3 (fun _ => []) (fun _ => [])

/-- A diamond: A waits for B and C (mandatory), B waits for D (optional), C waits for D
(mandatory), D waits for nothing. D is reached from A along two branches. -/
def diamondCol : Collaborators 4 :=
  exampleCol 4
    (fun c => if c = 0 then [afterRule false] else if c = 1 then [afterRule true]
      else if c = 2 then [afterRule false] else [])
    (fun c => if c = 0 then [1, 2] else [3])

/-- Rank of the nodes of `diamondCol`: every edge goes down. -/
def diamondRank (c : Fin 4) : Nat :=
  if c = 0 then 2 else if c = 3 then 0 else 1

/-- No `WaitingFor` entry of the heap is nil. -/
def NilFree (node : Fin n → Change n) : Prop :=
  ∀ x, none ∉ (node x).WaitingFor

/-- From some entry of `l` a chain of wait edges leads to a node of the visited map `V`
or to a node that lies on a cycle. -/
def Hit (node : Fin n → Change n) (V : Fin n → Bool) (l : List (Option (Fin n))) : Prop :=
  ∃ c, some c ∈ l ∧ ∃ y, Relation.ReflTransGen (Edge node) c y ∧
    (V y = true ∨ Relation.TransGen (Edge node) y y)

/-- The rendering holds a `cycle found` line. -/
def HasMarker (lines : List (Line n)) : Prop :=
  ∃ indent, Line.cycleFound indent ∈ lines

/-- A string of `k` spaces. -/
def spaces (k : Nat) : String :=
  String.mk (List.replicate k ' ')

/-- The plain tree rendering of the entries of a list at depth `depth`: for every
entry in order its line, prefixed by `2 * depth` spaces, followed by the rendering of
its `WaitingFor` one level deeper, for which `recurse` stands. -/
def treeLoop (node : Fin n → Change n)
    (recurse : Nat → List (Option (Fin n)) → List (Line n)) (depth : Nat) :
    List (Option (Fin n)) → List (Line n)
  | [] => []
  | none :: rest => treeLoop node recurse depth rest
  | some c :: rest =>
    Line.change (spaces (2 * depth)) c ::
      (recurse (depth + 1) (node c).WaitingFor ++ treeLoop node recurse depth rest)

/-- The plain recursive tree rendering, cut below `fuel` levels. -/
def treeRendering (node : Fin n → Change n) : Nat → Nat → List (Option (Fin n)) →
    List (Line n)
  | 0, _, _ => []
  | fuel + 1, depth, l => treeLoop node (treeRendering node fuel) depth l

/-- The paths that start at an entry of a list, in the order of the tree rendering:
for every entry the path made of it alone, then the paths through it, for whose tails
`recurse` stands. -/
def pathsLoop (node : Fin n → Change n)
    (recurse : List (Option (Fin n)) → List (List (Fin n))) :
    List (Option (Fin n)) → List (List (Fin n))
  | [] => []
  | none :: rest => pathsLoop node recurse rest
  | some c :: rest =>
    [c] :: ((recurse (node c).WaitingFor).map (fun q => c :: q) ++ pathsLoop node recurse rest)

/-- The paths of at most `fuel` nodes that start at an entry of a list. -/
def allPaths (node : Fin n → Change n) : Nat → List (Option (Fin n)) → List (List (Fin n))
  | 0, _ => []
  | fuel + 1, l => pathsLoop node (allPaths node fuel) l

/-- The line of a path whose first node stands at depth `depth`: the line of its last
node, one level deeper for every further node. -/
def pathLine : Nat → List (Fin n) → Line n
  | _, [] => Line.cycleFound ""
  | depth, [c] => Line.change (spaces (2 * depth)) c
  | depth, _ :: d :: q => pathLine (depth + 1) (d :: q)

/-- A path of the graph: it starts at a top-level node and follows wait edges. -/
def IsPath (g : ChangeGraph n) (p : List (Fin n)) : Prop :=
  ∃ r rest, p = r :: rest ∧ r ∈ g.changes ∧ List.Chain (Edge g.node) r rest

/-! ## Theorems -/

theorem PrunedFrom.refl (node : Fin n → Change n) : PrunedFrom node node :=
  fun _ => ⟨rfl, rfl, fun _ => Or.inl rfl⟩

theorem PrunedFrom.trans {a b c : Fin n → Change n} (h1 : PrunedFrom a b)
    (h2 : PrunedFrom b c) : PrunedFrom a c := by
  intro x
  obtain ⟨r1, l1, e1⟩ := h1 x
  obtain ⟨r2, l2, e2⟩ := h2 x
  refine ⟨r2.trans r1, l2.trans l1, fun i => ?_⟩
  rcases e2 i with h | ⟨h, c, hc, hr⟩
  · rw [h]; exact e1 i
  · rcases e1 i with h' | ⟨h', _⟩
    · right
      refine ⟨h, c, ?_, ?_⟩
      · rw [← h']; exact hc
      · rw [← r1]; exact hr
    · rw [h'] at hc; cases hc

theorem mem_iff_getD {l : List (Option (Fin n))} {c : Fin n} :
    some c ∈ l ↔ ∃ i, l.getD i none = some c := by
  constructor
  · intro h
    obtain ⟨i, hi, e⟩ := List.getElem_of_mem h
    refine ⟨i, ?_⟩
    rw [List.getD_eq_getElem?_getD, List.getElem?_eq_getElem hi, e]; rfl
  · rintro ⟨i, h⟩
    rw [List.getD_eq_getElem?_getD] at h
    by_cases hi : i < l.length
    · rw [List.getElem?_eq_getElem hi] at h
      simp at h
      rw [← h]; exact List.getElem_mem hi
    · rw [List.getElem?_eq_none (by omega)] at h
      simp at h

theorem getD_set_none (l : List (Option (Fin n))) (i j : Nat) :
    (l.set i none).getD j none = if j = i then none else l.getD j none := by
  simp only [List.getD_eq_getElem?_getD, List.getElem?_set]
  by_cases h : i = j
  · subst h
    by_cases hi : i < l.length <;> simp [hi]
  · have : ¬ j = i := fun e => h e.symm
    simp [h, this]

theorem PrunedFrom.edge {a b : Fin n → Change n} (h : PrunedFrom a b) {x y : Fin n}
    (e : Edge b x y) : Edge a x y := by
  unfold Edge at *
  rw [mem_iff_getD] at *
  obtain ⟨i, hi⟩ := e
  rcases (h x).2.2 i with h' | ⟨h', _⟩
  · exact ⟨i, h' ▸ hi⟩
  · rw [h'] at hi; cases hi

theorem PrunedFrom.mandatory {a b : Fin n → Change n} (h : PrunedFrom a b) {x y : Fin n}
    (e : MandatoryEdge a x y) : MandatoryEdge b x y := by
  obtain ⟨e1, e2⟩ := e
  refine ⟨?_, by rw [(h x).1]; exact e2⟩
  rw [mem_iff_getD] at *
  obtain ⟨i, hi⟩ := e1
  rcases (h x).2.2 i with h' | ⟨_, c, hc, hr⟩
  · exact ⟨i, h'.trans hi⟩
  · rw [hi] at hc; cases hc; rw [e2] at hr; cases hr

theorem prunedFrom_setNil (node : Fin n → Change n) (owner : Fin n) (i : Nat)
    (h : ∀ c, (node owner).WaitingFor.getD i none = some c →
      (node owner).requiredWaitingFor c = false) :
    PrunedFrom node (setNil node owner i) := by
  intro x
  unfold setNil
  by_cases hx : x = owner
  · subst hx
    rw [if_pos rfl]
    refine ⟨rfl, List.length_set _ _ _, fun j => ?_⟩
    show ((node x).WaitingFor.set i none).getD j none = _ ∨ _
    rw [getD_set_none]
    by_cases hj : j = i
    · subst hj
      rw [if_pos rfl]
      cases hc : (node x).WaitingFor.getD j none with
      | none => left; rfl
      | some c => right; exact ⟨rfl, c, rfl, h c hc⟩
    · rw [if_neg hj]; left; rfl
  · rw [if_neg hx]
    exact ⟨rfl, rfl, fun _ => Or.inl rfl⟩

theorem StepOK.same (s : WalkState n) : StepOK s s := ⟨PrunedFrom.refl _, fun _ h => h⟩

theorem StepOK.andThen {a b c : WalkState n} (h1 : StepOK a b) (h2 : StepOK b c) : StepOK a c :=
  ⟨h1.pruned.trans h2.pruned, fun x h => h2.mono x (h1.mono x h)⟩

theorem cycleStep_ok {recurse} (hrec : RecOK (n := n) recurse) {owner : Fin n}
    {p : List (Fin n)} {i : Nat} {s s1 : WalkState n} {r : Option (CycleError n)}
    (h : cycleStep recurse owner (s.node owner).requiredWaitingFor p i s = some (s1, r)) :
    StepOK s s1 := by
  unfold cycleStep at h
  cases hc : (s.node owner).WaitingFor.getD i none with
  | none =>
    simp only [hc] at h
    cases h; exact StepOK.same _
  | some c =>
    simp only [hc] at h
    by_cases hv : s.visited c = true
    · simp only [hv, if_true] at h
      by_cases hr : (s.node owner).requiredWaitingFor c = true
      · simp only [hr, if_true] at h
        cases h; exact StepOK.same _
      · simp only [hr] at h
        cases h
        refine ⟨prunedFrom_setNil _ _ _ ?_, fun _ h => h⟩
        intro c' hc'
        rw [hc] at hc'; cases hc'
        simpa using hr
    · simp only [hv] at h
      cases hrc : recurse c (s.node c).requiredWaitingFor (p ++ [c])
          { node := s.node, visited := setAdd s.visited c } with
      | none => simp [hrc] at h
      | some res =>
        obtain ⟨s2, r2⟩ := res
        have ok := hrec c (p ++ [c]) { node := s.node, visited := setAdd s.visited c } s2 r2 hrc
        have ok1 : StepOK s { node := s.node, visited := setAdd s.visited c } :=
          ⟨PrunedFrom.refl _, fun x hx => by simp [setAdd, hx]⟩
        have ok2 := ok1.andThen ok
        have hdel : ∀ x, s.visited x = true → setDelete s2.visited c x = true := by
          intro x hx
          have hxc : x ≠ c := fun e => hv (e ▸ hx)
          simp only [setDelete, hxc, if_false]
          exact ok2.mono x hx
        simp only [hrc] at h
        cases r2 with
        | none =>
          cases h
          exact ⟨ok2.pruned, hdel⟩
        | some err =>
          simp only at h
          by_cases hr : (s.node owner).requiredWaitingFor c = true
          · simp only [hr, if_true] at h
            cases h
            exact ok2
          · simp only [hr] at h
            cases h
            refine ⟨ok2.pruned.trans (prunedFrom_setNil _ _ _ ?_), hdel⟩
            intro c' hc'
            rcases (ok2.pruned owner).2.2 i with e | ⟨e, _⟩
            · rw [e, hc] at hc'; cases hc'
              rw [(ok2.pruned owner).1]; simpa using hr
            · rw [e] at hc'; cases hc'

theorem cycleLoop_ok {recurse} (hrec : RecOK (n := n) recurse) {owner : Fin n}
    {p : List (Fin n)} : ∀ (todo i : Nat) (s s1 : WalkState n) (r : Option (CycleError n)),
    cycleLoop recurse owner (s.node owner).requiredWaitingFor p todo i s = some (s1, r) →
    StepOK s s1 := by
  intro todo
  induction todo with
  | zero =>
    intro i s s1 r h
    simp only [cycleLoop] at h
    cases h; exact StepOK.same _
  | succ todo ih =>
    intro i s s1 r h
    simp only [cycleLoop] at h
    cases hst : cycleStep recurse owner (s.node owner).requiredWaitingFor p i s with
    | none => simp [hst] at h
    | some res =>
      obtain ⟨s2, r2⟩ := res
      have ok := cycleStep_ok hrec hst
      simp only [hst] at h
      cases r2 with
      | some err => cases h; exact ok
      | none =>
        simp only at h
        rw [← (ok.pruned owner).1] at h
        exact ok.andThen (ih _ _ _ _ h)

theorem checkCyclesInChanges_ok : ∀ fuel : Nat, RecOK (n := n) (checkCyclesInChanges fuel) := by
  intro fuel
  induction fuel with
  | zero => intro c p s s1 r h; simp [checkCyclesInChanges] at h
  | succ fuel ih =>
    intro c p s s1 r h
    simp only [checkCyclesInChanges] at h
    exact cycleLoop_ok ih _ _ _ _ _ h

theorem unvisited_le (v : Fin n → Bool) : unvisited v ≤ n := by
  unfold unvisited
  calc _ ≤ (Finset.univ : Finset (Fin n)).card := Finset.card_filter_le _ _
    _ = n := by simp

theorem unvisited_mono {v w : Fin n → Bool} (h : ∀ x, v x = true → w x = true) :
    unvisited w ≤ unvisited v := by
  unfold unvisited
  apply Finset.card_le_card
  intro x hx
  simp only [Finset.mem_filter, Finset.mem_univ, true_and] at *
  cases hv : v x with
  | false => rfl
  | true => rw [h x hv] at hx; cases hx

theorem unvisited_setAdd_lt {v : Fin n → Bool} {c : Fin n} (h : v c = false) :
    unvisited (setAdd v c) < unvisited v := by
  unfold unvisited
  apply Finset.card_lt_card
  rw [Finset.ssubset_iff_of_subset]
  · refine ⟨c, by simp [h], by simp [setAdd]⟩
  · intro x hx
    simp only [Finset.mem_filter, Finset.mem_univ, true_and, setAdd] at *
    by_cases hxc : x = c
    · simp [hxc] at hx
    · simpa [hxc] using hx

theorem cycleStep_total {recurse} {fuel : Nat} (htot : RecTotal (n := n) fuel recurse)
    {owner : Fin n} {req : Fin n → Bool} {p : List (Fin n)} {i : Nat} {s : WalkState n}
    (hs : unvisited s.visited ≤ fuel) :
    cycleStep recurse owner req p i s ≠ none := by
  unfold cycleStep
  cases hc : (s.node owner).WaitingFor.getD i none with
  | none => simp
  | some c =>
    simp only
    by_cases hv : s.visited c = true
    · simp only [hv, if_true]
      by_cases hr : req c = true <;> simp [hr]
    · simp only [hv]
      have hv' : s.visited c = false := by simpa using hv
      have := htot c (p ++ [c])
        { node := s.node, visited := setAdd s.visited c }
        (lt_of_lt_of_le (unvisited_setAdd_lt hv') hs)
      cases hrc : recurse c (s.node c).requiredWaitingFor (p ++ [c])
          { node := s.node, visited := setAdd s.visited c } with
      | none => exact absurd hrc this
      | some res =>
        obtain ⟨s2, r2⟩ := res
        cases r2 with
        | none => simp
        | some err => by_cases hr : req c = true <;> simp [hr]

theorem cycleLoop_total {recurse} {fuel : Nat} (hrec : RecOK (n := n) recurse)
    (htot : RecTotal fuel recurse) {owner : Fin n} {p : List (Fin n)} :
    ∀ (todo i : Nat) (s : WalkState n), unvisited s.visited ≤ fuel →
    cycleLoop recurse owner (s.node owner).requiredWaitingFor p todo i s ≠ none := by
  intro todo
  induction todo with
  | zero => intro i s _; simp [cycleLoop]
  | succ todo ih =>
    intro i s hs
    simp only [cycleLoop]
    cases hst : cycleStep recurse owner (s.node owner).requiredWaitingFor p i s with
    | none => exact absurd hst (cycleStep_total htot hs)
    | some res =>
      obtain ⟨s2, r2⟩ := res
      have ok := cycleStep_ok hrec hst
      cases r2 with
      | some err => simp
      | none =>
        simp only
        rw [← (ok.pruned owner).1]
        exact ih _ _ (le_trans (unvisited_mono ok.mono) hs)

theorem checkCyclesInChanges_total : ∀ fuel : Nat,
    RecTotal (n := n) fuel (checkCyclesInChanges fuel) := by
  intro fuel
  induction fuel with
  | zero => intro c p s h; omega
  | succ fuel ih =>
    intro c p s h
    simp only [checkCyclesInChanges]
    exact cycleLoop_total (checkCyclesInChanges_ok fuel) ih _ _ _ (by omega)

/-! ### Soundness: what survives a successful frame reaches no visited node -/

theorem NoReach.pruned {a b : Fin n → Change n} (h : PrunedFrom a b) {x : Fin n}
    {V : Fin n → Bool} (hn : NoReach a x V) : NoReach b x V :=
  fun y hy ht => hn y hy (Relation.TransGen.mono (fun _ _ e => h.edge e) ht)

theorem NoReach.subset {a : Fin n → Change n} {x : Fin n} {V W : Fin n → Bool}
    (h : ∀ y, W y = true → V y = true) (hn : NoReach a x V) : NoReach a x W :=
  fun y hy ht => hn y (h y hy) ht

theorem cycleStep_sound {recurse} (hrec : RecOK (n := n) recurse) (hsnd : RecSound recurse)
    {owner : Fin n} {p : List (Fin n)} {i : Nat} {s s1 : WalkState n} {V : Fin n → Bool}
    (hV : ∀ y, V y = true → s.visited y = true)
    (h : cycleStep recurse owner (s.node owner).requiredWaitingFor p i s = some (s1, none))
    {c : Fin n} (hc : (s1.node owner).WaitingFor.getD i none = some c) :
    V c = false ∧ NoReach s1.node c V := by
  unfold cycleStep at h
  cases hc0 : (s.node owner).WaitingFor.getD i none with
  | none =>
    simp only [hc0] at h
    cases h; rw [hc0] at hc; cases hc
  | some c0 =>
    simp only [hc0] at h
    by_cases hv : s.visited c0 = true
    · simp only [hv, if_true] at h
      by_cases hr : (s.node owner).requiredWaitingFor c0 = true
      · simp [hr] at h
      · simp only [hr] at h
        cases h
        simp only [setNil, if_true] at hc
        rw [getD_set_none] at hc
        simp at hc
    · simp only [hv] at h
      cases hrc : recurse c0 (s.node c0).requiredWaitingFor (p ++ [c0])
          { node := s.node, visited := setAdd s.visited c0 } with
      | none => simp [hrc] at h
      | some res =>
        obtain ⟨s2, r2⟩ := res
        have ok := hrec c0 (p ++ [c0]) { node := s.node, visited := setAdd s.visited c0 } s2 r2 hrc
        simp only [hrc] at h
        cases r2 with
        | none =>
          cases h
          simp only at hc
          have hcc : c = c0 := by
            rcases (ok.pruned owner).2.2 i with e | ⟨e, _⟩
            · rw [e] at hc
              simp only at hc
              rw [hc0] at hc
              cases hc; rfl
            · rw [e] at hc; cases hc
          subst hcc
          have hVc : V c = false := by
            cases hVc : V c with
            | false => rfl
            | true => exact absurd (hV c hVc) hv
          refine ⟨hVc, ?_⟩
          have := hsnd c (p ++ [c]) { node := s.node, visited := setAdd s.visited c } s2 hrc
          exact this.subset (fun y hy => by simp [setAdd, hV y hy])
        | some err =>
          simp only at h
          by_cases hr : (s.node owner).requiredWaitingFor c0 = true
          · simp [hr] at h
          · simp only [hr] at h
            cases h
            simp only [setNil, if_true] at hc
            rw [getD_set_none] at hc
            simp at hc

theorem PrunedFrom.getD_some {a b : Fin n → Change n} (h : PrunedFrom a b) {x c : Fin n}
    {i : Nat} (e : (b x).WaitingFor.getD i none = some c) :
    (a x).WaitingFor.getD i none = some c := by
  rcases (h x).2.2 i with h' | ⟨h', _⟩
  · rw [← h']; exact e
  · rw [h'] at e; cases e

theorem cycleLoop_sound {recurse} (hrec : RecOK (n := n) recurse) (hsnd : RecSound recurse)
    {owner : Fin n} {p : List (Fin n)} {V : Fin n → Bool} :
    ∀ (todo i : Nat) (s s1 : WalkState n), (∀ y, V y = true → s.visited y = true) →
    cycleLoop recurse owner (s.node owner).requiredWaitingFor p todo i s = some (s1, none) →
    ∀ j c, i ≤ j → j < i + todo → (s1.node owner).WaitingFor.getD j none = some c →
      V c = false ∧ NoReach s1.node c V := by
  intro todo
  induction todo with
  | zero => intro i s s1 _ _ j c h1 h2; omega
  | succ todo ih =>
    intro i s s1 hV h j c h1 h2 hc
    simp only [cycleLoop] at h
    cases hst : cycleStep recurse owner (s.node owner).requiredWaitingFor p i s with
    | none => simp [hst] at h
    | some res =>
      obtain ⟨s2, r2⟩ := res
      have ok := cycleStep_ok hrec hst
      simp only [hst] at h
      cases r2 with
      | some err => cases h
      | none =>
        simp only at h
        rw [← (ok.pruned owner).1] at h
        have ok2 := cycleLoop_ok hrec _ _ _ _ _ h
        by_cases hji : j = i
        · subst hji
          have hc2 := ok2.pruned.getD_some hc
          obtain ⟨hv, hn⟩ := cycleStep_sound hrec hsnd hV hst hc2
          exact ⟨hv, hn.pruned ok2.pruned⟩
        · exact ih (i + 1) s2 s1 (fun y hy => ok.mono y (hV y hy)) h j c (by omega) (by omega) hc

theorem getD_some_lt {l : List (Option (Fin n))} {i : Nat} {c : Fin n}
    (h : l.getD i none = some c) : i < l.length := by
  by_contra hlt
  rw [List.getD_eq_getElem?_getD, List.getElem?_eq_none (by omega)] at h
  cases h

theorem checkCyclesInChanges_sound : ∀ fuel : Nat,
    RecSound (n := n) (checkCyclesInChanges fuel) := by
  intro fuel
  induction fuel with
  | zero => intro c p s s1 h; simp [checkCyclesInChanges] at h
  | succ fuel ih =>
    intro x p s s1 h y hy ht
    simp only [checkCyclesInChanges] at h
    have ok := cycleLoop_ok (checkCyclesInChanges_ok fuel) _ _ _ _ _ h
    rw [Relation.TransGen.head'_iff] at ht
    obtain ⟨c, hxc, hcy⟩ := ht
    unfold Edge at hxc
    rw [mem_iff_getD] at hxc
    obtain ⟨j, hj⟩ := hxc
    have hlt : j < (s.node x).WaitingFor.length := by
      rw [← (ok.pruned x).2.1]; exact getD_some_lt hj
    obtain ⟨hv, hn⟩ := cycleLoop_sound (checkCyclesInChanges_ok fuel) ih (V := s.visited)
      _ _ _ _ (fun _ h => h) h j c (Nat.zero_le _) (by omega) hj
    rcases Relation.reflTransGen_iff_eq_or_transGen.mp hcy with e | t
    · subst e; rw [hy] at hv; cases hv
    · exact hn y hy t

/-! ### Completeness: a mandatory path back into the visited map is fatal -/

theorem cycleLoop_complete {recurse} (hrec : RecOK (n := n) recurse)
    (hcmp : RecComplete recurse) {owner : Fin n} {p : List (Fin n)} {j : Nat} {c : Fin n} :
    ∀ (todo i : Nat) (s s1 : WalkState n), i ≤ j → j < i + todo →
    (s.node owner).WaitingFor.getD j none = some c →
    (s.node owner).requiredWaitingFor c = true →
    (∃ y, s.visited y = true ∧ Relation.ReflTransGen (MandatoryEdge s.node) c y) →
    cycleLoop recurse owner (s.node owner).requiredWaitingFor p todo i s ≠ some (s1, none) := by
  intro todo
  induction todo with
  | zero => intro i s s1 h1 h2; omega
  | succ todo ih =>
    intro i s s1 h1 h2 hc hr hy h
    simp only [cycleLoop] at h
    cases hst : cycleStep recurse owner (s.node owner).requiredWaitingFor p i s with
    | none => simp [hst] at h
    | some res =>
      obtain ⟨s2, r2⟩ := res
      have ok := cycleStep_ok hrec hst
      simp only [hst] at h
      cases r2 with
      | some err => cases h
      | none =>
        simp only at h
        by_cases hji : j = i
        · subst hji
          unfold cycleStep at hst
          simp only [hc] at hst
          by_cases hv : s.visited c = true
          · simp [hv, hr] at hst
          · simp only [hv] at hst
            obtain ⟨y, hy1, hy2⟩ := hy
            have hcy : Relation.TransGen (MandatoryEdge s.node) c y := by
              rcases Relation.reflTransGen_iff_eq_or_transGen.mp hy2 with e | t
              · subst e; exact absurd hy1 hv
              · exact t
            cases hrc : recurse c (s.node c).requiredWaitingFor (p ++ [c])
                { node := s.node, visited := setAdd s.visited c } with
            | none => simp [hrc] at hst
            | some res =>
              obtain ⟨s3, r3⟩ := res
              simp only [hrc] at hst
              cases r3 with
              | none =>
                exact hcmp c (p ++ [c]) { node := s.node, visited := setAdd s.visited c } s3 y
                  (by simp [setAdd, hy1]) hcy hrc
              | some err => simp [hr] at hst
        · rw [← (ok.pruned owner).1] at h
          refine ih (i + 1) s2 s1 (by omega) (by omega) ?_ ?_ ?_ h
          · rcases (ok.pruned owner).2.2 j with e | ⟨_, c', hc', hr'⟩
            · rw [e]; exact hc
            · rw [hc] at hc'; cases hc'; rw [hr] at hr'; cases hr'
          · rw [(ok.pruned owner).1]; exact hr
          · obtain ⟨y, hy1, hy2⟩ := hy
            exact ⟨y, ok.mono y hy1,
              Relation.ReflTransGen.mono (fun _ _ e => ok.pruned.mandatory e) hy2⟩

theorem checkCyclesInChanges_complete : ∀ fuel : Nat,
    RecComplete (n := n) (checkCyclesInChanges fuel) := by
  intro fuel
  induction fuel with
  | zero => intro c p s s1 y _ _ h; simp [checkCyclesInChanges] at h
  | succ fuel ih =>
    intro x p s s1 y hy ht h
    simp only [checkCyclesInChanges] at h
    rw [Relation.TransGen.head'_iff] at ht
    obtain ⟨c, hxc, hcy⟩ := ht
    obtain ⟨hmem, hreq⟩ := hxc
    rw [mem_iff_getD] at hmem
    obtain ⟨j, hj⟩ := hmem
    exact cycleLoop_complete (checkCyclesInChanges_ok fuel) ih _ 0 s s1 (Nat.zero_le _)
      (by have := getD_some_lt hj; omega) hj hreq ⟨y, hy, hcy⟩ h

/-! ### The loop over the roots -/

theorem unvisited_root_lt (c : Fin n) : unvisited (setAdd (fun _ => false) c) < n :=
  lt_of_lt_of_le (unvisited_setAdd_lt (v := fun _ => false) (c := c) rfl) (unvisited_le _)

theorem checkCyclesFrom_total : ∀ (cs : List (Fin n)) (node : Fin n → Change n),
    checkCyclesFrom cs node ≠ none := by
  intro cs
  induction cs with
  | nil => intro node; simp [checkCyclesFrom]
  | cons c rest ih =>
    intro node
    simp only [checkCyclesFrom]
    cases h : checkCyclesInChanges n c (node c).requiredWaitingFor [c]
        { node := node, visited := setAdd (fun _ => false) c } with
    | none =>
      exact absurd h (checkCyclesInChanges_total n c [c]
        { node := node, visited := setAdd (fun _ => false) c } (unvisited_root_lt c))
    | some res =>
      obtain ⟨s, r⟩ := res
      cases r with
      | some err => simp
      | none => exact ih s.node

theorem checkCyclesFrom_pruned : ∀ (cs : List (Fin n)) (node node1 : Fin n → Change n),
    checkCyclesFrom cs node = some (Except.ok node1) → PrunedFrom node node1 := by
  intro cs
  induction cs with
  | nil =>
    intro node node1 h
    simp only [checkCyclesFrom, Option.some.injEq, Except.ok.injEq] at h
    subst h; exact PrunedFrom.refl _
  | cons c rest ih =>
    intro node node1 h
    simp only [checkCyclesFrom] at h
    cases hc : checkCyclesInChanges n c (node c).requiredWaitingFor [c]
        { node := node, visited := setAdd (fun _ => false) c } with
    | none => simp [hc] at h
    | some res =>
      obtain ⟨s, r⟩ := res
      simp only [hc] at h
      cases r with
      | some err => simp at h
      | none =>
        have ok := checkCyclesInChanges_ok n c [c]
          { node := node, visited := setAdd (fun _ => false) c } s none hc
        exact ok.pruned.trans (ih _ _ h)

theorem checkCyclesFrom_acyclic : ∀ (cs : List (Fin n)) (node node1 : Fin n → Change n),
    checkCyclesFrom cs node = some (Except.ok node1) →
    ∀ r, r ∈ cs → ¬ Relation.TransGen (Edge node1) r r := by
  intro cs
  induction cs with
  | nil => intro node node1 _ r hr; simp at hr
  | cons c rest ih =>
    intro node node1 h r hr
    simp only [checkCyclesFrom] at h
    cases hc : checkCyclesInChanges n c (node c).requiredWaitingFor [c]
        { node := node, visited := setAdd (fun _ => false) c } with
    | none => simp [hc] at h
    | some res =>
      obtain ⟨s, r1⟩ := res
      simp only [hc] at h
      cases r1 with
      | some err => simp at h
      | none =>
        simp only at h
        rcases List.mem_cons.mp hr with e | hr'
        · subst e
          have hn := checkCyclesInChanges_sound n r [r]
            { node := node, visited := setAdd (fun _ => false) r } s hc
          exact (hn.pruned (checkCyclesFrom_pruned _ _ _ h)) r (by simp [setAdd])
        · exact ih _ _ h r hr'

theorem checkCyclesFrom_mandatory : ∀ (cs : List (Fin n)) (node node1 : Fin n → Change n)
    (r : Fin n), r ∈ cs → Relation.TransGen (MandatoryEdge node) r r →
    checkCyclesFrom cs node ≠ some (Except.ok node1) := by
  intro cs
  induction cs with
  | nil => intro node node1 r hr; simp at hr
  | cons c rest ih =>
    intro node node1 r hr ht h
    simp only [checkCyclesFrom] at h
    cases hc : checkCyclesInChanges n c (node c).requiredWaitingFor [c]
        { node := node, visited := setAdd (fun _ => false) c } with
    | none => simp [hc] at h
    | some res =>
      obtain ⟨s, r1⟩ := res
      simp only [hc] at h
      cases r1 with
      | some err => simp at h
      | none =>
        simp only at h
        have ok := checkCyclesInChanges_ok n c [c]
          { node := node, visited := setAdd (fun _ => false) c } s none hc
        rcases List.mem_cons.mp hr with e | hr'
        · subst e
          exact checkCyclesInChanges_complete n r [r]
            { node := node, visited := setAdd (fun _ => false) r } s r (by simp [setAdd]) ht hc
        · exact ih _ _ r hr'
            (Relation.TransGen.mono (fun _ _ e => ok.pruned.mandatory e) ht) h

/-! ### pruneNilsAndDedup -/

theorem mem_dedupLoop : ∀ (l : List (Option (Fin n))) (seen : Fin n → Bool)
    (acc : List (Option (Fin n))) (x : Option (Fin n)),
    x ∈ dedupLoop l seen acc ↔ x ∈ acc ∨ ∃ c, x = some c ∧ some c ∈ l ∧ seen c = false := by
  intro l
  induction l with
  | nil => intro seen acc x; simp [dedupLoop]
  | cons a rest ih =>
    intro seen acc x
    cases a with
    | none =>
      simp only [dedupLoop, ih, List.mem_cons]
      constructor
      · rintro (h | ⟨c, h1, h2, h3⟩)
        · exact Or.inl h
        · exact Or.inr ⟨c, h1, Or.inr h2, h3⟩
      · rintro (h | ⟨c, h1, h2 | h2, h3⟩)
        · exact Or.inl h
        · cases h2
        · exact Or.inr ⟨c, h1, h2, h3⟩
    | some c =>
      simp only [dedupLoop]
      by_cases hs : seen c = true
      · simp only [hs, if_true, ih, List.mem_cons]
        constructor
        · rintro (h | ⟨d, h1, h2, h3⟩)
          · exact Or.inl h
          · exact Or.inr ⟨d, h1, Or.inr h2, h3⟩
        · rintro (h | ⟨d, h1, h2 | h2, h3⟩)
          · exact Or.inl h
          · cases h2; rw [hs] at h3; cases h3
          · exact Or.inr ⟨d, h1, h2, h3⟩
      · have hs' : seen c = false := by simpa using hs
        rw [if_neg hs, ih]
        constructor
        · rintro (h | ⟨d, h1, h2, h3⟩)
          · rcases List.mem_append.mp h with h | h
            · exact Or.inl h
            · rw [List.mem_singleton] at h
              exact Or.inr ⟨c, h, List.mem_cons_self _ _, hs'⟩
          · refine Or.inr ⟨d, h1, List.mem_cons_of_mem _ h2, ?_⟩
            simp only [setAdd] at h3
            by_cases hd : d = c
            · simp [hd] at h3
            · simpa [hd] using h3
        · rintro (h | ⟨d, h1, h2, h3⟩)
          · exact Or.inl (List.mem_append_left _ h)
          · by_cases hd : d = c
            · subst hd; exact Or.inl (List.mem_append_right _ (by simp [h1]))
            · rcases List.mem_cons.mp h2 with h2 | h2
              · cases h2; exact absurd rfl hd
              · exact Or.inr ⟨d, h1, h2, by simp [setAdd, hd, h3]⟩

theorem nodup_dedupLoop : ∀ (l : List (Option (Fin n))) (seen : Fin n → Bool)
    (acc : List (Option (Fin n))), acc.Nodup → (∀ c, some c ∈ acc → seen c = true) →
    (dedupLoop l seen acc).Nodup := by
  intro l
  induction l with
  | nil => intro seen acc h _; simpa [dedupLoop] using h
  | cons a rest ih =>
    intro seen acc hnd hseen
    cases a with
    | none => simp only [dedupLoop]; exact ih _ _ hnd hseen
    | some c =>
      simp only [dedupLoop]
      by_cases hs : seen c = true
      · simp only [hs, if_true]; exact ih _ _ hnd hseen
      · simp only [hs]
        apply ih
        · rw [List.nodup_append]
          refine ⟨hnd, List.nodup_singleton _, ?_⟩
          intro a ha hb
          rw [List.mem_singleton] at hb
          subst hb
          exact hs (hseen c ha)
        · intro d hd
          rw [List.mem_append, List.mem_singleton] at hd
          rcases hd with hd | hd
          · by_cases hdc : d = c
            · simp [setAdd, hdc]
            · simp [setAdd, hdc, hseen d hd]
          · cases hd; simp [setAdd]

theorem none_not_mem_dedupLoop (l : List (Option (Fin n))) (seen : Fin n → Bool)
    (acc : List (Option (Fin n))) (h : none ∉ acc) : none ∉ dedupLoop l seen acc := by
  rw [mem_dedupLoop]
  rintro (h' | ⟨c, h1, _⟩)
  · exact h h'
  · cases h1

theorem clean_dedupLoop (l : List (Option (Fin n))) : Clean (dedupLoop l (fun _ => false) []) :=
  ⟨nodup_dedupLoop l _ [] List.nodup_nil (by simp), none_not_mem_dedupLoop l _ [] (by simp)⟩

theorem dedupLoop_of_clean : ∀ (l : List (Option (Fin n))) (seen : Fin n → Bool)
    (acc : List (Option (Fin n))), Clean l → (∀ c, some c ∈ l → seen c = false) →
    dedupLoop l seen acc = acc ++ l := by
  intro l
  induction l with
  | nil => intro seen acc _ _; simp [dedupLoop]
  | cons a rest ih =>
    intro seen acc hcl hseen
    obtain ⟨hnd, hnn⟩ := hcl
    rw [List.nodup_cons] at hnd
    cases a with
    | none => simp at hnn
    | some c =>
      simp only [dedupLoop]
      have hc : seen c = false := hseen c (List.mem_cons_self _ _)
      rw [if_neg (by simp [hc]), ih]
      · simp
      · exact ⟨hnd.2, fun h => hnn (List.mem_cons_of_mem _ h)⟩
      · intro d hd
        have hdc : d ≠ c := fun e => hnd.1 (e ▸ hd)
        simp [setAdd, hdc, hseen d (List.mem_cons_of_mem _ hd)]

theorem dedupAll_required : ∀ (cs : List (Fin n)) (node : Fin n → Change n) (x : Fin n),
    (dedupAll cs node x).requiredWaitingFor = (node x).requiredWaitingFor := by
  intro cs
  induction cs with
  | nil => intro node x; rfl
  | cons c rest ih =>
    intro node x
    simp only [dedupAll, ih]
    unfold dedupNode
    by_cases hx : x = c <;> simp [hx]

theorem dedupAll_mem : ∀ (cs : List (Fin n)) (node : Fin n → Change n) (x y : Fin n),
    some y ∈ (dedupAll cs node x).WaitingFor ↔ some y ∈ (node x).WaitingFor := by
  intro cs
  induction cs with
  | nil => intro node x y; rfl
  | cons c rest ih =>
    intro node x y
    simp only [dedupAll, ih]
    unfold dedupNode
    by_cases hx : x = c
    · simp [hx, mem_dedupLoop]
    · simp [hx]

theorem dedupAll_clean : ∀ (cs : List (Fin n)) (node : Fin n → Change n) (x : Fin n),
    x ∈ cs ∨ Clean (node x).WaitingFor → Clean (dedupAll cs node x).WaitingFor := by
  intro cs
  induction cs with
  | nil =>
    intro node x h
    rcases h with h | h
    · simp at h
    · exact h
  | cons c rest ih =>
    intro node x h
    simp only [dedupAll]
    apply ih
    by_cases hx : x = c
    · right
      unfold dedupNode
      simp only [hx, if_true]
      exact clean_dedupLoop _
    · rcases h with h | h
      · rcases List.mem_cons.mp h with e | h'
        · exact absurd e hx
        · exact Or.inl h'
      · right
        unfold dedupNode
        simpa [hx] using h

theorem dedupAll_of_clean : ∀ (cs : List (Fin n)) (node : Fin n → Change n),
    (∀ x, Clean (node x).WaitingFor) → dedupAll cs node = node := by
  intro cs
  induction cs with
  | nil => intro node _; rfl
  | cons c rest ih =>
    intro node h
    have : dedupNode node c = node := by
      funext x
      unfold dedupNode
      by_cases hx : x = c
      · simp only [hx, if_true]
        rw [dedupLoop_of_clean _ _ _ (h c) (by simp)]
        simp
      · simp [hx]
    simp only [dedupAll, this]
    exact ih node h

theorem checkCycles_changes {g g1 : ChangeGraph n} (h : checkCycles g = some (Except.ok g1)) :
    g1.changes = g.changes ∧ checkCyclesFrom g.changes g.node = some (Except.ok g1.node) := by
  unfold checkCycles at h
  cases hc : checkCyclesFrom g.changes g.node with
  | none => simp [hc] at h
  | some r =>
    cases r with
    | error e => simp [hc] at h
    | ok node =>
      simp only [hc, Option.some.injEq, Except.ok.injEq] at h
      subst h
      exact ⟨rfl, rfl⟩

theorem buildGraph_changes {col : Collaborators n} {g : ChangeGraph n}
    (h : buildGraph col = Except.ok g) : g.changes = List.finRange n := by
  unfold buildGraph at h
  cases ha : applyAll col (List.finRange n) (freshNodes n) with
  | error e => simp [ha] at h
  | ok node =>
    simp only [ha, Except.ok.injEq] at h
    subst h; rfl

/-- Unfolding a successful `NewChangeGraph`. -/
theorem newChangeGraph_ok {col : Collaborators n} {g : ChangeGraph n}
    (h : NewChangeGraph col = some (Except.ok g)) :
    ∃ g0 g1, buildGraph col = Except.ok g0 ∧
      checkCycles (pruneNilsAndDedup g0) = some (Except.ok g1) ∧ g = pruneNilsAndDedup g1 := by
  unfold NewChangeGraph at h
  cases hb : buildGraph col with
  | error e => simp [hb] at h
  | ok g0 =>
    simp only [hb] at h
    cases hc : checkCycles (pruneNilsAndDedup g0) with
    | none => simp [hc] at h
    | some r =>
      cases r with
      | error e => simp [hc] at h
      | ok g1 =>
        simp only [hc, Option.some.injEq, Except.ok.injEq] at h
        exact ⟨g0, g1, rfl, hc, h.symm⟩

/-- C1: whenever `NewChangeGraph` returns a graph, that graph is acyclic: from no
node does a chain of one or more `WaitingFor` edges lead back to the node. -/
theorem newChangeGraph_acyclic (col : Collaborators n) (g : ChangeGraph n)
    (h : NewChangeGraph col = some (Except.ok g)) :
    ∀ x, ¬ Relation.TransGen (Edge g.node) x x := by
  obtain ⟨g0, g1, hb, hc, hg⟩ := newChangeGraph_ok h
  obtain ⟨hch, hfrom⟩ := checkCycles_changes hc
  intro x ht
  have hx : x ∈ (pruneNilsAndDedup g0).changes := by
    show x ∈ g0.changes
    rw [buildGraph_changes hb]; exact List.mem_finRange x
  refine checkCyclesFrom_acyclic _ _ _ hfrom x hx (Relation.TransGen.mono ?_ ht)
  intro a b e
  subst hg
  exact (dedupAll_mem _ _ _ _).mp e

theorem newChangeGraph_acyclic_witness :
    NewChangeGraph chainOptional = some (Except.ok (resultOf chainOptional)) ∧
    ∀ x, ¬ Relation.TransGen (Edge (resultOf chainOptional).node) x x :=
  ⟨rfl, newChangeGraph_acyclic chainOptional (resultOf chainOptional) rfl⟩

theorem dedupAll_mandatory (cs : List (Fin n)) (node : Fin n → Change n) (x y : Fin n) :
    MandatoryEdge (dedupAll cs node) x y ↔ MandatoryEdge node x y := by
  unfold MandatoryEdge
  rw [dedupAll_mem, dedupAll_required]

theorem checkCycles_mandatory (g : ChangeGraph n) (x : Fin n) (hx : x ∈ g.changes)
    (hc : Relation.TransGen (MandatoryEdge g.node) x x) :
    ∃ e, checkCycles (pruneNilsAndDedup g) = some (Except.error e) := by
  have hc' : Relation.TransGen (MandatoryEdge (pruneNilsAndDedup g).node) x x :=
    Relation.TransGen.mono (fun a b e => (dedupAll_mandatory _ _ a b).mpr e) hc
  unfold checkCycles
  cases h : checkCyclesFrom (pruneNilsAndDedup g).changes (pruneNilsAndDedup g).node with
  | none => exact absurd h (checkCyclesFrom_total _ _)
  | some r =>
    cases r with
    | error e => exact ⟨e, rfl⟩
    | ok node1 => exact absurd h (checkCyclesFrom_mandatory _ _ node1 x hx hc')

/-- The fuel handed to the walk always suffices: `NewChangeGraph` returns a graph or
an error on every input. -/
theorem newChangeGraph_total (col : Collaborators n) : NewChangeGraph col ≠ none := by
  unfold NewChangeGraph
  cases hb : buildGraph col with
  | error e => simp
  | ok g0 =>
    simp only
    unfold checkCycles
    cases h : checkCyclesFrom (pruneNilsAndDedup g0).changes (pruneNilsAndDedup g0).node with
    | none => exact absurd h (checkCyclesFrom_total _ _)
    | some r => cases r <;> simp

/-- C2: when the graph built by rule application contains a cycle made up solely of
mandatory edges, `NewChangeGraph` fails with a cycle error and returns no graph; and
whatever the order `order` of the top-level nodes, as long as it lists a node of the
cycle, `checkCycles` on the built graph fails too. -/
theorem mandatory_cycle_is_fatal (col : Collaborators n) (g0 : ChangeGraph n)
    (hb : buildGraph col = Except.ok g0) (x : Fin n)
    (hc : Relation.TransGen (MandatoryEdge g0.node) x x) :
    (∃ e, NewChangeGraph col = some (Except.error (GraphError.cycle e))) ∧
    ∀ order : List (Fin n), x ∈ order →
      ∃ e, checkCycles (pruneNilsAndDedup { changes := order, node := g0.node }) =
        some (Except.error e) := by
  constructor
  · have hx : x ∈ g0.changes := by rw [buildGraph_changes hb]; exact List.mem_finRange x
    obtain ⟨e, he⟩ := checkCycles_mandatory g0 x hx hc
    refine ⟨e, ?_⟩
    unfold NewChangeGraph
    simp only [hb, he]
  · intro order hx
    exact checkCycles_mandatory { changes := order, node := g0.node } x hx hc

theorem mandatory_cycle_is_fatal_witness :
    buildGraph chainMandatory = Except.ok (builtOf chainMandatory) ∧
    Relation.TransGen (MandatoryEdge (builtOf chainMandatory).node) 0 0 ∧
    NewChangeGraph chainMandatory =
      some (Except.error (GraphError.cycle { path := [0, 1, 2, 0], repeated := 0 })) ∧
    ∃ e, NewChangeGraph chainMandatory = some (Except.error (GraphError.cycle e)) :=
  have hc : Relation.TransGen (MandatoryEdge (builtOf chainMandatory).node) 0 0 :=
    Relation.TransGen.head (b := 1) ⟨by decide, by decide⟩
      (Relation.TransGen.head (b := 2) ⟨by decide, by decide⟩
        (Relation.TransGen.single ⟨by decide, by decide⟩))
  ⟨rfl, hc, rfl,
    (mandatory_cycle_is_fatal chainMandatory (builtOf chainMandatory) rfl 0 hc).1⟩

theorem transGen_rank {α : Type} {R : α → α → Prop} (f : α → Nat)
    (h : ∀ a b, R a b → f b < f a) {a b : α} (t : Relation.TransGen R a b) : f b < f a := by
  induction t with
  | single e => exact h _ _ e
  | tail _ e ih => exact lt_trans (h _ _ e) ih

/-- C3: on the graph of `staleCol false` every cycle contains an optional edge
(no cycle is made of mandatory edges only), yet `NewChangeGraph` fails with a
cycle error: X is still in the visited map after the error below P was swallowed. -/
theorem optional_cycle_spurious_error :
    buildGraph (staleCol false) = Except.ok (builtOf (staleCol false)) ∧
    (∀ x, ¬ Relation.TransGen (MandatoryEdge (builtOf (staleCol false)).node) x x) ∧
    NewChangeGraph (staleCol false) =
      some (Except.error (GraphError.cycle { path := [0, 3], repeated := 3 })) := by
  refine ⟨rfl, ?_, rfl⟩
  intro x t
  have h : ∀ a b : Fin 4, MandatoryEdge (builtOf (staleCol false)).node a b →
      staleRank b < staleRank a := by decide
  exact lt_irrefl _ (transGen_rank staleRank h t)

/-- C5: on the graph of `staleCol true` the edge from D to X lies on no cycle of the
built graph (nothing waits for D), and it is missing from the returned graph. -/
theorem edge_off_cycle_dropped :
    NewChangeGraph (staleCol true) = some (Except.ok (resultOf (staleCol true))) ∧
    buildGraph (staleCol true) = Except.ok (builtOf (staleCol true)) ∧
    Edge (builtOf (staleCol true)).node 0 3 ∧
    ¬ Relation.TransGen (Edge (builtOf (staleCol true)).node) 3 0 ∧
    ¬ Edge (resultOf (staleCol true)).node 0 3 := by
  refine ⟨rfl, rfl, by decide, ?_, by decide⟩
  intro t
  have h : ∀ a : Fin 4, ¬ Edge (builtOf (staleCol true)).node a 0 := by decide
  obtain ⟨a, _, e⟩ := Relation.TransGen.tail'_iff.mp t
  exact h a e

/-- C7: on the graph of `staleCol false` the reported path is D, X and X is the
node reported as repeated, but X does not occur earlier in that path. -/
theorem reported_path_without_repeat :
    NewChangeGraph (staleCol false) =
      some (Except.error (GraphError.cycle { path := [0, 3], repeated := 3 })) ∧
    (3 : Fin 4) ∉ ([0, 3] : List (Fin 4)).dropLast :=
  ⟨rfl, by decide⟩

theorem grows_appendWaitingFor (node : Fin n → Change n) (c : Fin n) (added : List (Fin n)) :
    Grows node (appendWaitingFor node c added) (fun a b => a = c ∧ b ∈ added)
      (fun _ _ => False) := by
  refine ⟨fun a b => ?_, fun a b => ?_, fun a => ?_⟩ <;> unfold appendWaitingFor <;>
    by_cases h : a = c <;> simp [h]

theorem grows_addRequired (node : Fin n → Change n) (c k : Fin n) :
    Grows node (addRequired node c k) (fun _ _ => False) (fun a b => a = c ∧ b = k) := by
  refine ⟨fun a b => ?_, fun a b => ?_, fun a => ?_⟩ <;> unfold addRequired <;>
    by_cases h : a = c <;> simp [h, setAdd]
  by_cases hb : b = k <;> simp [hb]

theorem Grows.append {a b c : Fin n → Change n} {E1 M1 E2 M2 E M : Fin n → Fin n → Prop}
    (h1 : Grows a b E1 M1) (h2 : Grows b c E2 M2)
    (hE : ∀ x y, E x y ↔ E1 x y ∨ E2 x y) (hM : ∀ x y, M x y ↔ M1 x y ∨ M2 x y) :
    Grows a c E M := by
  refine ⟨fun x y => ?_, fun x y => ?_, fun x => ?_⟩
  · rw [h2.edge, h1.edge, hE, or_assoc]
  · rw [h2.req, h1.req, hM, or_assoc]
  · rw [h2.nil, h1.nil]

theorem Grows.nothing (node : Fin n → Change n) :
    Grows node node (fun _ _ => False) (fun _ _ => False) :=
  ⟨fun _ _ => by simp, fun _ _ => by simp, fun _ => Iff.rfl⟩

theorem grows_addRequiredAll (c : Fin n) : ∀ (l : List (Fin n)) (node : Fin n → Change n),
    Grows node (addRequiredAll node c l) (fun _ _ => False) (fun a b => a = c ∧ b ∈ l) := by
  intro l
  induction l with
  | nil => intro node; exact (Grows.nothing node).append (Grows.nothing node) (by simp) (by simp)
  | cons m rest ih =>
    intro node
    simp only [addRequiredAll]
    refine (grows_addRequired node c m).append (ih _) (by simp) ?_
    intro x y
    simp only [List.mem_cons]
    tauto

theorem grows_applyBefore (ig : Bool) (c : Fin n) : ∀ (l : List (Fin n))
    (node : Fin n → Change n),
    Grows node (applyBefore ig c node l) (fun a b => b = c ∧ a ∈ l)
      (fun a b => ig = false ∧ b = c ∧ a ∈ l) := by
  intro l
  induction l with
  | nil => intro node; exact (Grows.nothing node).append (Grows.nothing node) (by simp) (by simp)
  | cons m rest ih =>
    intro node
    simp only [applyBefore]
    have h1 := grows_appendWaitingFor node m [c]
    cases ig with
    | true =>
      simp only [Bool.not_true, Bool.false_eq_true, if_false]
      refine h1.append (ih _) ?_ (by simp)
      intro x y
      simp only [List.mem_singleton, List.mem_cons]
      tauto
    | false =>
      simp only [Bool.not_false, if_true]
      refine (h1.append (grows_addRequired _ m c) (fun _ _ => Iff.rfl)
        (fun _ _ => Iff.rfl)).append (ih _) ?_ ?_
      · intro x y
        simp only [List.mem_singleton, List.mem_cons]
        tauto
      · intro x y
        simp only [List.mem_cons]
        tauto

theorem grows_applyRule {col : Collaborators n} {c : Fin n} {rule : ChangeRule}
    {node node1 : Fin n → Change n} (h : applyRule col c rule node = Except.ok node1) :
    Grows node node1 (Contrib col c rule)
      (fun a b => Contrib col c rule a b ∧ rule.IgnoreIfCyclical = false) := by
  unfold applyRule at h
  cases ho : rule.Order with
  | After =>
    simp only [ho] at h
    cases hm : col.MatchesRule rule c with
    | error e => simp [hm] at h
    | ok matched =>
      simp only [hm, Except.ok.injEq] at h
      subst h
      have h1 := grows_appendWaitingFor node c matched
      cases hi : rule.IgnoreIfCyclical with
      | true =>
        simp only [Bool.not_true, Bool.false_eq_true, if_false]
        refine h1.append (Grows.nothing _) ?_ (by simp)
        intro x y
        simp [Contrib, hm, ho]
      | false =>
        simp only [Bool.not_false, if_true]
        refine h1.append (grows_addRequiredAll c matched _) ?_ ?_
        · intro x y
          simp [Contrib, hm, ho]
        · intro x y
          simp [Contrib, hm, ho]
  | Before =>
    simp only [ho] at h
    cases hm : col.MatchesRule rule c with
    | error e => simp [hm] at h
    | ok matched =>
      simp only [hm, Except.ok.injEq] at h
      subst h
      refine (grows_applyBefore rule.IgnoreIfCyclical c matched node).append (Grows.nothing _) ?_ ?_
      · intro x y
        simp [Contrib, hm, ho]
      · intro x y
        simp only [Contrib, hm, ho]
        simp
        tauto

theorem grows_applyRules {col : Collaborators n} {c : Fin n} : ∀ (rules : List ChangeRule)
    (node node1 : Fin n → Change n), applyRules col c rules node = Except.ok node1 →
    Grows node node1 (fun a b => ∃ r, r ∈ rules ∧ Contrib col c r a b)
      (fun a b => ∃ r, r ∈ rules ∧ Contrib col c r a b ∧ r.IgnoreIfCyclical = false) := by
  intro rules
  induction rules with
  | nil =>
    intro node node1 h
    simp only [applyRules, Except.ok.injEq] at h
    subst h
    exact (Grows.nothing node).append (Grows.nothing node) (by simp) (by simp)
  | cons r rest ih =>
    intro node node1 h
    simp only [applyRules] at h
    cases hr : applyRule col c r node with
    | error e => simp [hr] at h
    | ok node2 =>
      simp only [hr] at h
      refine (grows_applyRule hr).append (ih _ _ h) ?_ ?_
      · intro x y; simp
      · intro x y; simp

theorem grows_applyAll {col : Collaborators n} : ∀ (cs : List (Fin n))
    (node node1 : Fin n → Change n), applyAll col cs node = Except.ok node1 →
    Grows node node1 (RuleEdge col cs) (RuleEdgeRequired col cs) := by
  intro cs
  induction cs with
  | nil =>
    intro node node1 h
    simp only [applyAll, Except.ok.injEq] at h
    subst h
    exact (Grows.nothing node).append (Grows.nothing node) (by simp [RuleEdge])
      (by simp [RuleEdgeRequired])
  | cons c rest ih =>
    intro node node1 h
    simp only [applyAll] at h
    cases hr : col.ApplicableRules c with
    | error e => simp [hr] at h
    | ok rules =>
      simp only [hr] at h
      cases ha : applyRules col c rules node with
      | error e => simp [ha] at h
      | ok node2 =>
        simp only [ha] at h
        refine (grows_applyRules rules _ _ ha).append (ih _ _ h) ?_ ?_
        · intro x y
          simp only [RuleEdge, List.mem_cons, exists_eq_or_imp, hr, Except.ok.injEq,
            exists_eq_left']
        · intro x y
          simp only [RuleEdgeRequired, List.mem_cons, exists_eq_or_imp, hr, Except.ok.injEq,
            exists_eq_left']

theorem ruleEdge_iff (col : Collaborators n) (a b : Fin n) (P : ChangeRule → Prop) :
    (∃ c, c ∈ List.finRange n ∧ ∃ rules, col.ApplicableRules c = Except.ok rules ∧
      ∃ r, r ∈ rules ∧ Contrib col c r a b ∧ P r) ↔ ∃ r, MakesWait col r a b ∧ P r := by
  constructor
  · rintro ⟨c, _, rules, hr, r, hmem, ⟨m, hm, h⟩, hP⟩
    refine ⟨r, ?_, hP⟩
    rcases h with ⟨ho, rfl, hb⟩ | ⟨ho, rfl, ha⟩
    · exact Or.inl ⟨ho, rules, m, hr, hmem, hm, hb⟩
    · exact Or.inr ⟨ho, rules, m, hr, hmem, hm, ha⟩
  · rintro ⟨r, h, hP⟩
    rcases h with ⟨ho, rules, m, hr, hmem, hm, hb⟩ | ⟨ho, rules, m, hr, hmem, hm, ha⟩
    · exact ⟨a, List.mem_finRange a, rules, hr, r, hmem, ⟨m, hm, Or.inl ⟨ho, rfl, hb⟩⟩, hP⟩
    · exact ⟨b, List.mem_finRange b, rules, hr, r, hmem, ⟨m, hm, Or.inr ⟨ho, rfl, ha⟩⟩, hP⟩

theorem buildGraph_grows {col : Collaborators n} {g0 : ChangeGraph n}
    (hb : buildGraph col = Except.ok g0) :
    Grows (freshNodes n) g0.node (RuleEdge col (List.finRange n))
      (RuleEdgeRequired col (List.finRange n)) := by
  unfold buildGraph at hb
  cases ha : applyAll col (List.finRange n) (freshNodes n) with
  | error e => simp [ha] at hb
  | ok node =>
    simp only [ha, Except.ok.injEq] at hb
    subst hb
    exact grows_applyAll _ _ _ ha

theorem buildGraph_edge {col : Collaborators n} {g0 : ChangeGraph n}
    (hb : buildGraph col = Except.ok g0) (a b : Fin n) :
    some b ∈ (g0.node a).WaitingFor ↔ ∃ r, MakesWait col r a b := by
  rw [(buildGraph_grows hb).edge]
  have := ruleEdge_iff col a b (fun _ => True)
  simp only [and_true] at this
  rw [← this]
  simp [freshNodes, RuleEdge]

theorem buildGraph_required {col : Collaborators n} {g0 : ChangeGraph n}
    (hb : buildGraph col = Except.ok g0) (a b : Fin n) :
    (g0.node a).requiredWaitingFor b = true ↔
      ∃ r, MakesWait col r a b ∧ r.IgnoreIfCyclical = false := by
  rw [(buildGraph_grows hb).req, ← ruleEdge_iff col a b (fun r => r.IgnoreIfCyclical = false)]
  simp [freshNodes, RuleEdgeRequired]

theorem buildGraph_nil {col : Collaborators n} {g0 : ChangeGraph n}
    (hb : buildGraph col = Except.ok g0) (a : Fin n) : none ∉ (g0.node a).WaitingFor := by
  rw [(buildGraph_grows hb).nil]
  simp [freshNodes]

theorem Grows.keepsReqSubset {node node1 : Fin n → Change n} {E M : Fin n → Fin n → Prop}
    (h : Grows node node1 E M) (hEM : ∀ a b, M a b → E a b) (hs : ReqSubset node) :
    ReqSubset node1 := by
  intro a b hr
  rw [h.edge]
  rcases (h.req a b).mp hr with h1 | h1
  · exact Or.inl (hs a b h1)
  · exact Or.inr (hEM a b h1)

theorem PrunedFrom.reqSubset {node node1 : Fin n → Change n} (h : PrunedFrom node node1)
    (hs : ReqSubset node) : ReqSubset node1 := by
  intro a b hr
  have hr' : (node a).requiredWaitingFor b = true := by rw [← (h a).1]; exact hr
  exact (h.mandatory ⟨hs a b hr', hr'⟩).1

theorem dedupAll_reqSubset (cs : List (Fin n)) {node : Fin n → Change n}
    (hs : ReqSubset node) : ReqSubset (dedupAll cs node) := by
  intro a b hr
  rw [dedupAll_required] at hr
  rw [dedupAll_mem]
  exact hs a b hr

theorem count_le_one_of_nodup : ∀ (l : List (Option (Fin n))) (x : Option (Fin n)),
    l.Nodup → l.count x ≤ 1 := by
  intro l
  induction l with
  | nil => intro x _; simp
  | cons y rest ih =>
    intro x hnd
    rw [List.nodup_cons] at hnd
    rw [List.count_cons]
    by_cases hxy : y = x
    · subst hxy
      rw [List.count_eq_zero_of_not_mem hnd.1]
      simp
    · have : (y == x) = false := by simpa using hxy
      simp only [this]
      simpa using ih x hnd.2

theorem count_eq_one_of_nodup (l : List (Option (Fin n))) (x : Option (Fin n))
    (hnd : l.Nodup) (hm : x ∈ l) : l.count x = 1 := by
  have h1 := count_le_one_of_nodup l x hnd
  have h2 : 0 < l.count x := List.count_pos_iff.mpr hm
  omega

/-- A returned graph keeps every required node waited for, and keeps every mandatory
edge of the built graph. -/
theorem newChangeGraph_keeps {col : Collaborators n} {g0 g : ChangeGraph n}
    (hb : buildGraph col = Except.ok g0) (h : NewChangeGraph col = some (Except.ok g)) :
    ReqSubset g.node ∧ ∀ a b, MandatoryEdge g0.node a b → MandatoryEdge g.node a b := by
  obtain ⟨g0', g1, hb', hc, hg⟩ := newChangeGraph_ok h
  rw [hb] at hb'
  cases hb'
  obtain ⟨_, hfrom⟩ := checkCycles_changes hc
  have hp := checkCyclesFrom_pruned _ _ _ hfrom
  have h0 : ReqSubset g0.node :=
    (buildGraph_grows hb).keepsReqSubset
      (fun a b ⟨c, hc, rules, hr, r, hm, hcon, _⟩ => ⟨c, hc, rules, hr, r, hm, hcon⟩)
      (by intro a b h; simp [freshNodes] at h)
  subst hg
  refine ⟨dedupAll_reqSubset _ (hp.reqSubset (dedupAll_reqSubset _ h0)), ?_⟩
  intro a b hm
  exact (dedupAll_mandatory _ _ a b).mpr (hp.mandatory ((dedupAll_mandatory _ _ a b).mpr hm))

/-- C4: `requiredWaitingFor` stays inside `WaitingFor` at every point of construction:
it holds of the fresh nodes, and it is kept by the application of each rule, by each
iteration of the cycle walk at any depth (whatever it prunes, and whether or not it
ends in an error), and by each dedup pass; so in every returned graph each required
node is still waited for, and every mandatory edge of the built graph is still
present and still mandatory. -/
theorem required_subset_waitingFor (n : Nat) :
    ReqSubset (freshNodes n) ∧
    (∀ (col : Collaborators n) c rule node node1, ReqSubset node →
      applyRule col c rule node = Except.ok node1 → ReqSubset node1) ∧
    (∀ fuel (owner : Fin n) p i s s1 r, ReqSubset s.node →
      cycleStep (checkCyclesInChanges fuel) owner (s.node owner).requiredWaitingFor p i s =
        some (s1, r) → ReqSubset s1.node) ∧
    (∀ g : ChangeGraph n, ReqSubset g.node → ReqSubset (pruneNilsAndDedup g).node) ∧
    (∀ (col : Collaborators n) g0 g, buildGraph col = Except.ok g0 →
      NewChangeGraph col = some (Except.ok g) →
      ReqSubset g.node ∧ ∀ a b, MandatoryEdge g0.node a b → MandatoryEdge g.node a b) := by
  refine ⟨?_, ?_, ?_, ?_, ?_⟩
  · intro a b h; simp [freshNodes] at h
  · intro col c rule node node1 hs h
    exact (grows_applyRule h).keepsReqSubset (fun _ _ h => h.1) hs
  · intro fuel owner p i s s1 r hs h
    exact (cycleStep_ok (checkCyclesInChanges_ok fuel) h).pruned.reqSubset hs
  · intro g hs
    exact dedupAll_reqSubset _ hs
  · intro col g0 g hb h
    exact newChangeGraph_keeps hb h

theorem required_subset_waitingFor_witness :
    MandatoryEdge (builtOf chainOptional).node 0 1 ∧
    MandatoryEdge (resultOf chainOptional).node 0 1 ∧
    ReqSubset (resultOf chainOptional).node :=
  have h := (required_subset_waitingFor 3).2.2.2.2 chainOptional (builtOf chainOptional)
    (resultOf chainOptional) rfl rfl
  ⟨by decide, h.2 0 1 (by decide), h.1⟩

/-- C6: in the graph built by rule application followed by the first dedup pass, `b`
occurs in the `WaitingFor` of `a` exactly when some rule makes `a` wait for `b` (an
`After` rule applicable to `a` matching `b`, or a `Before` rule applicable to `b`
matching `a`), it then occurs exactly once, no entry is nil, and `b` is required for
`a` exactly when one such rule is not marked `IgnoreIfCyclical`. -/
theorem built_graph_has_rule_edges (col : Collaborators n) (g0 : ChangeGraph n)
    (hb : buildGraph col = Except.ok g0) (a b : Fin n) :
    (some b ∈ ((pruneNilsAndDedup g0).node a).WaitingFor ↔ ∃ r, MakesWait col r a b) ∧
    ((∃ r, MakesWait col r a b) →
      ((pruneNilsAndDedup g0).node a).WaitingFor.count (some b) = 1) ∧
    none ∉ ((pruneNilsAndDedup g0).node a).WaitingFor ∧
    (((pruneNilsAndDedup g0).node a).requiredWaitingFor b = true ↔
      ∃ r, MakesWait col r a b ∧ r.IgnoreIfCyclical = false) := by
  have hcl : Clean ((pruneNilsAndDedup g0).node a).WaitingFor :=
    dedupAll_clean _ _ a (Or.inl (by rw [buildGraph_changes hb]; exact List.mem_finRange a))
  have hedge : some b ∈ ((pruneNilsAndDedup g0).node a).WaitingFor ↔
      ∃ r, MakesWait col r a b := by
    show some b ∈ (dedupAll _ _ a).WaitingFor ↔ _
    rw [dedupAll_mem, buildGraph_edge hb]
  refine ⟨hedge, fun h => ?_, hcl.2, ?_⟩
  · exact count_eq_one_of_nodup _ _ hcl.1 (hedge.mpr h)
  · show (dedupAll _ _ a).requiredWaitingFor b = true ↔ _
    rw [dedupAll_required, buildGraph_required hb]

theorem built_graph_has_rule_edges_witness :
    buildGraph tripleCol = Except.ok (builtOf tripleCol) ∧
    ((builtOf tripleCol).node 0).WaitingFor = [some 1, some 1, some 1] ∧
    ((some 1 ∈ ((pruneNilsAndDedup (builtOf tripleCol)).node 0).WaitingFor ↔
        ∃ r, MakesWait tripleCol r 0 1) ∧
      ((∃ r, MakesWait tripleCol r 0 1) →
        ((pruneNilsAndDedup (builtOf tripleCol)).node 0).WaitingFor.count (some 1) = 1) ∧
      none ∉ ((pruneNilsAndDedup (builtOf tripleCol)).node 0).WaitingFor ∧
      (((pruneNilsAndDedup (builtOf tripleCol)).node 0).requiredWaitingFor 1 = true ↔
        ∃ r, MakesWait tripleCol r 0 1 ∧ r.IgnoreIfCyclical = false)) :=
  ⟨rfl, rfl, built_graph_has_rule_edges tripleCol (builtOf tripleCol) rfl 0 1⟩

/-- C10, as amended: in every graph returned by `NewChangeGraph`, when some rule makes
`a` wait for `b`, `b` occurs in the final `WaitingFor` of `a` at most once, however
many rules produced the edge, and exactly once when one of those rules is not marked
`IgnoreIfCyclical`. -/
theorem final_edge_at_most_once (col : Collaborators n) (g : ChangeGraph n)
    (h : NewChangeGraph col = some (Except.ok g)) (a b : Fin n)
    (_hw : ∃ r, MakesWait col r a b) :
    (g.node a).WaitingFor.count (some b) ≤ 1 ∧
    ((∃ r, MakesWait col r a b ∧ r.IgnoreIfCyclical = false) →
      (g.node a).WaitingFor.count (some b) = 1) := by
  obtain ⟨g0, g1, hb, hc, hg⟩ := newChangeGraph_ok h
  obtain ⟨hch, _⟩ := checkCycles_changes hc
  have hcl : Clean (g.node a).WaitingFor := by
    subst hg
    refine dedupAll_clean _ _ a (Or.inl ?_)
    rw [hch]
    show a ∈ g0.changes
    rw [buildGraph_changes hb]; exact List.mem_finRange a
  refine ⟨count_le_one_of_nodup _ _ hcl.1, fun hr => ?_⟩
  have hreq := (buildGraph_required hb a b).mpr hr
  have hedge := (buildGraph_edge hb a b).mpr (hr.imp fun _ h => h.1)
  have := (newChangeGraph_keeps hb h).2 a b ⟨hedge, hreq⟩
  exact count_eq_one_of_nodup _ _ hcl.1 this.1

theorem final_edge_at_most_once_witness :
    NewChangeGraph tripleCol = some (Except.ok (resultOf tripleCol)) ∧
    (∃ r, MakesWait tripleCol r 0 1) ∧
    ((resultOf tripleCol).node 0).WaitingFor = [some 1] ∧
    ((resultOf tripleCol).node 0).WaitingFor.count (some 1) ≤ 1 ∧
    ((∃ r, MakesWait tripleCol r 0 1 ∧ r.IgnoreIfCyclical = false) →
      ((resultOf tripleCol).node 0).WaitingFor.count (some 1) = 1) :=
  have hw : ∃ r, MakesWait tripleCol r 0 1 :=
    ⟨afterRule false, Or.inl ⟨rfl, _, _, rfl, List.mem_cons_self _ _, rfl, List.mem_singleton.mpr rfl⟩⟩
  ⟨rfl, hw, rfl, final_edge_at_most_once tripleCol (resultOf tripleCol) rfl 0 1 hw⟩

/-- C10, as stated, fails: in the chain A, B, C the rule on C marked `IgnoreIfCyclical`
makes C wait for A, `NewChangeGraph` succeeds, and A does not occur in the final
`WaitingFor` of C. -/
theorem optional_edge_occurs_zero_times :
    (∃ r, MakesWait chainOptional r 2 0) ∧
    NewChangeGraph chainOptional = some (Except.ok (resultOf chainOptional)) ∧
    ((resultOf chainOptional).node 2).WaitingFor.count (some 0) = 0 :=
  ⟨⟨afterRule true, Or.inl ⟨rfl, _, _, rfl, List.mem_singleton.mpr rfl, rfl,
      List.mem_singleton.mpr rfl⟩⟩, rfl, rfl⟩

theorem setDelete_setAdd {v : Fin n → Bool} {c : Fin n} (h : v c = false) :
    setDelete (setAdd v c) c = v := by
  funext x
  unfold setDelete setAdd
  by_cases hx : x = c
  · subst hx; simp [h]
  · simp [hx]

theorem cycleStep_id {recurse} (hid : RecId (n := n) recurse) {owner : Fin n}
    {req : Fin n → Bool} {p : List (Fin n)} {i : Nat} {s : WalkState n}
    {res : WalkState n × Option (CycleError n)} (hac : Acyclic s.node)
    (hun : ∀ y, Relation.TransGen (Edge s.node) owner y → s.visited y = false)
    (h : cycleStep recurse owner req p i s = some res) : res = (s, none) := by
  unfold cycleStep at h
  cases hc : (s.node owner).WaitingFor.getD i none with
  | none =>
    simp only [hc, Option.some.injEq] at h
    exact h.symm
  | some c =>
    simp only [hc] at h
    have hedge : Edge s.node owner c := mem_iff_getD.mpr ⟨i, hc⟩
    have hv : s.visited c = false := hun c (Relation.TransGen.single hedge)
    simp only [hv, Bool.false_eq_true, if_false] at h
    cases hrc : recurse c (s.node c).requiredWaitingFor (p ++ [c])
        { node := s.node, visited := setAdd s.visited c } with
    | none => simp [hrc] at h
    | some res2 =>
      have := hid c (p ++ [c]) { node := s.node, visited := setAdd s.visited c } res2 hac
        (by
          intro y hy
          have hyc : y ≠ c := fun e => hac c (e ▸ hy)
          simp only [setAdd, hyc, if_false]
          exact hun y (Relation.TransGen.head hedge hy)) hrc
      subst this
      simp only [hrc, Option.some.injEq] at h
      rw [← h, setDelete_setAdd hv]

theorem cycleLoop_id {recurse} (hid : RecId (n := n) recurse) {owner : Fin n}
    {req : Fin n → Bool} {p : List (Fin n)} {s : WalkState n} (hac : Acyclic s.node)
    (hun : ∀ y, Relation.TransGen (Edge s.node) owner y → s.visited y = false) :
    ∀ (todo i : Nat) (res : WalkState n × Option (CycleError n)),
    cycleLoop recurse owner req p todo i s = some res → res = (s, none) := by
  intro todo
  induction todo with
  | zero =>
    intro i res h
    simp only [cycleLoop, Option.some.injEq] at h
    exact h.symm
  | succ todo ih =>
    intro i res h
    simp only [cycleLoop] at h
    cases hst : cycleStep recurse owner req p i s with
    | none => simp [hst] at h
    | some res2 =>
      have := cycleStep_id hid hac hun hst
      subst this
      simp only [hst] at h
      exact ih _ _ h

theorem checkCyclesInChanges_id : ∀ fuel : Nat, RecId (n := n) (checkCyclesInChanges fuel) := by
  intro fuel
  induction fuel with
  | zero => intro c p s res _ _ h; simp [checkCyclesInChanges] at h
  | succ fuel ih =>
    intro c p s res hac hun h
    simp only [checkCyclesInChanges] at h
    exact cycleLoop_id ih hac hun _ _ _ h

theorem checkCyclesFrom_id : ∀ (cs : List (Fin n)) (node : Fin n → Change n),
    Acyclic node → checkCyclesFrom cs node = some (Except.ok node) := by
  intro cs
  induction cs with
  | nil => intro node _; rfl
  | cons c rest ih =>
    intro node hac
    simp only [checkCyclesFrom]
    cases h : checkCyclesInChanges n c (node c).requiredWaitingFor [c]
        { node := node, visited := setAdd (fun _ => false) c } with
    | none =>
      exact absurd h (checkCyclesInChanges_total n c [c]
        { node := node, visited := setAdd (fun _ => false) c } (unvisited_root_lt c))
    | some res =>
      have := checkCyclesInChanges_id n c [c]
        { node := node, visited := setAdd (fun _ => false) c } res hac
        (by
          intro y hy
          have hyc : y ≠ c := fun e => hac c (e ▸ hy)
          simp [setAdd, hyc]) h
      subst this
      exact ih node hac

theorem checkCycles_id (g : ChangeGraph n) (hac : Acyclic g.node) :
    checkCycles g = some (Except.ok g) := by
  unfold checkCycles
  rw [checkCyclesFrom_id _ _ hac]

theorem applyRules_ok {col : Collaborators n} {c : Fin n} : ∀ (rules : List ChangeRule)
    (node : Fin n → Change n),
    (∀ r, r ∈ rules → ∃ m, col.MatchesRule r c = Except.ok m) →
    ∃ node1, applyRules col c rules node = Except.ok node1 := by
  intro rules
  induction rules with
  | nil => intro node _; exact ⟨node, rfl⟩
  | cons r rest ih =>
    intro node h
    obtain ⟨m, hm⟩ := h r (List.mem_cons_self _ _)
    have : ∃ node2, applyRule col c r node = Except.ok node2 := by
      unfold applyRule
      cases r.Order <;> simp [hm]
    obtain ⟨node2, h2⟩ := this
    simp only [applyRules, h2]
    exact ih node2 (fun r' hr' => h r' (List.mem_cons_of_mem _ hr'))

theorem applyAll_ok {col : Collaborators n} : ∀ (cs : List (Fin n)) (node : Fin n → Change n),
    (∀ c, c ∈ cs → ∃ rules, col.ApplicableRules c = Except.ok rules ∧
      ∀ r, r ∈ rules → ∃ m, col.MatchesRule r c = Except.ok m) →
    ∃ node1, applyAll col cs node = Except.ok node1 := by
  intro cs
  induction cs with
  | nil => intro node _; exact ⟨node, rfl⟩
  | cons c rest ih =>
    intro node h
    obtain ⟨rules, hr, hm⟩ := h c (List.mem_cons_self _ _)
    obtain ⟨node2, h2⟩ := @applyRules_ok n col c rules node hm
    simp only [applyAll, hr, h2]
    exact ih node2 (fun c' hc' => h c' (List.mem_cons_of_mem _ hc'))

theorem buildGraph_ok {col : Collaborators n}
    (h : ∀ c, ∃ rules, col.ApplicableRules c = Except.ok rules ∧
      ∀ r, r ∈ rules → ∃ m, col.MatchesRule r c = Except.ok m) :
    ∃ g0, buildGraph col = Except.ok g0 := by
  obtain ⟨node, hn⟩ := @applyAll_ok n col (List.finRange n) (freshNodes n)
    (fun c _ => h c)
  unfold buildGraph
  rw [hn]
  exact ⟨_, rfl⟩

theorem clean_eq_nil {l : List (Option (Fin n))} (hcl : Clean l)
    (h : ∀ b, some b ∉ l) : l = [] := by
  cases l with
  | nil => rfl
  | cons x rest =>
    cases x with
    | none => exact absurd (List.mem_cons_self _ _) hcl.2
    | some b => exact absurd (List.mem_cons_self _ _) (h b)

theorem clean_eq_singleton {l : List (Option (Fin n))} {a : Fin n} (hcl : Clean l)
    (h : ∀ b, some b ∈ l ↔ b = a) : l = [some a] := by
  have hall : ∀ x, x ∈ l → x = some a := by
    intro x hx
    cases x with
    | none => exact absurd hx hcl.2
    | some b => rw [(h b).mp hx]
  cases l with
  | nil => exact absurd ((h a).mpr rfl) (List.not_mem_nil _)
  | cons x rest =>
    have hx := hall x (List.mem_cons_self _ _)
    subst hx
    cases rest with
    | nil => rfl
    | cons y rest2 =>
      have hy := hall y (List.mem_cons_of_mem _ (List.mem_cons_self _ _))
      subst hy
      have := hcl.1
      simp at this

theorem changeGraph_ext {g h : ChangeGraph n} (hc : g.changes = h.changes)
    (hw : ∀ x, (g.node x).WaitingFor = (h.node x).WaitingFor)
    (hr : ∀ x y, (g.node x).requiredWaitingFor y = (h.node x).requiredWaitingFor y) :
    g = h := by
  cases g with
  | mk gc gn =>
    cases h with
    | mk hc' hn =>
      simp only at hc hw hr
      subst hc
      congr
      funext x
      have h1 := hw x
      have h2 : (gn x).requiredWaitingFor = (hn x).requiredWaitingFor := funext (hr x)
      cases hgx : gn x with
      | mk w r =>
        cases hhx : hn x with
        | mk w' r' =>
          rw [hgx, hhx] at h1 h2
          simp only at h1 h2
          rw [h1, h2]

/-- When the rules produce exactly the edge "`b` waits for `a`", the built graph after
the first dedup pass is `singleEdgeGraph`. -/
theorem built_singleEdge {col : Collaborators n} {g0 : ChangeGraph n} {a b : Fin n}
    {flag : Bool} (hb : buildGraph col = Except.ok g0)
    (hE : ∀ x y, (∃ r, MakesWait col r x y) ↔ (x = b ∧ y = a))
    (hM : ∀ x y, (∃ r, MakesWait col r x y ∧ r.IgnoreIfCyclical = false) ↔
      (x = b ∧ y = a ∧ flag = false)) :
    pruneNilsAndDedup g0 = singleEdgeGraph n a b flag := by
  apply changeGraph_ext
  · show g0.changes = List.finRange n
    exact buildGraph_changes hb
  · intro x
    have hcl : Clean ((pruneNilsAndDedup g0).node x).WaitingFor :=
      dedupAll_clean _ _ x (Or.inl (by rw [buildGraph_changes hb]; exact List.mem_finRange x))
    have hmem : ∀ y, some y ∈ ((pruneNilsAndDedup g0).node x).WaitingFor ↔ (x = b ∧ y = a) := by
      intro y
      show some y ∈ (dedupAll _ _ x).WaitingFor ↔ _
      rw [dedupAll_mem, buildGraph_edge hb, hE]
    by_cases hx : x = b
    · simp only [singleEdgeGraph, hx, if_true]
      rw [← hx]
      exact clean_eq_singleton hcl (fun y => by rw [hmem]; simp [hx])
    · simp only [singleEdgeGraph, hx, if_false]
      exact clean_eq_nil hcl (fun y => by rw [hmem]; simp [hx])
  · intro x y
    have hreq : ((pruneNilsAndDedup g0).node x).requiredWaitingFor y = true ↔
        (x = b ∧ y = a ∧ flag = false) := by
      show (dedupAll _ _ x).requiredWaitingFor y = true ↔ _
      rw [dedupAll_required, buildGraph_required hb, hM]
    rw [Bool.eq_iff_iff, hreq]
    by_cases hx : x = b
    · simp [singleEdgeGraph, hx]
    · simp [singleEdgeGraph, hx]

theorem singleEdgeGraph_edge {a b : Fin n} {flag : Bool} {x y : Fin n} :
    Edge (singleEdgeGraph n a b flag).node x y ↔ (x = b ∧ y = a) := by
  unfold Edge singleEdgeGraph
  by_cases hx : x = b
  · simp [hx]
  · simp [hx]

theorem singleEdgeGraph_acyclic {a b : Fin n} (hab : a ≠ b) (flag : Bool) :
    Acyclic (singleEdgeGraph n a b flag).node := by
  intro x t
  obtain ⟨c, e1, t2⟩ := Relation.TransGen.head'_iff.mp t
  obtain ⟨hx, hc⟩ := singleEdgeGraph_edge.mp e1
  subst hx hc
  rcases Relation.reflTransGen_iff_eq_or_transGen.mp t2 with e | t3
  · exact hab e.symm
  · obtain ⟨c', e3, _⟩ := Relation.TransGen.head'_iff.mp t3
    exact hab (singleEdgeGraph_edge.mp e3).1

theorem singleEdgeGraph_clean {a b : Fin n} (flag : Bool) (x : Fin n) :
    Clean ((singleEdgeGraph n a b flag).node x).WaitingFor := by
  unfold singleEdgeGraph Clean
  by_cases hx : x = b <;> simp [hx]

/-- When the rules produce exactly the edge "`b` waits for `a`" with `a ≠ b`,
`NewChangeGraph` returns `singleEdgeGraph`. -/
theorem newChangeGraph_singleEdge {col : Collaborators n} {g0 : ChangeGraph n} {a b : Fin n}
    {flag : Bool} (hab : a ≠ b) (hb : buildGraph col = Except.ok g0)
    (hd : pruneNilsAndDedup g0 = singleEdgeGraph n a b flag) :
    NewChangeGraph col = some (Except.ok (singleEdgeGraph n a b flag)) := by
  unfold NewChangeGraph
  simp only [hb, hd, checkCycles_id _ (singleEdgeGraph_acyclic hab flag)]
  congr
  unfold pruneNilsAndDedup
  rw [dedupAll_of_clean _ _ (singleEdgeGraph_clean flag)]

theorem makesWait_single_before {col : Collaborators n} {A B : Fin n} {r1 : ChangeRule}
    (ho : r1.Order = ChangeRuleOrder.Before)
    (ha : col.ApplicableRules A = Except.ok [r1])
    (hother : ∀ x, x ≠ A → col.ApplicableRules x = Except.ok [])
    (hm : col.MatchesRule r1 A = Except.ok [B]) (P : ChangeRule → Prop) (x y : Fin n) :
    (∃ r, MakesWait col r x y ∧ P r) ↔ (x = B ∧ y = A ∧ P r1) := by
  have hrules : ∀ z rules r, col.ApplicableRules z = Except.ok rules → r ∈ rules →
      z = A ∧ r = r1 := by
    intro z rules r hz hr
    by_cases hzA : z = A
    · subst hzA
      rw [ha] at hz
      cases hz
      exact ⟨rfl, List.mem_singleton.mp hr⟩
    · rw [hother z hzA] at hz
      cases hz
      simp at hr
  constructor
  · rintro ⟨r, h, hP⟩
    rcases h with ⟨hoa, rules, m, hr, hmem, hmr, hb⟩ | ⟨hob, rules, m, hr, hmem, hmr, hb⟩
    · obtain ⟨_, rfl⟩ := hrules _ _ _ hr hmem
      rw [ho] at hoa; cases hoa
    · obtain ⟨rfl, rfl⟩ := hrules _ _ _ hr hmem
      rw [hm] at hmr
      cases hmr
      exact ⟨List.mem_singleton.mp hb, rfl, hP⟩
  · rintro ⟨rfl, rfl, hP⟩
    exact ⟨r1, Or.inr ⟨ho, [r1], [x], ha, List.mem_singleton.mpr rfl, hm,
      List.mem_singleton.mpr rfl⟩, hP⟩

theorem makesWait_single_after {col : Collaborators n} {A B : Fin n} {r2 : ChangeRule}
    (ho : r2.Order = ChangeRuleOrder.After)
    (ha : col.ApplicableRules B = Except.ok [r2])
    (hother : ∀ x, x ≠ B → col.ApplicableRules x = Except.ok [])
    (hm : col.MatchesRule r2 B = Except.ok [A]) (P : ChangeRule → Prop) (x y : Fin n) :
    (∃ r, MakesWait col r x y ∧ P r) ↔ (x = B ∧ y = A ∧ P r2) := by
  have hrules : ∀ z rules r, col.ApplicableRules z = Except.ok rules → r ∈ rules →
      z = B ∧ r = r2 := by
    intro z rules r hz hr
    by_cases hzB : z = B
    · subst hzB
      rw [ha] at hz
      cases hz
      exact ⟨rfl, List.mem_singleton.mp hr⟩
    · rw [hother z hzB] at hz
      cases hz
      simp at hr
  constructor
  · rintro ⟨r, h, hP⟩
    rcases h with ⟨hoa, rules, m, hr, hmem, hmr, hb⟩ | ⟨hob, rules, m, hr, hmem, hmr, hb⟩
    · obtain ⟨rfl, rfl⟩ := hrules _ _ _ hr hmem
      rw [hm] at hmr
      cases hmr
      exact ⟨rfl, List.mem_singleton.mp hb, hP⟩
    · obtain ⟨_, rfl⟩ := hrules _ _ _ hr hmem
      rw [ho] at hob; cases hob
  · rintro ⟨rfl, rfl, hP⟩
    exact ⟨r2, Or.inl ⟨ho, [r2], [y], ha, List.mem_singleton.mpr rfl, hm,
      List.mem_singleton.mpr rfl⟩, hP⟩

theorem buildGraph_ok_single {col : Collaborators n} {A B : Fin n} {r1 : ChangeRule}
    (ha : col.ApplicableRules A = Except.ok [r1])
    (hother : ∀ x, x ≠ A → col.ApplicableRules x = Except.ok [])
    (hm : col.MatchesRule r1 A = Except.ok [B]) : ∃ g0, buildGraph col = Except.ok g0 := by
  apply buildGraph_ok
  intro c
  by_cases hc : c = A
  · subst hc
    exact ⟨[r1], ha, fun r hr => by rw [List.mem_singleton.mp hr]; exact ⟨_, hm⟩⟩
  · exact ⟨[], hother c hc, fun r hr => by simp at hr⟩

/-- C9: direction symmetry. For distinct nodes A and B, the graph built from the single
rule "A before B" and the graph built from the single rule "B after A" with the same
`IgnoreIfCyclical` flag are identical, after the first dedup pass and as returned by
`NewChangeGraph`: both are the graph in which B waits for exactly A, nothing else
waits for anything, and A is required for B exactly when the flag is not set. -/
theorem before_after_symmetry (A B : Fin n) (hAB : A ≠ B) (flag : Bool)
    (col1 col2 : Collaborators n) (r1 r2 : ChangeRule)
    (ho1 : r1.Order = ChangeRuleOrder.Before) (hf1 : r1.IgnoreIfCyclical = flag)
    (ha1 : col1.ApplicableRules A = Except.ok [r1])
    (hother1 : ∀ x, x ≠ A → col1.ApplicableRules x = Except.ok [])
    (hm1 : col1.MatchesRule r1 A = Except.ok [B])
    (ho2 : r2.Order = ChangeRuleOrder.After) (hf2 : r2.IgnoreIfCyclical = flag)
    (ha2 : col2.ApplicableRules B = Except.ok [r2])
    (hother2 : ∀ x, x ≠ B → col2.ApplicableRules x = Except.ok [])
    (hm2 : col2.MatchesRule r2 B = Except.ok [A]) :
    (∃ g1 g2, buildGraph col1 = Except.ok g1 ∧ buildGraph col2 = Except.ok g2 ∧
      pruneNilsAndDedup g1 = singleEdgeGraph n A B flag ∧
      pruneNilsAndDedup g2 = singleEdgeGraph n A B flag) ∧
    NewChangeGraph col1 = some (Except.ok (singleEdgeGraph n A B flag)) ∧
    NewChangeGraph col2 = some (Except.ok (singleEdgeGraph n A B flag)) ∧
    ((singleEdgeGraph n A B flag).node B).WaitingFor = [some A] ∧
    (∀ x, x ≠ B → ((singleEdgeGraph n A B flag).node x).WaitingFor = []) ∧
    (∀ x y, ((singleEdgeGraph n A B flag).node x).requiredWaitingFor y = true ↔
      (x = B ∧ y = A ∧ flag = false)) := by
  obtain ⟨g1, hb1⟩ := buildGraph_ok_single ha1 hother1 hm1
  obtain ⟨g2, hb2⟩ := buildGraph_ok_single ha2 hother2 hm2
  have hd1 : pruneNilsAndDedup g1 = singleEdgeGraph n A B flag := by
    apply built_singleEdge hb1
    · intro x y
      have := makesWait_single_before ho1 ha1 hother1 hm1 (fun _ => True) x y
      simpa using this
    · intro x y
      rw [makesWait_single_before ho1 ha1 hother1 hm1, hf1]
  have hd2 : pruneNilsAndDedup g2 = singleEdgeGraph n A B flag := by
    apply built_singleEdge hb2
    · intro x y
      have := makesWait_single_after ho2 ha2 hother2 hm2 (fun _ => True) x y
      simpa using this
    · intro x y
      rw [makesWait_single_after ho2 ha2 hother2 hm2, hf2]
  refine ⟨⟨g1, g2, hb1, hb2, hd1, hd2⟩, newChangeGraph_singleEdge hAB hb1 hd1,
    newChangeGraph_singleEdge hAB hb2 hd2, ?_, ?_, ?_⟩
  · simp [singleEdgeGraph]
  · intro x hx; simp [singleEdgeGraph, hx]
  · intro x y
    by_cases hx : x = B <;> simp [singleEdgeGraph, hx]

theorem before_after_symmetry_witness :
    NewChangeGraph beforeCol = some (Except.ok (singleEdgeGraph 2 0 1 false)) ∧
    NewChangeGraph afterCol = some (Except.ok (singleEdgeGraph 2 0 1 false)) :=
  have h := before_after_symmetry (0 : Fin 2) 1 (by decide) false beforeCol afterCol
    (beforeRule false) (afterRule false) rfl rfl rfl
    (fun x hx => by fin_cases x <;> first | rfl | exact absurd rfl hx) rfl rfl rfl rfl
    (fun x hx => by fin_cases x <;> first | rfl | exact absurd rfl hx) rfl
  ⟨h.2.1, h.2.2.1⟩

theorem rank_next_lt {σ : Equiv.Perm (Fin n)} {m : Nat} {x : Fin n} (hmn : m ≤ n)
    (h : (σ.symm x).val + 1 < m) :
    (σ.symm (nextOnCycle σ m x)).val = (σ.symm x).val + 1 := by
  unfold nextOnCycle
  have h1 : ((σ.symm x).val + 1) % m = (σ.symm x).val + 1 := Nat.mod_eq_of_lt h
  have h2 : ((σ.symm x).val + 1) % m < n := by omega
  rw [dif_pos h2, Equiv.symm_apply_apply]
  exact h1

theorem rank_next_last {σ : Equiv.Perm (Fin n)} {m : Nat} {x : Fin n} (hmn : m ≤ n)
    (h : (σ.symm x).val + 1 = m) : (σ.symm (nextOnCycle σ m x)).val = 0 := by
  unfold nextOnCycle
  have h1 : ((σ.symm x).val + 1) % m = 0 := by rw [h]; exact Nat.mod_self m
  have h2 : ((σ.symm x).val + 1) % m < n := by omega
  rw [dif_pos h2, Equiv.symm_apply_apply]
  exact h1

theorem eq_of_rank_eq {σ : Equiv.Perm (Fin n)} {x y : Fin n}
    (h : (σ.symm x).val = (σ.symm y).val) : x = y :=
  σ.symm.injective (Fin.ext h)

theorem change_ext {a b : Change n} (hw : a.WaitingFor = b.WaitingFor)
    (hr : a.requiredWaitingFor = b.requiredWaitingFor) : a = b := by
  cases a; cases b; simp only at hw hr; subst hw hr; rfl

theorem isOpened_setNil {σ : Equiv.Perm (Fin n)} {m : Nat} {U N : Fin n → Change n}
    {x : Fin n} (hU : IsCycle σ m U) (hx : (σ.symm x).val + 1 = m) (hp : PrunedFrom U N) :
    IsOpened σ m U (setNil N x 0) := by
  have hlast : ∀ y, (σ.symm y).val + 1 = m → y = x := by
    intro y hy
    apply eq_of_rank_eq (σ := σ)
    omega
  have hlen : ∀ y, (σ.symm y).val < m → ∃ e, (N y).WaitingFor = [e] := by
    intro y hy
    have h1 := (hp y).2.1
    rw [hU.wf y hy] at h1
    match hN : (N y).WaitingFor, h1 with
    | [e], _ => exact ⟨e, rfl⟩
  refine ⟨fun y => ?_, fun y hy => ?_, fun y hy => ?_, fun y hy => ?_⟩
  · unfold setNil
    by_cases hyx : y = x
    · subst hyx; simp [(hp y).1]
    · simp [hyx, (hp y).1]
  · have hyx : y ≠ x := by
      intro e
      subst e
      omega
    unfold setNil
    simp only [hyx, if_false]
    obtain ⟨e, he⟩ := hlen y (by omega)
    rcases (hp y).2.2 0 with h | ⟨_, c, hc, hr⟩
    · rw [he, hU.wf y (by omega)] at h
      simp at h
      rw [he, h]
    · rw [hU.wf y (by omega)] at hc
      simp at hc
      subst hc
      rw [(hU.req y (by omega)).mpr hy] at hr
      cases hr
  · have hyx : y = x := hlast y hy
    subst hyx
    unfold setNil
    simp only [if_true]
    obtain ⟨e, he⟩ := hlen y (by omega)
    rw [he]
    rfl
  · have hyx : y ≠ x := by
      intro e
      subst e
      omega
    unfold setNil
    simp only [hyx, if_false]
    have h1 := (hp y).2.1
    rw [hU.off y hy] at h1
    exact List.length_eq_zero.mp h1

theorem isOpened_edge {σ : Equiv.Perm (Fin n)} {m : Nat} {U P : Fin n → Change n}
    (hmn : m ≤ n) (hP : IsOpened σ m U P) {x y : Fin n} (e : Edge P x y) :
    (σ.symm y).val = (σ.symm x).val + 1 := by
  unfold Edge at e
  by_cases hx : (σ.symm x).val + 1 < m
  · rw [hP.inner x hx] at e
    simp at e
    rw [e, rank_next_lt hmn hx]
  · by_cases hx2 : (σ.symm x).val + 1 = m
    · rw [hP.last x hx2] at e
      simp at e
    · rw [hP.off x (by omega)] at e
      simp at e

theorem isOpened_acyclic {σ : Equiv.Perm (Fin n)} {m : Nat} {U P : Fin n → Change n}
    (hmn : m ≤ n) (hP : IsOpened σ m U P) : Acyclic P := by
  intro x t
  have := transGen_rank (R := Edge P) (fun z => n - (σ.symm z).val)
    (fun a b e => by
      have h1 := isOpened_edge hmn hP e
      have h2 := (σ.symm b).isLt
      show n - (σ.symm b).val < n - (σ.symm a).val
      omega) t
  exact lt_irrefl _ this

theorem isCycle_mandatory_chain {σ : Equiv.Perm (Fin n)} {m : Nat} {U : Fin n → Change n}
    (hmn : m ≤ n) (hU : IsCycle σ m U) : ∀ (d : Nat) (x y : Fin n),
    (σ.symm y).val = (σ.symm x).val + d + 1 → (σ.symm y).val < m →
    Relation.TransGen (MandatoryEdge U) x y := by
  intro d
  induction d with
  | zero =>
    intro x y h hy
    have hx : (σ.symm x).val + 1 < m := by omega
    have : y = nextOnCycle σ m x := eq_of_rank_eq (by rw [rank_next_lt hmn hx]; omega)
    subst this
    exact Relation.TransGen.single
      ⟨by rw [hU.wf x (by omega)]; simp, (hU.req x (by omega)).mpr hx⟩
  | succ d ih =>
    intro x y h hy
    have hx : (σ.symm x).val + 1 < m := by omega
    refine Relation.TransGen.head (b := nextOnCycle σ m x)
      ⟨by rw [hU.wf x (by omega)]; simp, (hU.req x (by omega)).mpr hx⟩ (ih _ _ ?_ hy)
    rw [rank_next_lt hmn hx]; omega

theorem segment_setAdd {σ : Equiv.Perm (Fin n)} {m r : Nat} {x : Fin n} (hmn : m ≤ n)
    (hx : (σ.symm x).val + 1 < m) (hr : r ≤ (σ.symm x).val) :
    setAdd (segment σ r (σ.symm x).val) (nextOnCycle σ m x) =
      segment σ r (σ.symm (nextOnCycle σ m x)).val := by
  funext y
  unfold setAdd segment
  rw [rank_next_lt hmn hx]
  by_cases hy : y = nextOnCycle σ m x
  · subst hy
    rw [rank_next_lt hmn hx]
    simp
    omega
  · have hne : (σ.symm y).val ≠ (σ.symm x).val + 1 := by
      intro e
      exact hy (eq_of_rank_eq (by rw [rank_next_lt hmn hx]; exact e))
    simp only [hy, if_false]
    rw [decide_eq_decide]
    omega

theorem cycleLoop_one {recurse} {owner : Fin n} {req : Fin n → Bool} {p : List (Fin n)}
    {s : WalkState n} :
    cycleLoop recurse owner req p 1 0 s =
      match cycleStep recurse owner req p 0 s with
      | none => none
      | some (s1, some err) => some (s1, some err)
      | some (s1, none) => some (s1, none) := by
  cases h : cycleStep recurse owner req p 0 s with
  | none => simp [cycleLoop, h]
  | some res =>
    obtain ⟨s1, r⟩ := res
    cases r <;> simp [cycleLoop, h]

/-- A frame of the walk entered on the cycle, below a root at position `r`, with the
nodes from the root down to the frame's node visited: it succeeds and leaves the cycle
with its closing edge pruned. -/
theorem cycle_frame {σ : Equiv.Perm (Fin n)} {m : Nat} {U : Fin n → Change n} (hmn : m ≤ n)
    (hU : IsCycle σ m U)
    (r : Nat) : ∀ (d : Nat) (x : Fin n), (σ.symm x).val + d + 1 = m → r ≤ (σ.symm x).val →
    ∀ fuel p res, checkCyclesInChanges fuel x (U x).requiredWaitingFor p
      { node := U, visited := segment σ r (σ.symm x).val } = some res →
    res.2 = none ∧ IsOpened σ m U res.1.node := by
  intro d
  induction d with
  | zero =>
    intro x hd hr fuel p res h
    have hx : (σ.symm x).val + 1 = m := by omega
    have hxm : (σ.symm x).val < m := by omega
    cases fuel with
    | zero => simp [checkCyclesInChanges] at h
    | succ fuel =>
      simp only [checkCyclesInChanges, hU.wf x hxm, List.length_singleton, cycleLoop_one] at h
      unfold cycleStep at h
      simp only [hU.wf x hxm, List.getD_cons_zero] at h
      have hreq : (U x).requiredWaitingFor (nextOnCycle σ m x) = false := by
        cases hq : (U x).requiredWaitingFor (nextOnCycle σ m x) with
        | false => rfl
        | true => exact absurd ((hU.req x hxm).mp hq) (by omega)
      simp only [hreq, Bool.false_eq_true, if_false] at h
      by_cases hv : segment σ r (σ.symm x).val (nextOnCycle σ m x) = true
      · simp only [hv, if_true, Option.some.injEq] at h
        subst h
        exact ⟨rfl, isOpened_setNil hU hx (PrunedFrom.refl U)⟩
      · simp only [hv] at h
        have hr0 : 0 < r := by
          by_contra h0
          apply hv
          unfold segment
          rw [rank_next_last hmn hx]
          simp
          omega
        cases hrc : checkCyclesInChanges fuel (nextOnCycle σ m x)
            (U (nextOnCycle σ m x)).requiredWaitingFor (p ++ [nextOnCycle σ m x])
            { node := U,
              visited := setAdd (segment σ r (σ.symm x).val) (nextOnCycle σ m x) } with
        | none => simp [hrc] at h
        | some res2 =>
          obtain ⟨s2, r2⟩ := res2
          have ok := checkCyclesInChanges_ok fuel (nextOnCycle σ m x) (p ++ [nextOnCycle σ m x])
            { node := U,
              visited := setAdd (segment σ r (σ.symm x).val) (nextOnCycle σ m x) } s2 r2 hrc
          simp only [hrc] at h
          cases r2 with
          | some err =>
            simp only [Bool.false_eq_true, if_false, Option.some.injEq] at h
            subst h
            exact ⟨rfl, isOpened_setNil hU hx ok.pruned⟩
          | none =>
            exfalso
            have hrn : r < n := by omega
            refine checkCyclesInChanges_complete fuel (nextOnCycle σ m x)
              (p ++ [nextOnCycle σ m x])
              { node := U,
                visited := setAdd (segment σ r (σ.symm x).val) (nextOnCycle σ m x) }
              s2 (σ ⟨r, hrn⟩) ?_ ?_ hrc
            · simp [setAdd, segment]
              right; exact hr
            · apply isCycle_mandatory_chain hmn hU (r - 1)
              · rw [rank_next_last hmn hx]
                simp
                omega
              · simp
                omega
  | succ d ih =>
    intro x hd hr fuel p res h
    have hx : (σ.symm x).val + 1 < m := by omega
    have hxm : (σ.symm x).val < m := by omega
    cases fuel with
    | zero => simp [checkCyclesInChanges] at h
    | succ fuel =>
      simp only [checkCyclesInChanges, hU.wf x hxm, List.length_singleton, cycleLoop_one] at h
      unfold cycleStep at h
      simp only [hU.wf x hxm, List.getD_cons_zero] at h
      have hv : segment σ r (σ.symm x).val (nextOnCycle σ m x) = false := by
        unfold segment
        rw [rank_next_lt hmn hx]
        simp
      simp only [hv, Bool.false_eq_true, if_false, segment_setAdd hmn hx hr] at h
      cases hrc : checkCyclesInChanges fuel (nextOnCycle σ m x)
          (U (nextOnCycle σ m x)).requiredWaitingFor (p ++ [nextOnCycle σ m x])
          { node := U, visited := segment σ r (σ.symm (nextOnCycle σ m x)).val } with
      | none => simp [hrc] at h
      | some res2 =>
        obtain ⟨hnone, hop⟩ := ih (nextOnCycle σ m x) (by rw [rank_next_lt hmn hx]; omega)
          (by rw [rank_next_lt hmn hx]; omega) fuel _ res2 hrc
        obtain ⟨s2, r2⟩ := res2
        simp only at hnone hop
        subst hnone
        simp only [hrc, Option.some.injEq] at h
        subst h
        exact ⟨rfl, hop⟩

theorem segment_root (σ : Equiv.Perm (Fin n)) (c : Fin n) :
    setAdd (fun _ => false) c = segment σ (σ.symm c).val (σ.symm c).val := by
  funext y
  unfold setAdd segment
  by_cases hy : y = c
  · subst hy; simp
  · have : (σ.symm y).val ≠ (σ.symm c).val := fun e => hy (eq_of_rank_eq e)
    simp only [hy, if_false]
    symm
    rw [decide_eq_false_iff_not]
    omega

theorem checkCyclesInChanges_nil {fuel : Nat} {c : Fin n} {req : Fin n → Bool}
    {p : List (Fin n)} {s : WalkState n} (h : (s.node c).WaitingFor = []) :
    checkCyclesInChanges (fuel + 1) c req p s = some (s, none) := by
  simp [checkCyclesInChanges, h, cycleLoop]

theorem checkCyclesFrom_cycle {σ : Equiv.Perm (Fin n)} {m : Nat} {U : Fin n → Change n}
    (hmn : m ≤ n) (hU : IsCycle σ m U) : ∀ cs : List (Fin n),
    (∃ P, IsOpened σ m U P ∧ checkCyclesFrom cs U = some (Except.ok P)) ∨
    ((∀ c, c ∈ cs → ¬ (σ.symm c).val < m) ∧ checkCyclesFrom cs U = some (Except.ok U)) := by
  intro cs
  induction cs with
  | nil => exact Or.inr ⟨fun c hc => by simp at hc, rfl⟩
  | cons c rest ih =>
    by_cases hc : (σ.symm c).val < m
    · left
      simp only [checkCyclesFrom]
      cases h : checkCyclesInChanges n c (U c).requiredWaitingFor [c]
          { node := U, visited := setAdd (fun _ => false) c } with
      | none =>
        exact absurd h (checkCyclesInChanges_total n c [c]
          { node := U, visited := setAdd (fun _ => false) c } (unvisited_root_lt c))
      | some res =>
        have h1 := h
        rw [segment_root σ c] at h1
        obtain ⟨hnone, hop⟩ := cycle_frame hmn hU (σ.symm c).val (m - 1 - (σ.symm c).val) c
          (by omega) (le_refl _) n [c] res h1
        obtain ⟨s, r⟩ := res
        simp only at hnone hop
        subst hnone
        exact ⟨s.node, hop, checkCyclesFrom_id rest s.node (isOpened_acyclic hmn hop)⟩
    · have hroot : checkCyclesInChanges n c (U c).requiredWaitingFor [c]
          { node := U, visited := setAdd (fun _ => false) c } =
          some ({ node := U, visited := setAdd (fun _ => false) c }, none) := by
        cases n with
        | zero => exact c.elim0
        | succ k => exact checkCyclesInChanges_nil (hU.off c hc)
      simp only [checkCyclesFrom, hroot]
      rcases ih with ⟨P, hP, h⟩ | ⟨hall, h⟩
      · exact Or.inl ⟨P, hP, h⟩
      · refine Or.inr ⟨fun c1 hc1 => ?_, h⟩
        rcases List.mem_cons.mp hc1 with e | e
        · rw [e]; exact hc
        · exact hall c1 e

/-- C8: when the edges of the built graph form one simple cycle over `m ≥ 2` nodes,
placed anywhere in the input order (`σ` sends position `k` of the cycle to a node, so
this covers every ordering of the top-level nodes), whose closing edge is the only
optional one, `NewChangeGraph` succeeds and the returned graph holds exactly the
`m - 1` mandatory edges: every node of the cycle but the last still waits for exactly
its successor, every other node waits for nothing, and the required sets are those of
the built graph. -/
theorem single_optional_cycle_resolved (m : Nat) (hm : 2 ≤ m) (hmn : m ≤ n)
    (σ : Equiv.Perm (Fin n)) (col : Collaborators n) (g0 : ChangeGraph n)
    (hb : buildGraph col = Except.ok g0)
    (hE : ∀ x y, some y ∈ (g0.node x).WaitingFor ↔
      ((σ.symm x).val < m ∧ y = nextOnCycle σ m x))
    (hM : ∀ x, (σ.symm x).val < m →
      ((g0.node x).requiredWaitingFor (nextOnCycle σ m x) = true ↔ (σ.symm x).val + 1 < m)) :
    ∃ g, NewChangeGraph col = some (Except.ok g) ∧
      (∀ x, (σ.symm x).val + 1 < m → (g.node x).WaitingFor = [some (nextOnCycle σ m x)]) ∧
      (∀ x, ¬ (σ.symm x).val + 1 < m → (g.node x).WaitingFor = []) ∧
      (∀ x, (g.node x).requiredWaitingFor = (g0.node x).requiredWaitingFor) := by
  have hch : g0.changes = List.finRange n := buildGraph_changes hb
  have hmem : ∀ x, x ∈ g0.changes := fun x => by rw [hch]; exact List.mem_finRange x
  have hU : IsCycle σ m (pruneNilsAndDedup g0).node := by
    refine ⟨fun x hx => ?_, fun x hx => ?_, fun x hx => ?_⟩
    · refine clean_eq_singleton (dedupAll_clean _ _ x (Or.inl (hmem x))) (fun y => ?_)
      show some y ∈ (dedupAll _ _ x).WaitingFor ↔ _
      rw [dedupAll_mem, hE]
      simp [hx]
    · refine clean_eq_nil (dedupAll_clean _ _ x (Or.inl (hmem x))) (fun y => ?_)
      show some y ∉ (dedupAll _ _ x).WaitingFor
      rw [dedupAll_mem, hE]
      simp [hx]
    · show (dedupAll _ _ x).requiredWaitingFor _ = true ↔ _
      rw [dedupAll_required, hM x hx]
  have hfrom : ∃ P, IsOpened σ m (pruneNilsAndDedup g0).node P ∧
      checkCyclesFrom g0.changes (pruneNilsAndDedup g0).node = some (Except.ok P) := by
    rcases checkCyclesFrom_cycle hmn hU g0.changes with h | ⟨hall, _⟩
    · exact h
    · exfalso
      have h0 : 0 < n := by omega
      refine hall (σ ⟨0, h0⟩) (hmem _) ?_
      simp
      omega
  obtain ⟨P, hP, hfrom⟩ := hfrom
  refine ⟨pruneNilsAndDedup { changes := g0.changes, node := P }, ?_, ?_, ?_, ?_⟩
  · unfold NewChangeGraph
    simp only [hb]
    unfold checkCycles
    have hfrom1 : checkCyclesFrom (pruneNilsAndDedup g0).changes (pruneNilsAndDedup g0).node =
        some (Except.ok P) := hfrom
    rw [hfrom1]
    rfl
  · intro x hx
    refine clean_eq_singleton (dedupAll_clean _ _ x (Or.inl (hmem x))) (fun y => ?_)
    show some y ∈ (dedupAll _ _ x).WaitingFor ↔ _
    rw [dedupAll_mem, hP.inner x hx]
    simp
  · intro x hx
    refine clean_eq_nil (dedupAll_clean _ _ x (Or.inl (hmem x))) (fun y => ?_)
    show some y ∉ (dedupAll _ _ x).WaitingFor
    rw [dedupAll_mem]
    by_cases hx2 : (σ.symm x).val + 1 = m
    · rw [hP.last x hx2]; simp
    · rw [hP.off x (by omega)]; simp
  · intro x
    show (dedupAll _ _ x).requiredWaitingFor = _
    rw [dedupAll_required, hP.req]
    show (dedupAll _ _ x).requiredWaitingFor = _
    rw [dedupAll_required]

theorem single_optional_cycle_resolved_witness :
    buildGraph chainOptional = Except.ok (builtOf chainOptional) ∧
    ∃ g, NewChangeGraph chainOptional = some (Except.ok g) ∧
      (∀ x, ((Equiv.refl (Fin 3)).symm x).val + 1 < 3 →
        (g.node x).WaitingFor = [some (nextOnCycle (Equiv.refl (Fin 3)) 3 x)]) ∧
      (∀ x, ¬ ((Equiv.refl (Fin 3)).symm x).val + 1 < 3 → (g.node x).WaitingFor = []) ∧
      (∀ x, (g.node x).requiredWaitingFor =
        ((builtOf chainOptional).node x).requiredWaitingFor) :=
  ⟨rfl, single_optional_cycle_resolved 3 (by decide) (by decide) (Equiv.refl (Fin 3))
    chainOptional (builtOf chainOptional) rfl (by decide) (by decide)⟩

/-! ### The final dedup pass -/

theorem firstBefore_dedupLoop (built : List (Option (Fin n))) :
    ∀ (l pre : List (Option (Fin n))) (seen : Fin n → Bool) (acc : List (Option (Fin n))),
    built = pre ++ l → (∀ c, some c ∈ pre → seen c = true) → (∀ x, x ∈ acc → x ∈ pre) →
    acc.Pairwise (FirstBefore built) →
    (dedupLoop l seen acc).Pairwise (FirstBefore built) := by
  intro l
  induction l with
  | nil => intro pre seen acc _ _ _ h; simpa [dedupLoop] using h
  | cons a rest ih =>
    intro pre seen acc hb hseen hacc hp
    have hb' : built = (pre ++ [a]) ++ rest := by rw [hb]; simp
    cases a with
    | none =>
      simp only [dedupLoop]
      refine ih (pre ++ [none]) seen acc hb' ?_ ?_ hp
      · intro c hc
        rcases List.mem_append.mp hc with h | h
        · exact hseen c h
        · simp at h
      · intro x hx; exact List.mem_append_left _ (hacc x hx)
    | some c =>
      simp only [dedupLoop]
      by_cases hs : seen c = true
      · rw [if_pos hs]
        refine ih (pre ++ [some c]) seen acc hb' ?_ ?_ hp
        · intro d hd
          rcases List.mem_append.mp hd with h | h
          · exact hseen d h
          · rw [List.mem_singleton] at h; cases h; exact hs
        · intro x hx; exact List.mem_append_left _ (hacc x hx)
      · rw [if_neg hs]
        have hcpre : some c ∉ pre := fun h => hs (hseen c h)
        refine ih (pre ++ [some c]) (setAdd seen c) (acc ++ [some c]) hb' ?_ ?_ ?_
        · intro d hd
          rcases List.mem_append.mp hd with h | h
          · by_cases hdc : d = c
            · simp [setAdd, hdc]
            · simp [setAdd, hdc, hseen d h]
          · rw [List.mem_singleton] at h; cases h; simp [setAdd]
        · intro x hx
          rcases List.mem_append.mp hx with h | h
          · exact List.mem_append_left _ (hacc x h)
          · exact List.mem_append_right _ h
        · rw [List.pairwise_append]
          refine ⟨hp, List.pairwise_singleton _ _, ?_⟩
          intro x hx y hy
          rw [List.mem_singleton] at hy
          subst hy
          exact ⟨pre, some c :: rest, hb, hacc x hx, hcpre⟩

theorem dedupLoop_pruned_sublist : ∀ (l l1 : List (Option (Fin n))) (seen : Fin n → Bool)
    (acc : List (Option (Fin n))), l1.length = l.length →
    (∀ i, l1.getD i none = l.getD i none ∨ l1.getD i none = none) → Clean l →
    (∀ c, some c ∈ l → seen c = false) →
    ∃ t, dedupLoop l1 seen acc = acc ++ t ∧ t.Sublist l := by
  intro l
  induction l with
  | nil =>
    intro l1 seen acc hlen _ _ _
    have : l1 = [] := List.length_eq_zero.mp hlen
    subst this
    exact ⟨[], by simp [dedupLoop], List.Sublist.refl _⟩
  | cons x xs ih =>
    intro l1 seen acc hlen hget hcl hseen
    cases l1 with
    | nil => simp at hlen
    | cons y ys =>
      have hlen' : ys.length = xs.length := by simpa using hlen
      have hget' : ∀ i, ys.getD i none = xs.getD i none ∨ ys.getD i none = none := by
        intro i
        have := hget (i + 1)
        simpa using this
      obtain ⟨hnd, hnn⟩ := hcl
      rw [List.nodup_cons] at hnd
      have hcl' : Clean xs := ⟨hnd.2, fun h => hnn (List.mem_cons_of_mem _ h)⟩
      have h0 := hget 0
      simp only [List.getD_cons_zero] at h0
      cases y with
      | none =>
        simp only [dedupLoop]
        obtain ⟨t, ht, hsub⟩ := ih ys seen acc hlen' hget' hcl'
          (fun c hc => hseen c (List.mem_cons_of_mem _ hc))
        exact ⟨t, ht, List.Sublist.cons _ hsub⟩
      | some c =>
        have hx : x = some c := by
          rcases h0 with h | h
          · exact h.symm
          · cases h
        subst hx
        have hc : seen c = false := hseen c (List.mem_cons_self _ _)
        simp only [dedupLoop]
        rw [if_neg (by simp [hc])]
        obtain ⟨t, ht, hsub⟩ := ih ys (setAdd seen c) (acc ++ [some c]) hlen' hget' hcl'
          (fun d hd => by
            have hdc : d ≠ c := fun e => hnd.1 (e ▸ hd)
            simp [setAdd, hdc, hseen d (List.mem_cons_of_mem _ hd)])
        exact ⟨some c :: t, by rw [ht]; simp, List.Sublist.cons₂ _ hsub⟩

theorem dedupAll_not_mem : ∀ (cs : List (Fin n)) (node : Fin n → Change n) (x : Fin n),
    x ∉ cs → dedupAll cs node x = node x := by
  intro cs
  induction cs with
  | nil => intro node x _; rfl
  | cons d ds ih =>
    intro node x hx
    simp only [dedupAll]
    rw [ih _ x (fun h => hx (List.mem_cons_of_mem _ h))]
    have : x ≠ d := fun e => hx (e ▸ List.mem_cons_self _ _)
    simp [dedupNode, this]

theorem dedupAll_nodup : ∀ (cs : List (Fin n)) (node : Fin n → Change n) (x : Fin n),
    cs.Nodup → x ∈ cs →
    (dedupAll cs node x).WaitingFor = dedupLoop (node x).WaitingFor (fun _ => false) [] := by
  intro cs
  induction cs with
  | nil => intro node x _ hx; simp at hx
  | cons c rest ih =>
    intro node x hnd hx
    rw [List.nodup_cons] at hnd
    simp only [dedupAll]
    by_cases hxc : x = c
    · subst hxc
      rw [dedupAll_not_mem _ _ _ hnd.1]
      simp [dedupNode]
    · have hxr : x ∈ rest := by
        rcases List.mem_cons.mp hx with e | e
        · exact absurd e hxc
        · exact e
      rw [ih _ x hnd.2 hxr]
      simp [dedupNode, hxc]

/-- C11: in every graph returned by `NewChangeGraph`, the `WaitingFor` of every node
holds no nil and no node twice, it is a subsequence of the `WaitingFor` the node had
after the first dedup pass (pruned entries are gone, nothing is reordered), and its
entries stand in the order in which they were first added by rule application. -/
theorem final_waitingFor_clean (col : Collaborators n) (g0 g : ChangeGraph n)
    (hb : buildGraph col = Except.ok g0) (h : NewChangeGraph col = some (Except.ok g))
    (a : Fin n) :
    none ∉ (g.node a).WaitingFor ∧ (g.node a).WaitingFor.Nodup ∧
    (g.node a).WaitingFor.Sublist ((pruneNilsAndDedup g0).node a).WaitingFor ∧
    (g.node a).WaitingFor.Pairwise (FirstBefore (g0.node a).WaitingFor) := by
  obtain ⟨g0', g1, hb', hc, hg⟩ := newChangeGraph_ok h
  rw [hb] at hb'
  cases hb'
  obtain ⟨hch, hfrom⟩ := checkCycles_changes hc
  have hp := checkCyclesFrom_pruned _ _ _ hfrom
  have hch0 : g0.changes = List.finRange n := buildGraph_changes hb
  have hmem : a ∈ g0.changes := by rw [hch0]; exact List.mem_finRange a
  have hnd : g0.changes.Nodup := by rw [hch0]; exact List.nodup_finRange n
  have hcl0 : Clean ((pruneNilsAndDedup g0).node a).WaitingFor :=
    dedupAll_clean _ _ a (Or.inl hmem)
  have hfirst : ((pruneNilsAndDedup g0).node a).WaitingFor.Pairwise
      (FirstBefore (g0.node a).WaitingFor) := by
    show (dedupAll g0.changes g0.node a).WaitingFor.Pairwise _
    rw [dedupAll_nodup _ _ a hnd hmem]
    exact firstBefore_dedupLoop _ _ [] _ [] rfl (by simp) (by simp) List.Pairwise.nil
  have hsub : (g.node a).WaitingFor.Sublist ((pruneNilsAndDedup g0).node a).WaitingFor := by
    subst hg
    show (dedupAll g1.changes g1.node a).WaitingFor.Sublist _
    rw [hch]
    show (dedupAll g0.changes g1.node a).WaitingFor.Sublist _
    rw [dedupAll_nodup _ _ a hnd hmem]
    obtain ⟨t, ht, hsub⟩ := dedupLoop_pruned_sublist
      ((pruneNilsAndDedup g0).node a).WaitingFor (g1.node a).WaitingFor (fun _ => false) []
      (hp a).2.1 (fun i => (hp a).2.2 i |>.imp id (fun h => h.1)) hcl0 (by simp)
    rw [ht]
    simpa using hsub
  have hcl : Clean (g.node a).WaitingFor := by
    subst hg
    refine dedupAll_clean _ _ a (Or.inl ?_)
    rw [hch]
    exact hmem
  exact ⟨hcl.2, hcl.1, hsub, hfirst.sublist hsub⟩

theorem final_waitingFor_clean_witness :
    buildGraph (staleCol true) = Except.ok (builtOf (staleCol true)) ∧
    NewChangeGraph (staleCol true) = some (Except.ok (resultOf (staleCol true))) ∧
    ((builtOf (staleCol true)).node 0).WaitingFor = [some 1, some 3] ∧
    ((resultOf (staleCol true)).node 0).WaitingFor = [some 1] ∧
    none ∉ ((resultOf (staleCol true)).node 0).WaitingFor ∧
    ((resultOf (staleCol true)).node 0).WaitingFor.Nodup ∧
    ((resultOf (staleCol true)).node 0).WaitingFor.Sublist
      ((pruneNilsAndDedup (builtOf (staleCol true))).node 0).WaitingFor ∧
    ((resultOf (staleCol true)).node 0).WaitingFor.Pairwise
      (FirstBefore ((builtOf (staleCol true)).node 0).WaitingFor) :=
  ⟨rfl, rfl, rfl, rfl,
    final_waitingFor_clean (staleCol true) (builtOf (staleCol true))
      (resultOf (staleCol true)) rfl rfl 0⟩

/-- C12: after `RemoveMatching(p)`, `All()` returns exactly what `AllMatching(not p)`
returned before, in the same order, `AllMatching(p)` returns nothing, and every
`Change` object, removed or kept, is untouched: its `WaitingFor` and
`requiredWaitingFor` are the same, so a removed node is still waited for wherever it
was. -/
theorem removeMatching_top_level_only (g : ChangeGraph n) (p : Fin n → Change n → Bool) :
    All (RemoveMatching g p) = AllMatching g (fun c ch => !p c ch) ∧
    AllMatching (RemoveMatching g p) p = [] ∧
    (RemoveMatching g p).node = g.node ∧
    (∀ x y, Edge (RemoveMatching g p).node x y ↔ Edge g.node x y) := by
  refine ⟨?_, ?_, rfl, fun _ _ => Iff.rfl⟩
  · simp [All, AllMatching, RemoveMatching]
  · simp only [AllMatching, RemoveMatching, List.filter_filter]
    rw [List.filter_eq_nil_iff]
    intro c _
    simp

theorem removeMatching_top_level_only_witness :
    All (RemoveMatching (resultOf chainOptional) (fun c _ => decide (c = 1))) = [0, 2] ∧
    ((RemoveMatching (resultOf chainOptional) (fun c _ => decide (c = 1))).node 0).WaitingFor =
      [some 1] :=
  ⟨(removeMatching_top_level_only (resultOf chainOptional) (fun c _ => decide (c = 1))).1.trans
    rfl, rfl⟩

/-! ### Acyclic built graphs -/

theorem dedupAll_acyclic {cs : List (Fin n)} {node : Fin n → Change n}
    (h : Acyclic node) : Acyclic (dedupAll cs node) :=
  fun x t => h x (Relation.TransGen.mono (fun _ _ e => (dedupAll_mem _ _ _ _).mp e) t)

theorem pruneNilsAndDedup_idem {g0 : ChangeGraph n} (hall : ∀ x, x ∈ g0.changes) :
    pruneNilsAndDedup (pruneNilsAndDedup g0) = pruneNilsAndDedup g0 := by
  show ({ changes := g0.changes, node := dedupAll g0.changes (dedupAll g0.changes g0.node) } :
    ChangeGraph n) = { changes := g0.changes, node := dedupAll g0.changes g0.node }
  rw [dedupAll_of_clean _ _ (fun x => dedupAll_clean _ _ x (Or.inl (hall x)))]

/-- On an acyclic built graph `NewChangeGraph` returns the built graph as it is after
the first dedup pass. -/
theorem newChangeGraph_of_acyclic {col : Collaborators n} {g0 : ChangeGraph n}
    (hb : buildGraph col = Except.ok g0) (hac : Acyclic g0.node) :
    NewChangeGraph col = some (Except.ok (pruneNilsAndDedup g0)) := by
  have hall : ∀ x, x ∈ g0.changes := fun x => by
    rw [buildGraph_changes hb]; exact List.mem_finRange x
  unfold NewChangeGraph
  simp only [hb, checkCycles_id (pruneNilsAndDedup g0) (dedupAll_acyclic hac),
    pruneNilsAndDedup_idem hall]

/-- C13: when rule resolution yields no `After` and no `Before` rule for any change,
`NewChangeGraph` succeeds, `All()` returns the input changes, one node each, in input
order, and every node has an empty `WaitingFor`; with zero input changes the returned
graph is empty. -/
theorem no_rules_no_edges (col : Collaborators n)
    (hno : ∀ c, ∃ rules, col.ApplicableRules c = Except.ok rules ∧
      ∀ r, r ∈ rules → r.Order ≠ ChangeRuleOrder.After ∧ r.Order ≠ ChangeRuleOrder.Before) :
    ∃ g, NewChangeGraph col = some (Except.ok g) ∧ All g = List.finRange n ∧
      (∀ x, (g.node x).WaitingFor = []) ∧ (n = 0 → All g = []) := by
  have hnil : ∀ c, col.ApplicableRules c = Except.ok [] := by
    intro c
    obtain ⟨rules, hr, hord⟩ := hno c
    cases rules with
    | nil => exact hr
    | cons r rest =>
      exfalso
      have := hord r (List.mem_cons_self _ _)
      cases ho : r.Order with
      | After => exact this.1 ho
      | Before => exact this.2 ho
  obtain ⟨g0, hb⟩ := @buildGraph_ok n col
    (fun c => ⟨[], hnil c, fun r hr => by simp at hr⟩)
  have hedge : ∀ x y, ¬ Edge g0.node x y := by
    intro x y e
    obtain ⟨r, hw⟩ := (buildGraph_edge hb x y).mp e
    rcases hw with ⟨_, rules, _, hr, hmem, _⟩ | ⟨_, rules, _, hr, hmem, _⟩
    · rw [hnil] at hr; cases hr; simp at hmem
    · rw [hnil] at hr; cases hr; simp at hmem
  have hac : Acyclic g0.node := by
    intro x t
    obtain ⟨c, e, _⟩ := Relation.TransGen.head'_iff.mp t
    exact hedge x c e
  have hch : g0.changes = List.finRange n := buildGraph_changes hb
  have hall : All (pruneNilsAndDedup g0) = List.finRange n := by
    simp [All, AllMatching, pruneNilsAndDedup, hch]
  refine ⟨pruneNilsAndDedup g0, newChangeGraph_of_acyclic hb hac, hall, ?_, ?_⟩
  · intro x
    refine clean_eq_nil (dedupAll_clean _ _ x (Or.inl (by rw [hch]; exact List.mem_finRange x)))
      (fun y hy => hedge x y ((dedupAll_mem _ _ _ _).mp hy))
  · intro h0
    subst h0
    rw [hall]
    rfl

theorem no_rules_no_edges_witness :
    NewChangeGraph noRulesCol = some (Except.ok (resultOf noRulesCol)) ∧
    All (resultOf noRulesCol) = [0, 1, 2] ∧
    ∃ g, NewChangeGraph noRulesCol = some (Except.ok g) ∧ All g = List.finRange 3 ∧
      (∀ x, (g.node x).WaitingFor = []) ∧ (3 = 0 → All g = []) :=
  ⟨rfl, rfl, no_rules_no_edges noRulesCol (fun _ => ⟨[], rfl, fun r hr => by simp at hr⟩)⟩

/-- C15: on a built graph that is already acyclic, cycle resolution returns no error
and removes no edge: `checkCycles` hands the graph back as it is, for any order of
the top-level nodes, and `NewChangeGraph` returns the built graph as it is after the
first dedup pass. -/
theorem acyclic_graph_unchanged (col : Collaborators n) (g0 : ChangeGraph n)
    (hb : buildGraph col = Except.ok g0)
    (hac : ∀ x, ¬ Relation.TransGen (Edge g0.node) x x) :
    NewChangeGraph col = some (Except.ok (pruneNilsAndDedup g0)) ∧
    checkCycles (pruneNilsAndDedup g0) = some (Except.ok (pruneNilsAndDedup g0)) ∧
    ∀ order : List (Fin n), checkCycles { changes := order, node := g0.node } =
      some (Except.ok { changes := order, node := g0.node }) :=
  ⟨newChangeGraph_of_acyclic hb hac,
    checkCycles_id (pruneNilsAndDedup g0) (dedupAll_acyclic hac),
    fun order => checkCycles_id { changes := order, node := g0.node } hac⟩

theorem acyclic_graph_unchanged_witness :
    buildGraph diamondCol = Except.ok (builtOf diamondCol) ∧
    ((builtOf diamondCol).node 0).WaitingFor = [some 1, some 2] ∧
    ((builtOf diamondCol).node 1).WaitingFor = [some 3] ∧
    ((builtOf diamondCol).node 2).WaitingFor = [some 3] ∧
    NewChangeGraph diamondCol = some (Except.ok (pruneNilsAndDedup (builtOf diamondCol))) :=
  have hac : ∀ x, ¬ Relation.TransGen (Edge (builtOf diamondCol).node) x x := by
    intro x t
    have h : ∀ a b : Fin 4, Edge (builtOf diamondCol).node a b →
        diamondRank b < diamondRank a := by decide
    exact lt_irrefl _ (transGen_rank diamondRank h t)
  ⟨rfl, rfl, rfl, rfl, (acyclic_graph_unchanged diamondCol (builtOf diamondCol) rfl hac).1⟩

/-- C17: union is mandatory. When the edge "`a` waits for `b`" is produced by at least
one rule not marked `IgnoreIfCyclical`, whatever other rules produce it as well, `b`
is in the `requiredWaitingFor` of `a` in the built graph; no iteration of the cycle
walk prunes the edge; it occurs exactly once in every returned graph; and when
mandatory edges lead from `b` back to `a`, `NewChangeGraph` fails with a cycle
error. -/
theorem union_is_mandatory (col : Collaborators n) (g0 : ChangeGraph n)
    (hb : buildGraph col = Except.ok g0) (a b : Fin n)
    (hr : ∃ r, MakesWait col r a b ∧ r.IgnoreIfCyclical = false) :
    (g0.node a).requiredWaitingFor b = true ∧
    MandatoryEdge (pruneNilsAndDedup g0).node a b ∧
    (∀ fuel owner p i s s1 res, MandatoryEdge s.node a b →
      cycleStep (checkCyclesInChanges fuel) owner (s.node owner).requiredWaitingFor p i s =
        some (s1, res) → MandatoryEdge s1.node a b) ∧
    (∀ g, NewChangeGraph col = some (Except.ok g) →
      (g.node a).WaitingFor.count (some b) = 1) ∧
    (Relation.ReflTransGen (MandatoryEdge g0.node) b a →
      ∃ e, NewChangeGraph col = some (Except.error (GraphError.cycle e))) := by
  have hreq := (buildGraph_required hb a b).mpr hr
  have hedge := (buildGraph_edge hb a b).mpr (hr.imp fun _ h => h.1)
  have hm : MandatoryEdge g0.node a b := ⟨hedge, hreq⟩
  have hall : ∀ x, x ∈ g0.changes := fun x => by
    rw [buildGraph_changes hb]; exact List.mem_finRange x
  refine ⟨hreq, (dedupAll_mandatory _ _ a b).mpr hm, ?_, ?_, ?_⟩
  · intro fuel owner p i s s1 res hms hstep
    exact (cycleStep_ok (checkCyclesInChanges_ok fuel) hstep).pruned.mandatory hms
  · intro g hg
    obtain ⟨g0', g1, hb', hc, hgeq⟩ := newChangeGraph_ok hg
    rw [hb] at hb'
    cases hb'
    have hcl : Clean (g.node a).WaitingFor := by
      subst hgeq
      refine dedupAll_clean _ _ a (Or.inl ?_)
      rw [(checkCycles_changes hc).1]
      exact hall a
    exact count_eq_one_of_nodup _ _ hcl.1 ((newChangeGraph_keeps hb hg).2 a b hm).1
  · intro hpath
    obtain ⟨e, he⟩ := checkCycles_mandatory g0 a (hall a)
      (Relation.TransGen.head' hm hpath)
    refine ⟨e, ?_⟩
    unfold NewChangeGraph
    simp only [hb, he]

theorem union_is_mandatory_witness :
    buildGraph tripleCol = Except.ok (builtOf tripleCol) ∧
    ((builtOf tripleCol).node 0).requiredWaitingFor 1 = true ∧
    ((resultOf tripleCol).node 0).WaitingFor = [some 1] :=
  have h := union_is_mandatory tripleCol (builtOf tripleCol) rfl 0 1
    ⟨afterRule false, Or.inl ⟨rfl, _, _, rfl, List.mem_cons_self _ _, rfl,
      List.mem_singleton.mpr rfl⟩, rfl⟩
  ⟨rfl, h.1, rfl⟩

/-! ### Termination of the walk -/

theorem cycleStep_mono {rec1 rec2 : Fin n → (Fin n → Bool) → List (Fin n) → WalkState n →
      Option (WalkState n × Option (CycleError n))}
    (hle : ∀ c req p s r, rec1 c req p s = some r → rec2 c req p s = some r)
    {owner : Fin n} {req : Fin n → Bool} {p : List (Fin n)} {i : Nat} {s : WalkState n}
    {r : WalkState n × Option (CycleError n)}
    (h : cycleStep rec1 owner req p i s = some r) : cycleStep rec2 owner req p i s = some r := by
  unfold cycleStep at h ⊢
  cases hc : (s.node owner).WaitingFor.getD i none with
  | none =>
    simp only [hc] at h ⊢
    exact h
  | some c =>
    simp only [hc] at h ⊢
    by_cases hv : s.visited c = true
    · simp only [hv, if_true] at h ⊢
      exact h
    · simp only [hv] at h ⊢
      cases hr1 : rec1 c (s.node c).requiredWaitingFor (p ++ [c])
          { node := s.node, visited := setAdd s.visited c } with
      | none => simp [hr1] at h
      | some res =>
        rw [hle _ _ _ _ _ hr1]
        simp only [hr1] at h
        exact h

theorem cycleLoop_mono {rec1 rec2 : Fin n → (Fin n → Bool) → List (Fin n) → WalkState n →
      Option (WalkState n × Option (CycleError n))}
    (hle : ∀ c req p s r, rec1 c req p s = some r → rec2 c req p s = some r)
    {owner : Fin n} {req : Fin n → Bool} {p : List (Fin n)} :
    ∀ (todo i : Nat) (s : WalkState n) (r : WalkState n × Option (CycleError n)),
    cycleLoop rec1 owner req p todo i s = some r →
    cycleLoop rec2 owner req p todo i s = some r := by
  intro todo
  induction todo with
  | zero => intro i s r h; simpa [cycleLoop] using h
  | succ todo ih =>
    intro i s r h
    simp only [cycleLoop] at h ⊢
    cases hst : cycleStep rec1 owner req p i s with
    | none => simp [hst] at h
    | some res =>
      rw [cycleStep_mono hle hst]
      obtain ⟨s1, e⟩ := res
      simp only [hst] at h
      cases e with
      | some err => exact h
      | none => exact ih _ _ _ h

theorem checkCyclesInChanges_succ : ∀ (fuel : Nat) (c : Fin n) (req : Fin n → Bool)
    (p : List (Fin n)) (s : WalkState n) (r : WalkState n × Option (CycleError n)),
    checkCyclesInChanges fuel c req p s = some r →
    checkCyclesInChanges (fuel + 1) c req p s = some r := by
  intro fuel
  induction fuel with
  | zero => intro c req p s r h; simp [checkCyclesInChanges] at h
  | succ fuel ih =>
    intro c req p s r h
    simp only [checkCyclesInChanges] at h ⊢
    exact cycleLoop_mono ih _ _ _ _ h

theorem checkCyclesInChanges_add (fuel : Nat) (c : Fin n) (req : Fin n → Bool)
    (p : List (Fin n)) (s : WalkState n) (r : WalkState n × Option (CycleError n))
    (h : checkCyclesInChanges fuel c req p s = some r) :
    ∀ k, checkCyclesInChanges (fuel + k) c req p s = some r := by
  intro k
  induction k with
  | zero => exact h
  | succ k ih => exact checkCyclesInChanges_succ _ _ _ _ _ _ ih

theorem cycleStep_visited {recurse : Fin n → (Fin n → Bool) → List (Fin n) → WalkState n →
      Option (WalkState n × Option (CycleError n))}
    {owner : Fin n} {req : Fin n → Bool} {p : List (Fin n)} {i : Nat} {s : WalkState n}
    {c : Fin n} (hc : (s.node owner).WaitingFor.getD i none = some c)
    (hv : s.visited c = true) :
    cycleStep recurse owner req p i s = cycleStep (fun _ _ _ _ => none) owner req p i s := by
  unfold cycleStep
  simp only [hc, hv, if_true]

/-- C16: `checkCycles` terminates on every graph of `n` nodes, cyclic or not: it
returns a graph or an error, never running out of the `n` levels of recursion it is
given. An iteration that meets a node of the visited map makes no recursive call, a
call returns as soon as the levels left outnumber the unvisited nodes, the root call
needs no more than `n` levels, and more levels never change a result. -/
theorem checkCycles_terminates (n : Nat) :
    (∀ g : ChangeGraph n, checkCycles g ≠ none) ∧
    (∀ recurse owner req p i (s : WalkState n) c,
      (s.node owner).WaitingFor.getD i none = some c → s.visited c = true →
      cycleStep recurse owner req p i s =
        cycleStep (fun _ _ _ _ => none) owner req p i s) ∧
    (∀ fuel c p (s : WalkState n), unvisited s.visited < fuel →
      checkCyclesInChanges fuel c (s.node c).requiredWaitingFor p s ≠ none) ∧
    (∀ (node : Fin n → Change n) root,
      checkCyclesInChanges n root (node root).requiredWaitingFor [root]
        { node := node, visited := setAdd (fun _ => false) root } ≠ none) ∧
    (∀ fuel k c req p (s : WalkState n) r, checkCyclesInChanges fuel c req p s = some r →
      checkCyclesInChanges (fuel + k) c req p s = some r) := by
  refine ⟨?_, ?_, ?_, ?_, ?_⟩
  · intro g
    unfold checkCycles
    cases h : checkCyclesFrom g.changes g.node with
    | none => exact absurd h (checkCyclesFrom_total _ _)
    | some r => cases r <;> simp
  · intro recurse owner req p i s c hc hv
    exact cycleStep_visited hc hv
  · intro fuel c p s h
    exact checkCyclesInChanges_total fuel c p s h
  · intro node root
    exact checkCyclesInChanges_total n root [root]
      { node := node, visited := setAdd (fun _ => false) root } (unvisited_root_lt root)
  · intro fuel k c req p s r h
    exact checkCyclesInChanges_add fuel c req p s r h k

theorem checkCycles_terminates_witness :
    checkCycles (builtOf chainMandatory) ≠ none ∧
    checkCycles (builtOf chainMandatory) =
      some (Except.error { path := [0, 1, 2, 0], repeated := 0 }) :=
  ⟨(checkCycles_terminates 3).1 (builtOf chainMandatory), rfl⟩

/-- C14: in the walk of `staleCol false`, the first iteration of the root frame of D
(current path: D alone) ends without error, and the next edge it examines, from D to
X, is examined with X in the visited map although X is not on the current path. -/
theorem visited_not_restored :
    (cycleStep (checkCyclesInChanges 3) 0
      ((pruneNilsAndDedup (builtOf (staleCol false))).node 0).requiredWaitingFor [0] 0
      { node := (pruneNilsAndDedup (builtOf (staleCol false))).node,
        visited := setAdd (fun _ => false) 0 }).map
      (fun r => (r.2, r.1.visited 3, (r.1.node 0).WaitingFor.getD 1 none)) =
      some (none, true, some 3) ∧
    (3 : Fin 4) ∉ ([0] : List (Fin 4)) :=
  ⟨rfl, by decide⟩

/-! ### The printer -/

theorem printLoop_cons_inv {node : Fin n → Change n}
    {recurse : List (Option (Fin n)) → (Fin n → Bool) → String →
      Except PrintFault (List (Line n) × (Fin n → Bool))}
    {indent : String} {c : Fin n} {rest : List (Option (Fin n))} {V V1 : Fin n → Bool}
    {lines : List (Line n)}
    (h : printLoop node recurse indent (some c :: rest) V = Except.ok (lines, V1)) :
    (V c = true ∧ ∃ more, printLoop node recurse indent rest V = Except.ok (more, V1) ∧
      lines = Line.change indent c :: Line.cycleFound indent :: more) ∨
    (V c = false ∧ ∃ sub V2 more,
      recurse (node c).WaitingFor (setAdd V c) (indent ++ "  ") = Except.ok (sub, V2) ∧
      printLoop node recurse indent rest (setDelete V2 c) = Except.ok (more, V1) ∧
      lines = Line.change indent c :: (sub ++ more)) := by
  simp only [printLoop] at h
  by_cases hv : V c = true
  · left
    rw [if_pos hv] at h
    cases hr : printLoop node recurse indent rest V with
    | error e => simp [hr] at h
    | ok res =>
      obtain ⟨more, V3⟩ := res
      simp only [hr, Except.ok.injEq, Prod.mk.injEq] at h
      obtain ⟨h1, h2⟩ := h
      subst h1 h2
      exact ⟨hv, more, rfl, rfl⟩
  · right
    rw [if_neg hv] at h
    cases hr : recurse (node c).WaitingFor (setAdd V c) (indent ++ "  ") with
    | error e => simp [hr] at h
    | ok res =>
      obtain ⟨sub, V2⟩ := res
      simp only [hr] at h
      cases hr2 : printLoop node recurse indent rest (setDelete V2 c) with
      | error e => simp [hr2] at h
      | ok res2 =>
        obtain ⟨more, V3⟩ := res2
        simp only [hr2, Except.ok.injEq, Prod.mk.injEq] at h
        obtain ⟨h1, h2⟩ := h
        subst h1 h2
        exact ⟨by simpa using hv, sub, V2, more, rfl, hr2, rfl⟩

theorem printLoop_restore {node : Fin n → Change n}
    {recurse : List (Option (Fin n)) → (Fin n → Bool) → String →
      Except PrintFault (List (Line n) × (Fin n → Bool))}
    (hrec : ∀ l V ind lines V1, recurse l V ind = Except.ok (lines, V1) → V1 = V)
    {indent : String} : ∀ (l : List (Option (Fin n))) (V V1 : Fin n → Bool)
    (lines : List (Line n)),
    printLoop node recurse indent l V = Except.ok (lines, V1) → V1 = V := by
  intro l
  induction l with
  | nil =>
    intro V V1 lines h
    simp only [printLoop, Except.ok.injEq, Prod.mk.injEq] at h
    exact h.2.symm
  | cons a rest ih =>
    intro V V1 lines h
    cases a with
    | none => simp [printLoop] at h
    | some c =>
      rcases printLoop_cons_inv h with ⟨_, more, hm, _⟩ | ⟨hv, sub, V2, more, hs, hm, _⟩
      · exact ih _ _ _ hm
      · have h2 := hrec _ _ _ _ _ hs
        subst h2
        rw [ih _ _ _ hm, setDelete_setAdd hv]

theorem printChanges_restore (node : Fin n → Change n) : ∀ (fuel : Nat)
    (l : List (Option (Fin n))) (V : Fin n → Bool) (ind : String) (lines : List (Line n))
    (V1 : Fin n → Bool),
    printChanges node fuel l V ind = Except.ok (lines, V1) → V1 = V := by
  intro fuel
  induction fuel with
  | zero => intro l V ind lines V1 h; simp [printChanges] at h
  | succ fuel ih =>
    intro l V ind lines V1 h
    simp only [printChanges] at h
    exact printLoop_restore (fun l V ind lines V1 h => ih l V ind lines V1 h) _ _ _ _ h

theorem printLoop_no_fuel_fault {node : Fin n → Change n}
    {recurse : List (Option (Fin n)) → (Fin n → Bool) → String →
      Except PrintFault (List (Line n) × (Fin n → Bool))} {k : Nat}
    (hres : ∀ l V ind lines V1, recurse l V ind = Except.ok (lines, V1) → V1 = V)
    (hrec : ∀ l V ind, unvisited V < k → recurse l V ind ≠ Except.error PrintFault.fuel)
    {indent : String} : ∀ (l : List (Option (Fin n))) (V : Fin n → Bool),
    unvisited V ≤ k →
    printLoop node recurse indent l V ≠ Except.error PrintFault.fuel := by
  intro l
  induction l with
  | nil => intro V _; simp [printLoop]
  | cons a rest ih =>
    intro V hV
    cases a with
    | none => simp [printLoop]
    | some c =>
      simp only [printLoop]
      by_cases hv : V c = true
      · rw [if_pos hv]
        cases hr : printLoop node recurse indent rest V with
        | error e =>
          intro h
          simp only [Except.error.injEq] at h
          exact ih V hV (h ▸ hr)
        | ok res => simp
      · rw [if_neg hv]
        have hv' : V c = false := by simpa using hv
        cases hr : recurse (node c).WaitingFor (setAdd V c) (indent ++ "  ") with
        | error e =>
          intro h
          simp only [Except.error.injEq] at h
          exact hrec _ _ _ (lt_of_lt_of_le (unvisited_setAdd_lt hv') hV) (h ▸ hr)
        | ok res =>
          obtain ⟨sub, V2⟩ := res
          have h2 := hres _ _ _ _ _ hr
          subst h2
          simp only
          rw [setDelete_setAdd hv']
          cases hr2 : printLoop node recurse indent rest V with
          | error e =>
            intro h
            simp only [Except.error.injEq] at h
            exact ih V hV (h ▸ hr2)
          | ok res2 => simp

theorem printChanges_no_fuel_fault (node : Fin n → Change n) : ∀ (fuel : Nat)
    (l : List (Option (Fin n))) (V : Fin n → Bool) (ind : String),
    unvisited V < fuel → printChanges node fuel l V ind ≠ Except.error PrintFault.fuel := by
  intro fuel
  induction fuel with
  | zero => intro l V ind h; omega
  | succ fuel ih =>
    intro l V ind h
    simp only [printChanges]
    exact printLoop_no_fuel_fault (printChanges_restore node fuel) ih l V (by omega)

theorem printLoop_ok {node : Fin n → Change n}
    {recurse : List (Option (Fin n)) → (Fin n → Bool) → String →
      Except PrintFault (List (Line n) × (Fin n → Bool))} {k : Nat} (hnf : NilFree node)
    (hrec : ∀ l V ind, none ∉ l → unvisited V < k →
      ∃ lines, recurse l V ind = Except.ok (lines, V))
    {indent : String} : ∀ (l : List (Option (Fin n))) (V : Fin n → Bool),
    none ∉ l → unvisited V ≤ k →
    ∃ lines, printLoop node recurse indent l V = Except.ok (lines, V) := by
  intro l
  induction l with
  | nil => intro V _ _; exact ⟨[], rfl⟩
  | cons a rest ih =>
    intro V hl hV
    cases a with
    | none => simp at hl
    | some c =>
      have hl' : none ∉ rest := fun h => hl (List.mem_cons_of_mem _ h)
      obtain ⟨more, hm⟩ := ih V hl' hV
      simp only [printLoop]
      by_cases hv : V c = true
      · rw [if_pos hv, hm]
        exact ⟨_, rfl⟩
      · rw [if_neg hv]
        have hv' : V c = false := by simpa using hv
        obtain ⟨sub, hs⟩ := hrec (node c).WaitingFor (setAdd V c) (indent ++ "  ") (hnf c)
          (lt_of_lt_of_le (unvisited_setAdd_lt hv') hV)
        rw [hs]
        simp only
        rw [setDelete_setAdd hv', hm]
        exact ⟨_, rfl⟩

theorem printChanges_ok {node : Fin n → Change n} (hnf : NilFree node) : ∀ (fuel : Nat)
    (l : List (Option (Fin n))) (V : Fin n → Bool) (ind : String),
    none ∉ l → unvisited V < fuel →
    ∃ lines, printChanges node fuel l V ind = Except.ok (lines, V) := by
  intro fuel
  induction fuel with
  | zero => intro l V ind _ h; omega
  | succ fuel ih =>
    intro l V ind hl h
    simp only [printChanges]
    exact printLoop_ok hnf ih l V hl (by omega)

theorem hit_nil (node : Fin n → Change n) (V : Fin n → Bool) : ¬ Hit node V [] := by
  rintro ⟨c, hc, _⟩
  simp at hc

theorem hit_cons_none {node : Fin n → Change n} {V : Fin n → Bool}
    {rest : List (Option (Fin n))} : Hit node V (none :: rest) ↔ Hit node V rest := by
  unfold Hit
  simp

/-- Reaching a visited node or a cycle from `c`, when `c` itself is not visited, is
reaching one from an entry of its `WaitingFor` once `c` is visited. -/
theorem hit_children {node : Fin n → Change n} {V : Fin n → Bool} {c : Fin n}
    (hv : V c = false) :
    (∃ y, Relation.ReflTransGen (Edge node) c y ∧
      (V y = true ∨ Relation.TransGen (Edge node) y y)) ↔
    Hit node (setAdd V c) (node c).WaitingFor := by
  constructor
  · rintro ⟨y, hcy, hy⟩
    rcases Relation.ReflTransGen.cases_head hcy with e | ⟨d, hcd, hdy⟩
    · subst e
      rcases hy with h | h
      · rw [hv] at h; cases h
      · obtain ⟨d, hcd, hdc⟩ := Relation.TransGen.head'_iff.mp h
        exact ⟨d, hcd, c, hdc, Or.inl (by simp [setAdd])⟩
    · refine ⟨d, hcd, y, hdy, ?_⟩
      rcases hy with h | h
      · left
        unfold setAdd
        by_cases hyc : y = c <;> simp [hyc, h]
      · exact Or.inr h
  · rintro ⟨d, hcd, y, hdy, hy⟩
    have hcd' : Edge node c d := hcd
    rcases hy with h | h
    · unfold setAdd at h
      by_cases hyc : y = c
      · subst hyc
        exact ⟨y, Relation.ReflTransGen.refl, Or.inr (Relation.TransGen.head' hcd' hdy)⟩
      · simp only [hyc, if_false] at h
        exact ⟨y, Relation.ReflTransGen.head hcd' hdy, Or.inl h⟩
    · exact ⟨y, Relation.ReflTransGen.head hcd' hdy, Or.inr h⟩

theorem hit_cons_some {node : Fin n → Change n} {V : Fin n → Bool} {c : Fin n}
    {rest : List (Option (Fin n))} :
    Hit node V (some c :: rest) ↔
      (∃ y, Relation.ReflTransGen (Edge node) c y ∧
        (V y = true ∨ Relation.TransGen (Edge node) y y)) ∨ Hit node V rest := by
  unfold Hit
  constructor
  · rintro ⟨d, hd, h⟩
    rcases List.mem_cons.mp hd with e | e
    · cases e; exact Or.inl h
    · exact Or.inr ⟨d, e, h⟩
  · rintro (h | ⟨d, hd, h⟩)
    · exact ⟨c, List.mem_cons_self _ _, h⟩
    · exact ⟨d, List.mem_cons_of_mem _ hd, h⟩

theorem hasMarker_cons_change {ind : String} {c : Fin n} {lines : List (Line n)} :
    HasMarker (Line.change ind c :: lines) ↔ HasMarker lines := by
  unfold HasMarker
  simp

theorem hasMarker_append {l1 l2 : List (Line n)} :
    HasMarker (l1 ++ l2) ↔ HasMarker l1 ∨ HasMarker l2 := by
  unfold HasMarker
  simp only [List.mem_append]
  constructor
  · rintro ⟨i, h | h⟩
    · exact Or.inl ⟨i, h⟩
    · exact Or.inr ⟨i, h⟩
  · rintro (⟨i, h⟩ | ⟨i, h⟩)
    · exact ⟨i, Or.inl h⟩
    · exact ⟨i, Or.inr h⟩

theorem printLoop_marker {node : Fin n → Change n}
    {recurse : List (Option (Fin n)) → (Fin n → Bool) → String →
      Except PrintFault (List (Line n) × (Fin n → Bool))}
    (hres : ∀ l V ind lines V1, recurse l V ind = Except.ok (lines, V1) → V1 = V)
    (hrec : ∀ l V ind lines V1, recurse l V ind = Except.ok (lines, V1) →
      (HasMarker lines ↔ Hit node V l))
    {indent : String} : ∀ (l : List (Option (Fin n))) (V V1 : Fin n → Bool)
    (lines : List (Line n)),
    printLoop node recurse indent l V = Except.ok (lines, V1) →
    (HasMarker lines ↔ Hit node V l) := by
  intro l
  induction l with
  | nil =>
    intro V V1 lines h
    simp only [printLoop, Except.ok.injEq, Prod.mk.injEq] at h
    rw [← h.1]
    constructor
    · rintro ⟨i, hi⟩; simp at hi
    · intro hh; exact absurd hh (hit_nil node V)
  | cons a rest ih =>
    intro V V1 lines h
    cases a with
    | none => simp [printLoop] at h
    | some c =>
      rcases printLoop_cons_inv h with ⟨hv, more, hm, hl⟩ | ⟨hv, sub, V2, more, hs, hm, hl⟩
      · subst hl
        constructor
        · intro _
          exact hit_cons_some.mpr (Or.inl ⟨c, Relation.ReflTransGen.refl, Or.inl hv⟩)
        · intro _
          exact ⟨indent, by simp⟩
      · subst hl
        have h2 := hres _ _ _ _ _ hs
        subst h2
        rw [setDelete_setAdd hv] at hm
        rw [hasMarker_cons_change, hasMarker_append, hrec _ _ _ _ _ hs, ih _ _ _ hm,
          hit_cons_some, hit_children hv]

theorem printChanges_marker (node : Fin n → Change n) : ∀ (fuel : Nat)
    (l : List (Option (Fin n))) (V : Fin n → Bool) (ind : String) (lines : List (Line n))
    (V1 : Fin n → Bool), printChanges node fuel l V ind = Except.ok (lines, V1) →
    (HasMarker lines ↔ Hit node V l) := by
  intro fuel
  induction fuel with
  | zero => intro l V ind lines V1 h; simp [printChanges] at h
  | succ fuel ih =>
    intro l V ind lines V1 h
    simp only [printChanges] at h
    exact printLoop_marker (printChanges_restore node fuel) ih _ _ _ _ h

theorem unvisited_empty_lt (n : Nat) : unvisited (fun _ : Fin n => false) < n + 1 :=
  Nat.lt_succ_of_le (unvisited_le _)

theorem printLines_ok_iff {g : ChangeGraph n} {lines : List (Line n)} :
    PrintLines g = Except.ok lines ↔
      ∃ V, printChanges g.node (n + 1) (g.changes.map some) (fun _ => false) "" =
        Except.ok (lines, V) := by
  unfold PrintLines
  cases h : printChanges g.node (n + 1) (g.changes.map some) (fun _ => false) "" with
  | error e => simp
  | ok res =>
    obtain ⟨ls, V⟩ := res
    simp

theorem hit_top {g : ChangeGraph n} :
    Hit g.node (fun _ => false) (g.changes.map some) ↔
      ∃ r, r ∈ g.changes ∧ ∃ y, Relation.ReflTransGen (Edge g.node) r y ∧
        Relation.TransGen (Edge g.node) y y := by
  unfold Hit
  constructor
  · rintro ⟨c, hc, y, hcy, hy⟩
    rw [List.mem_map] at hc
    obtain ⟨r, hr, e⟩ := hc
    cases e
    rcases hy with h | h
    · cases h
    · exact ⟨c, hr, y, hcy, h⟩
  · rintro ⟨r, hr, y, hry, hy⟩
    exact ⟨r, List.mem_map.mpr ⟨r, hr, rfl⟩, y, hry, Or.inr hy⟩

/-- C18: `PrintStr` terminates on every graph of `n` nodes, cyclic or not: the `n + 1`
levels of recursion it is given always suffice, and on a graph without nil entries it
returns a rendering. A node met while it is in the visited map, which on every return
is what it was at the call and so holds exactly the ancestors, is not expanded: its
line is followed by a `cycle found` line and the recursive call is not made. The
rendering holds a `cycle found` line exactly when some top-level node reaches a node
that lies on a cycle. -/
theorem printStr_terminates (n : Nat) :
    (∀ (g : ChangeGraph n) op desc, PrintLines g ≠ Except.error PrintFault.fuel ∧
      PrintStr op desc g ≠ Except.error PrintFault.fuel) ∧
    (∀ g : ChangeGraph n, NilFree g.node → ∃ lines, PrintLines g = Except.ok lines ∧
      ∀ op desc, PrintStr op desc g =
        Except.ok (String.join (lines.map (renderLine op desc)))) ∧
    (∀ (node : Fin n → Change n) fuel l V ind lines V1,
      printChanges node fuel l V ind = Except.ok (lines, V1) → V1 = V) ∧
    (∀ (node : Fin n → Change n) recurse ind c rest V, V c = true →
      printLoop node recurse ind (some c :: rest) V =
        match printLoop node recurse ind rest V with
        | Except.error e => Except.error e
        | Except.ok (more, V1) =>
          Except.ok (Line.change ind c :: Line.cycleFound ind :: more, V1)) ∧
    (∀ (g : ChangeGraph n) lines, PrintLines g = Except.ok lines →
      (HasMarker lines ↔ ∃ r, r ∈ g.changes ∧ ∃ y,
        Relation.ReflTransGen (Edge g.node) r y ∧ Relation.TransGen (Edge g.node) y y)) := by
  refine ⟨?_, ?_, ?_, ?_, ?_⟩
  · intro g op desc
    have h1 : PrintLines g ≠ Except.error PrintFault.fuel := by
      unfold PrintLines
      cases h : printChanges g.node (n + 1) (g.changes.map some) (fun _ => false) "" with
      | error e =>
        intro he
        simp only [Except.error.injEq] at he
        exact printChanges_no_fuel_fault g.node (n + 1) _ _ _ (unvisited_empty_lt n) (he ▸ h)
      | ok res => simp
    refine ⟨h1, ?_⟩
    unfold PrintStr
    cases h : PrintLines g with
    | error e =>
      intro he
      simp only [Except.error.injEq] at he
      exact h1 (he ▸ h)
    | ok lines => simp
  · intro g hnf
    obtain ⟨lines, hl⟩ := printChanges_ok hnf (n + 1) (g.changes.map some) (fun _ => false) ""
      (by simp) (unvisited_empty_lt n)
    have hp : PrintLines g = Except.ok lines := printLines_ok_iff.mpr ⟨_, hl⟩
    refine ⟨lines, hp, fun op desc => ?_⟩
    unfold PrintStr
    rw [hp]
  · intro node fuel l V ind lines V1 h
    exact printChanges_restore node fuel l V ind lines V1 h
  · intro node recurse ind c rest V hv
    cases hr : printLoop node recurse ind rest V with
    | error e => simp [printLoop, hv, hr]
    | ok res => simp [printLoop, hv, hr]
  · intro g lines h
    obtain ⟨V, hV⟩ := printLines_ok_iff.mp h
    rw [printChanges_marker g.node _ _ _ _ _ _ hV, hit_top]

theorem printStr_terminates_witness :
    PrintStr (fun _ => "upsert") (fun c => if c = 0 then "a" else if c = 1 then "b" else "c")
      (builtOf chainMandatory) ≠ Except.error PrintFault.fuel ∧
    PrintStr (fun _ => "upsert") (fun c => if c = 0 then "a" else if c = 1 then "b" else "c")
      { changes := [0], node := (builtOf chainMandatory).node } =
      Except.ok "(upsert) a\n  (upsert) b\n    (upsert) c\n      (upsert) a\n      cycle found\n" :=
  ⟨((printStr_terminates 3).1 (builtOf chainMandatory) _ _).2, rfl⟩

/-! ### The rendering of an acyclic graph -/

theorem spaces_succ (d : Nat) : spaces (2 * d) ++ "  " = spaces (2 * (d + 1)) := by
  unfold spaces
  apply String.ext
  rw [String.data_append]
  show List.replicate (2 * d) ' ' ++ [' ', ' '] = List.replicate (2 * (d + 1)) ' '
  have : 2 * (d + 1) = 2 * d + 2 := by ring
  rw [this, List.replicate_add]
  rfl

theorem printLoop_tree {node : Fin n → Change n}
    {recurse : List (Option (Fin n)) → (Fin n → Bool) → String →
      Except PrintFault (List (Line n) × (Fin n → Bool))}
    {treeRec : Nat → List (Option (Fin n)) → List (Line n)} {k : Nat} (hnf : NilFree node)
    (hrec : ∀ l V d, none ∉ l → ¬ Hit node V l → unvisited V < k →
      recurse l V (spaces (2 * d)) = Except.ok (treeRec d l, V))
    (d : Nat) : ∀ (l : List (Option (Fin n))) (V : Fin n → Bool),
    none ∉ l → ¬ Hit node V l → unvisited V ≤ k →
    printLoop node recurse (spaces (2 * d)) l V =
      Except.ok (treeLoop node treeRec d l, V) := by
  intro l
  induction l with
  | nil => intro V _ _ _; rfl
  | cons a rest ih =>
    intro V hl hh hV
    cases a with
    | none => simp at hl
    | some c =>
      have hl' : none ∉ rest := fun h => hl (List.mem_cons_of_mem _ h)
      rw [hit_cons_some, not_or] at hh
      have hv : V c = false := by
        cases hvc : V c with
        | false => rfl
        | true => exact absurd ⟨c, Relation.ReflTransGen.refl, Or.inl hvc⟩ hh.1
      have hsub := hrec (node c).WaitingFor (setAdd V c) (d + 1) (hnf c)
        (fun h => hh.1 ((hit_children hv).mpr h))
        (lt_of_lt_of_le (unvisited_setAdd_lt hv) hV)
      rw [← spaces_succ] at hsub
      simp only [printLoop, treeLoop]
      rw [if_neg (by simp [hv]), hsub]
      simp only
      rw [setDelete_setAdd hv, ih V hl' hh.2 hV]

theorem printChanges_tree {node : Fin n → Change n} (hnf : NilFree node) : ∀ (fuel : Nat)
    (l : List (Option (Fin n))) (V : Fin n → Bool) (d : Nat),
    none ∉ l → ¬ Hit node V l → unvisited V < fuel →
    printChanges node fuel l V (spaces (2 * d)) =
      Except.ok (treeRendering node fuel d l, V) := by
  intro fuel
  induction fuel with
  | zero => intro l V d _ _ h; omega
  | succ fuel ih =>
    intro l V d hl hh h
    simp only [printChanges, treeRendering]
    exact printLoop_tree hnf ih d l V hl hh (by omega)

theorem mem_pathsLoop {node : Fin n → Change n}
    {recurse : List (Option (Fin n)) → List (List (Fin n))} :
    ∀ (l : List (Option (Fin n))) (q : List (Fin n)),
    q ∈ pathsLoop node recurse l ↔
      ∃ c, some c ∈ l ∧ (q = [c] ∨ ∃ q1, q1 ∈ recurse (node c).WaitingFor ∧ q = c :: q1) := by
  intro l
  induction l with
  | nil => intro q; simp [pathsLoop]
  | cons a rest ih =>
    intro q
    cases a with
    | none => simp [pathsLoop, ih]
    | some c =>
      simp only [pathsLoop, List.mem_cons, List.mem_append, List.mem_map, ih]
      constructor
      · rintro (h | ⟨q1, h1, h2⟩ | ⟨d, hd, h⟩)
        · exact ⟨c, Or.inl rfl, Or.inl h⟩
        · exact ⟨c, Or.inl rfl, Or.inr ⟨q1, h1, h2.symm⟩⟩
        · exact ⟨d, Or.inr hd, h⟩
      · rintro ⟨d, hd | hd, h⟩
        · cases hd
          rcases h with h | ⟨q1, h1, h2⟩
          · exact Or.inl h
          · exact Or.inr (Or.inl ⟨q1, h1, h2.symm⟩)
        · exact Or.inr (Or.inr ⟨d, hd, h⟩)

theorem mem_allPaths (node : Fin n → Change n) : ∀ (fuel : Nat) (l : List (Option (Fin n)))
    (q : List (Fin n)),
    q ∈ allPaths node fuel l ↔
      ∃ c rest, q = c :: rest ∧ some c ∈ l ∧ List.Chain (Edge node) c rest ∧
        q.length ≤ fuel := by
  intro fuel
  induction fuel with
  | zero =>
    intro l q
    simp only [allPaths, List.not_mem_nil, false_iff]
    rintro ⟨c, rest, rfl, _, _, h⟩
    simp at h
  | succ fuel ih =>
    intro l q
    simp only [allPaths, mem_pathsLoop]
    constructor
    · rintro ⟨c, hc, h | ⟨q1, h1, h2⟩⟩
      · exact ⟨c, [], h, hc, List.Chain.nil, by rw [h]; simp⟩
      · obtain ⟨d, rest, hq1, hd, hch, hlen⟩ := (ih _ _).mp h1
        subst hq1
        exact ⟨c, d :: rest, h2, hc, List.Chain.cons hd hch, by rw [h2]; simpa using hlen⟩
    · rintro ⟨c, rest, hq, hc, hch, hlen⟩
      refine ⟨c, hc, ?_⟩
      cases rest with
      | nil => exact Or.inl hq
      | cons d rest1 =>
        right
        rw [List.chain_cons] at hch
        refine ⟨d :: rest1, (ih _ _).mpr ⟨d, rest1, rfl, hch.1, hch.2, ?_⟩, hq⟩
        rw [hq] at hlen
        simpa using hlen

theorem chain_nodup {node : Fin n → Change n} (hac : Acyclic node) {c : Fin n}
    {rest : List (Fin n)} (h : List.Chain (Edge node) c rest) : (c :: rest).Nodup := by
  have h1 : List.Chain (Relation.TransGen (Edge node)) c rest :=
    List.Chain.imp (fun _ _ e => Relation.TransGen.single e) h
  have h2 : List.Pairwise (Relation.TransGen (Edge node)) (c :: rest) :=
    List.chain_iff_pairwise.mp h1
  have h3 : List.Pairwise (fun a b => a ≠ b) (c :: rest) :=
    List.Pairwise.imp (fun {a b} t (e : a = b) => hac a (by rw [← e] at t; exact t)) h2
  exact h3

theorem chain_length_le {node : Fin n → Change n} (hac : Acyclic node) {c : Fin n}
    {rest : List (Fin n)} (h : List.Chain (Edge node) c rest) : (c :: rest).length ≤ n := by
  have := List.Nodup.length_le_card (chain_nodup hac h)
  simpa using this

theorem pathLine_cons {d : Nat} {c : Fin n} {q : List (Fin n)} (hq : q ≠ []) :
    pathLine d (c :: q) = pathLine (d + 1) q := by
  cases q with
  | nil => exact absurd rfl hq
  | cons e q1 => rfl

theorem pathLine_snoc : ∀ (q : List (Fin n)) (d : Nat) (c : Fin n),
    pathLine d (q ++ [c]) = Line.change (spaces (2 * (d + q.length))) c := by
  intro q
  induction q with
  | nil => intro d c; rfl
  | cons e q1 ih =>
    intro d c
    rw [List.cons_append, pathLine_cons (by simp), ih]
    congr 2
    simp only [List.length_cons]
    ring

theorem treeLoop_paths {node : Fin n → Change n}
    {treeRec : Nat → List (Option (Fin n)) → List (Line n)}
    {pathRec : List (Option (Fin n)) → List (List (Fin n))}
    (hrec : ∀ d l, treeRec d l = (pathRec l).map (pathLine d))
    (hne : ∀ l q, q ∈ pathRec l → q ≠ []) :
    ∀ (l : List (Option (Fin n))) (d : Nat),
    treeLoop node treeRec d l = (pathsLoop node pathRec l).map (pathLine d) := by
  intro l
  induction l with
  | nil => intro d; rfl
  | cons a rest ih =>
    intro d
    cases a with
    | none => simp only [treeLoop, pathsLoop, ih]
    | some c =>
      simp only [treeLoop, pathsLoop, List.map_cons, List.map_append, List.map_map, ih, hrec]
      congr 2
      apply List.map_congr_left
      intro q hq
      exact (pathLine_cons (hne _ q hq)).symm

theorem allPaths_ne_nil (node : Fin n → Change n) (fuel : Nat) (l : List (Option (Fin n)))
    (q : List (Fin n)) (h : q ∈ allPaths node fuel l) : q ≠ [] := by
  obtain ⟨c, rest, hq, _⟩ := (mem_allPaths node fuel l q).mp h
  rw [hq]
  simp

theorem treeRendering_paths (node : Fin n → Change n) : ∀ (fuel d : Nat)
    (l : List (Option (Fin n))),
    treeRendering node fuel d l = (allPaths node fuel l).map (pathLine d) := by
  intro fuel
  induction fuel with
  | zero => intro d l; rfl
  | succ fuel ih =>
    intro d l
    simp only [treeRendering, allPaths]
    exact treeLoop_paths ih (allPaths_ne_nil node fuel) l d

theorem pathsLoop_nodup {node : Fin n → Change n}
    {recurse : List (Option (Fin n)) → List (List (Fin n))}
    (hrec : ∀ l, l.Nodup → (recurse l).Nodup) (hne : ∀ l q, q ∈ recurse l → q ≠ [])
    (hwf : ∀ x, (node x).WaitingFor.Nodup) :
    ∀ l : List (Option (Fin n)), l.Nodup → (pathsLoop node recurse l).Nodup := by
  intro l
  induction l with
  | nil => intro _; simp [pathsLoop]
  | cons a rest ih =>
    intro hnd
    rw [List.nodup_cons] at hnd
    cases a with
    | none => simp only [pathsLoop]; exact ih hnd.2
    | some c =>
      simp only [pathsLoop]
      have hhead : ∀ q, q ∈ pathsLoop node recurse rest → ∀ q1, q ≠ c :: q1 := by
        intro q hq q1 e
        obtain ⟨d, hd, h⟩ := (mem_pathsLoop rest q).mp hq
        have hdc : d = c := by
          rcases h with h | ⟨q2, _, h⟩
          · rw [e] at h; simp at h; exact h.1.symm
          · rw [e] at h; simp at h; exact h.1.symm
        subst hdc
        exact hnd.1 hd
      rw [List.nodup_cons]
      constructor
      · rw [List.mem_append, List.mem_map]
        rintro (⟨q1, hq1, e⟩ | h)
        · simp at e
          exact hne _ q1 hq1 e
        · exact hhead _ h [] rfl
      · rw [List.nodup_append]
        refine ⟨?_, ih hnd.2, ?_⟩
        · exact (hrec _ (hwf c)).map (fun a b e => by simpa using e)
        · intro q h1 h2
          rw [List.mem_map] at h1
          obtain ⟨q1, _, e⟩ := h1
          exact hhead q h2 q1 e.symm

theorem allPaths_nodup {node : Fin n → Change n} (hwf : ∀ x, (node x).WaitingFor.Nodup) :
    ∀ (fuel : Nat) (l : List (Option (Fin n))), l.Nodup → (allPaths node fuel l).Nodup := by
  intro fuel
  induction fuel with
  | zero => intro l _; simp [allPaths]
  | succ fuel ih =>
    intro l hl
    simp only [allPaths]
    exact pathsLoop_nodup ih (allPaths_ne_nil node fuel) hwf l hl

theorem mem_allPaths_top {g : ChangeGraph n} (hac : Acyclic g.node) (p : List (Fin n)) :
    p ∈ allPaths g.node (n + 1) (g.changes.map some) ↔ IsPath g p := by
  rw [mem_allPaths]
  unfold IsPath
  constructor
  · rintro ⟨c, rest, hq, hc, hch, _⟩
    rw [List.mem_map] at hc
    obtain ⟨r, hr, e⟩ := hc
    cases e
    exact ⟨c, rest, hq, hr, hch⟩
  · rintro ⟨r, rest, hq, hr, hch⟩
    refine ⟨r, rest, hq, List.mem_map.mpr ⟨r, hr, rfl⟩, hch, ?_⟩
    rw [hq]
    exact le_trans (chain_length_le hac hch) (Nat.le_succ n)

theorem not_hit_of_acyclic {node : Fin n → Change n} (hac : Acyclic node)
    (l : List (Option (Fin n))) : ¬ Hit node (fun _ => false) l := by
  rintro ⟨c, _, y, _, h | h⟩
  · cases h
  · exact hac y h

theorem pathsLoop_congr {node : Fin n → Change n}
    {rec1 rec2 : List (Option (Fin n)) → List (List (Fin n))} :
    ∀ l : List (Option (Fin n)),
    (∀ c, some c ∈ l → rec1 (node c).WaitingFor = rec2 (node c).WaitingFor) →
    pathsLoop node rec1 l = pathsLoop node rec2 l := by
  intro l
  induction l with
  | nil => intro _; rfl
  | cons a rest ih =>
    intro h
    have hrest := ih (fun c hc => h c (List.mem_cons_of_mem _ hc))
    cases a with
    | none => simp only [pathsLoop, hrest]
    | some c => simp only [pathsLoop, hrest, h c (List.mem_cons_self _ _)]

/-- Once `fuel` covers the longest chain that starts in the list, one more level adds
no path. -/
theorem allPaths_stable (node : Fin n → Change n) : ∀ (fuel : Nat)
    (l : List (Option (Fin n))),
    (∀ c rest, some c ∈ l → List.Chain (Edge node) c rest → (c :: rest).length ≤ fuel) →
    allPaths node (fuel + 1) l = allPaths node fuel l := by
  intro fuel
  induction fuel with
  | zero =>
    intro l h
    have hno : ∀ c, some c ∉ l := by
      intro c hc
      have := h c [] hc List.Chain.nil
      simp at this
    simp only [allPaths]
    induction l with
    | nil => rfl
    | cons a rest ih =>
      cases a with
      | none =>
        simp only [pathsLoop]
        exact ih (fun c r hc => h c r (List.mem_cons_of_mem _ hc))
          (fun c hc => hno c (List.mem_cons_of_mem _ hc))
      | some c => exact absurd (List.mem_cons_self _ _) (hno c)
  | succ fuel ih =>
    intro l h
    rw [allPaths]
    conv_rhs => rw [allPaths]
    apply pathsLoop_congr
    intro c hc
    apply ih
    intro d rest hd hch
    have := h c (d :: rest) hc (List.Chain.cons hd hch)
    simpa using this

theorem allPaths_stable_add {node : Fin n → Change n} (hac : Acyclic node)
    (l : List (Option (Fin n))) : ∀ k,
    allPaths node (n + 1 + k) l = allPaths node (n + 1) l := by
  intro k
  induction k with
  | zero => rfl
  | succ k ih =>
    rw [← ih]
    exact allPaths_stable node (n + 1 + k) l
      (fun c rest _ hch => le_trans (chain_length_le hac hch) (by omega))

/-- C19: on an acyclic graph without nil entries `PrintStr` is the plain recursive tree
rendering: the lines of `printChanges` are those of `treeRendering` (each top-level
node in order at depth 0, followed by the rendering of its `WaitingFor` one level
deeper, a line at depth `d` being prefixed by `2 * d` spaces), and `PrintStr` is their
concatenation. No line is a `cycle found` line. The lines are, in order, the lines of
the paths listed by `allPaths`, the line of a path being that of its last node at the
depth given by the number of nodes before it; a list of nodes is listed exactly when
it is a path from a top-level node along `WaitingFor` edges, and no path is listed
twice when neither the top level nor any `WaitingFor` repeats a node. The `n + 1`
levels given to `treeRendering` cut nothing: more levels give the same lines. -/
theorem printStr_is_tree_rendering (g : ChangeGraph n)
    (hac : ∀ x, ¬ Relation.TransGen (Edge g.node) x x) (hnf : NilFree g.node) :
    PrintLines g = Except.ok (treeRendering g.node (n + 1) 0 (g.changes.map some)) ∧
    (∀ op desc, PrintStr op desc g = Except.ok (String.join
      ((treeRendering g.node (n + 1) 0 (g.changes.map some)).map (renderLine op desc)))) ∧
    ¬ HasMarker (treeRendering g.node (n + 1) 0 (g.changes.map some)) ∧
    treeRendering g.node (n + 1) 0 (g.changes.map some) =
      (allPaths g.node (n + 1) (g.changes.map some)).map (pathLine 0) ∧
    (∀ (q : List (Fin n)) c, pathLine 0 (q ++ [c]) = Line.change (spaces (2 * q.length)) c) ∧
    (∀ p, p ∈ allPaths g.node (n + 1) (g.changes.map some) ↔ IsPath g p) ∧
    (g.changes.Nodup → (∀ x, (g.node x).WaitingFor.Nodup) →
      (allPaths g.node (n + 1) (g.changes.map some)).Nodup) ∧
    (∀ k, treeRendering g.node (n + 1 + k) 0 (g.changes.map some) =
      treeRendering g.node (n + 1) 0 (g.changes.map some)) := by
  have htree := printChanges_tree hnf (n + 1) (g.changes.map some) (fun _ => false) 0
    (by simp) (not_hit_of_acyclic hac _) (unvisited_empty_lt n)
  have hind : spaces (2 * 0) = "" := rfl
  rw [hind] at htree
  have hlines : PrintLines g =
      Except.ok (treeRendering g.node (n + 1) 0 (g.changes.map some)) :=
    printLines_ok_iff.mpr ⟨_, htree⟩
  refine ⟨hlines, ?_, ?_, treeRendering_paths g.node _ _ _, ?_, mem_allPaths_top hac, ?_, ?_⟩
  · intro op desc
    unfold PrintStr
    rw [hlines]
  · rw [printChanges_marker g.node _ _ _ _ _ _ htree]
    exact not_hit_of_acyclic hac _
  · intro q c
    rw [pathLine_snoc]
    simp
  · intro hnd hwf
    exact allPaths_nodup hwf _ _ (hnd.map (fun a b e => by simpa using e))
  · intro k
    rw [treeRendering_paths, treeRendering_paths, allPaths_stable_add hac]

theorem printStr_is_tree_rendering_witness :
    PrintStr (fun _ => "upsert")
        (fun c => if c = 0 then "a" else if c = 1 then "b" else if c = 2 then "c" else "d")
        (resultOf diamondCol) =
      Except.ok ("(upsert) a\n  (upsert) b\n    (upsert) d\n  (upsert) c\n    (upsert) d\n" ++
        "(upsert) b\n  (upsert) d\n(upsert) c\n  (upsert) d\n(upsert) d\n") ∧
    allPaths (resultOf diamondCol).node 5 ((resultOf diamondCol).changes.map some) =
      [[0], [0, 1], [0, 1, 3], [0, 2], [0, 2, 3], [1], [1, 3], [2], [2, 3], [3]] ∧
    PrintLines (resultOf diamondCol) =
      Except.ok (treeRendering (resultOf diamondCol).node 5 0
        ((resultOf diamondCol).changes.map some)) :=
  have hac : ∀ x, ¬ Relation.TransGen (Edge (resultOf diamondCol).node) x x := by
    intro x t
    have h : ∀ a b : Fin 4, Edge (resultOf diamondCol).node a b →
        diamondRank b < diamondRank a := by decide
    exact lt_irrefl _ (transGen_rank diamondRank h t)
  have hnf : NilFree (resultOf diamondCol).node := by
    unfold NilFree
    decide
  ⟨rfl, rfl, (printStr_is_tree_rendering (resultOf diamondCol) hac hnf).1⟩

end Kapp
